import Mathlib

/-!
Shallow embedding of the `cuckoohash` Go package (leiless/cuckoohash-go):
a bucketed cuckoo hash table with fixed-width byte-string keys and
variable-width byte-string values, together with proofs of the
specification claims.

Modelling conventions:
* Byte strings (`[]byte`) are `List Nat` (entries below 256 in real use;
  the arithmetic is modelled with explicit `% 2^64` / `% 2^32` wherever
  the Go code relies on machine-integer wrapping).
* The two caller-supplied hash functions and the PRNG used for the
  kick-out tie-break are pure functions passed in a `Hashers` record;
  the PRNG stream is a deterministic function of `seed1` plus a stream
  index stored in the map, mirroring `rand.NewSource(int64(seed1))`.
* `uint64` counters (`count`, `valuesByteCount`, `zeroHash2Count`) wrap
  modulo `2^64` exactly as in Go (`add64` / `sub64`).
* The `debug` flag of the Go struct is fixed to `false` (release
  behaviour; all `assert*`/`sanityCheck` calls are no-ops there).
* Go's unbounded `put1 → rehashOrExpand → put1` recursion (through
  expansion) is modelled with a fuel parameter; exhausted fuel returns
  the artificial error `Err.outOfFuel`, which the Go code can never
  produce for any terminating execution.
-/

namespace Cuckoo

/-- The 64-bit modulus. -/
def P64 : Nat := 2 ^ 64

/-- The 32-bit modulus. -/
def P32 : Nat := 2 ^ 32

/-- Wrapping `uint64` addition. -/
def add64 (a b : Nat) : Nat := (a + b) % P64

/-- Wrapping `uint64` subtraction. -/
def sub64 (a b : Nat) : Nat := (a + (P64 - b % P64)) % P64

/-- Errors of the package (`errors.go`), plus the fuel-exhaustion marker
used to model Go's unbounded expansion recursion. -/
inductive Err where
  | invalidArgument : Err
  | bucketIsFull : Err
  | keyNotFound : Err
  | outOfFuel : Err
deriving DecidableEq, Repr

/-- A hash function `(bytes, seed) → u64` as injected by the caller. -/
abbrev HashFn : Type := List Nat → Nat → Nat

/-- The immutable function environment of a map: the two injected hash
functions, matching the `hasher1`/`hasher2` fields of the Go struct. -/
structure Hashers where
  hasher1 : HashFn
  hasher2 : HashFn

/-- The Java-style `31 · h + byte` accumulator of `simpleHash`
(`utils.go`), with `uint64` wrapping. -/
def simpleHashAux : Nat → List Nat → Nat
  | h, [] => h
  | h, b :: rest => simpleHashAux ((31 * h + b) % P64) rest

/-- `simpleHash` from `utils.go`: `java.util.Arrays#hashCode` on bytes. -/
def simpleHash (a : List Nat) : Nat :=
  if a = [] then 0 else simpleHashAux 1 a

/-- One bucket slot: `nil` or a stored key-value byte run. -/
abbrev Slot : Type := Option (List Nat)

/-- The 2-D bucket array: a list of buckets, each a list of
`keysPerBucket` slots. -/
abbrev Buckets : Type := List (List (Option (List Nat)))

/-- The cuckoo hash map state (`map.go`, struct `Map`), with `debug`
fixed to `false` and the PRNG replaced by the stream index `rIdx`. -/
structure Map where
  buckets : List (List (Option (List Nat)))
  count : Nat
  bytesPerKey : Nat
  keysPerBucket : Nat
  bucketCount : Nat
  bucketPower : Nat
  expandable : Bool
  expansionCount : Nat
  zeroHash2Count : Nat
  valuesByteCount : Nat
  seed1 : Nat
  seed2 : Nat
  rIdx : Nat
deriving DecidableEq, Repr

/-- Modelled from the spec: the Go map draws kick-out tie-break bits from
a 64-bit PRNG stream seeded from `seed1`
(`rand.NewSource(int64(seed1)).(rand.Source64)`, which is not part of
this repository).  The spec requires only a deterministic stream derived
from `seed1`; we fix one concrete such function. -/
def rngStream (seed idx : Nat) : Nat :=
  (seed + (idx + 1) * 0x9E3779B97F4A7C15) % P64

/-- The or-shift cascade of `nextPowerOfTwo`: smears the most
significant set bit over the positions below it. -/
def smear (x : Nat) : Nat :=
  let x1 := x ||| (x >>> 1)
  let x2 := x1 ||| (x1 >>> 2)
  let x3 := x2 ||| (x2 >>> 4)
  let x4 := x3 ||| (x3 >>> 8)
  x4 ||| (x4 >>> 16)

/-- `nextPowerOfTwo` from `defaults.go`, with exact `uint32` wrapping:
rounds up to a power of two; returns `0` on input `0` or when the
rounded value overflows 32 bits. -/
def nextPowerOfTwo (n : Nat) : Nat :=
  (smear ((n + (P32 - 1)) % P32) + 1) % P32

/-- Fuelled count of trailing zero bits (matches
`bits.TrailingZeros32` on nonzero 32-bit inputs). -/
def tzAux : Nat → Nat → Nat
  | 0, _ => 0
  | fuel + 1, n => if n % 2 = 1 then 0 else 1 + tzAux fuel (n / 2)

/-- `bits.TrailingZeros32`. -/
def tz32 (n : Nat) : Nat :=
  if n = 0 then 32 else tzAux 32 n

/-- `newMap` from `map.go`: validates the configuration and allocates
the bucket array.  The clock-derived `seed1` is passed as a parameter;
`seed2 = seed1 * 31` with `uint64` wrapping.  The nil-checks on the two
hashers are modelled with `Option`. -/
def newMap (bytesPerKey keysPerBucket bucketCount : Nat)
    (hasher1 hasher2 : Option HashFn) (expandable : Bool) (seed1 : Nat) :
    Except Err Map :=
  if bytesPerKey = 0 then .error .invalidArgument
  else if keysPerBucket = 0 then .error .invalidArgument
  else
    let bc := nextPowerOfTwo bucketCount
    if bc = 0 then .error .invalidArgument
    else if hasher1.isNone || hasher2.isNone then .error .invalidArgument
    else
      let s1 := seed1 % P64
      .ok { buckets := List.replicate bc (List.replicate keysPerBucket none)
            count := 0
            bytesPerKey := bytesPerKey
            keysPerBucket := keysPerBucket
            bucketCount := bc
            bucketPower := tz32 bc
            expandable := expandable
            expansionCount := 0
            zeroHash2Count := 0
            valuesByteCount := 0
            seed1 := s1
            seed2 := (s1 * 31) % P64
            rIdx := 0 }

/-- The bucket-index mask `(1 << bucketPower) - 1`. -/
def Map.mask (m : Map) : Nat := (1 <<< m.bucketPower) - 1

/-- `hash1Raw`: low-32-bit projection of the primary hash. -/
def Map.hash1Raw (H : Hashers) (m : Map) (key : List Nat) : Nat :=
  H.hasher1 key m.seed1 % P32

/-- `hash1`: primary bucket index (masked). -/
def Map.hash1 (H : Hashers) (m : Map) (key : List Nat) : Nat :=
  Map.hash1Raw H m key &&& m.mask

/-- The zero-fallback byte-shift loop inside `hash2Raw`.  The Go loop
runs while `hh != 0`, shifting `hh` right by 8 each round; since
`hh < 2^64` it runs at most 8 rounds, so fuel 64 is more than enough
and the fuelled version agrees with the loop on all real inputs. -/
def mixLoop : Nat → Nat → Nat → Nat
  | 0, _, _ => 0
  | fuel + 1, hh2, hh =>
    if hh = 0 then 0
    else
      let h := (hh ^^^ hh2) % P32
      if h ≠ 0 then h else mixLoop fuel hh2 (hh >>> 8)

/-- The per-key XOR term computed inside `hash2Raw` (the local `h`):
low 32 bits of `hasher2`, falling back to `simpleHash` and then to the
byte-shift loop when zero. -/
def Map.hash2Mix (H : Hashers) (m : Map) (key : List Nat) : Nat :=
  let hh := H.hasher2 key m.seed2 % P64
  let h := hh % P32
  if h = 0 then
    let hh2 := simpleHash key
    let h2 := hh2 % P32
    if h2 = 0 then mixLoop 64 hh2 hh else h2
  else h

/-- `hash2Raw`: `h1 XOR` the per-key term. -/
def Map.hash2Raw (H : Hashers) (m : Map) (key : List Nat) (h1 : Nat) : Nat :=
  h1 ^^^ Map.hash2Mix H m key

/-- The value returned by `hash2` (alternate bucket index, masked),
without the `zeroHash2Count` side effect. -/
def Map.hash2val (H : Hashers) (m : Map) (key : List Nat) (h1 : Nat) : Nat :=
  Map.hash2Raw H m key h1 &&& m.mask

/-- `hash2` from `map.go`: returns the masked alternate index and bumps
`zeroHash2Count` when it collapses onto `h1` (and `bucketPower ≠ 0`). -/
def Map.hash2 (H : Hashers) (m : Map) (key : List Nat) (h1 : Nat) :
    Nat × Map :=
  let h2 := Map.hash2val H m key h1
  if h2 = h1 ∧ m.bucketPower ≠ 0 then
    (h2, { m with zeroHash2Count := add64 m.zeroHash2Count 1 })
  else (h2, m)

/-- Read slot `j` of bucket `h` (absent on out-of-range access). -/
def slotOf (bkts : Buckets) (h j : Nat) : Option (List Nat) :=
  (bkts.getD h []).getD j none

/-- Write slot `j` of bucket `h`. -/
def setSlot (bkts : Buckets) (h j : Nat) (s : Option (List Nat)) : Buckets :=
  bkts.set h ((bkts.getD h []).set j s)

/-- Does a slot hold an entry whose key equals `key`
(`bucket[i] != nil && byteSliceEquals(bucket[i][:bytesPerKey], key)`)? -/
def slotHasKey (bpk : Nat) (key : List Nat) : Option (List Nat) → Bool
  | some kv => kv.take bpk == key
  | none => false

/-- Linear scan of a bucket for the first slot matching `key`
(the `for i := 0; i < keysPerBucket; i++` loops of `kvIndexByKey`). -/
def scanKey (bpk : Nat) (key : List Nat) : List (Option (List Nat)) → Option Nat
  | [] => none
  | s :: rest =>
    if slotHasKey bpk key s then some 0
    else (scanKey bpk key rest).map (· + 1)

/-- `kvIndexByKey` from `map.go`, with the Go callback replaced by a
tagged return value: `some (bucketIndex, slotIndex)` when the key is
found, `none` otherwise.  The embedded `hash2` call can bump
`zeroHash2Count`, hence the returned map. -/
def Map.kvIndexByKey (H : Hashers) (m : Map) (key : List Nat) :
    Option (Nat × Nat) × Map :=
  if key.length ≠ m.bytesPerKey then (none, m)
  else
    let h1 := Map.hash1 H m key
    match scanKey m.bytesPerKey key (m.buckets.getD h1 []) with
    | some i => (some (h1, i), m)
    | none =>
      let p := Map.hash2 H m key h1
      if p.1 ≠ h1 then
        match scanKey m.bytesPerKey key (p.2.buckets.getD p.1 []) with
        | some i => (some (p.1, i), p.2)
        | none => (none, p.2)
      else (none, p.2)

/-- `containsKey` (lowercase, `map.go`). -/
def Map.containsKey (H : Hashers) (m : Map) (key : List Nat) : Bool × Map :=
  let r := Map.kvIndexByKey H m key
  (r.1.isSome, r.2)

/-- Modelled from the spec: the public `Map.ContainsKey` wrapper is not
under `src/` (only its callers are); per the spec every public lookup
delegates to the core lookup path. -/
def Map.ContainsKey (H : Hashers) (m : Map) (key : List Nat) : Bool × Map :=
  Map.containsKey H m key

/-- Does a slot hold an entry whose value equals `val`? -/
def slotHasVal (bpk : Nat) (val : List Nat) : Option (List Nat) → Bool
  | some kv => kv.drop bpk == val
  | none => false

/-- `containsValue` (lowercase, `map.go`): full scan, no mutation. -/
def Map.containsValue (m : Map) (val : List Nat) : Bool :=
  m.buckets.any (fun b => b.any (slotHasVal m.bytesPerKey val))

/-- Modelled from the spec: public `Map.ContainsValue` wrapper (not under
`src/`), delegating to the linear scan. -/
def Map.ContainsValue (m : Map) (val : List Nat) : Bool :=
  Map.containsValue m val

/-- Result of `Map.Get`.  In the source the found-branch of the callback
returns `b[m.bytesPerKey:]` where `b` is the whole bucket (`[][]byte`),
so the `.([]byte)` type assertion in `Get` fails at run time whenever
the key is found; `panicked` models that run-time panic. -/
inductive GetResult where
  | panicked : GetResult
  | value : Option (List Nat) → GetResult
deriving DecidableEq, Repr

/-- `Map.Get` from `map.go`.  `defaultValue` models the optional variadic
argument.  On a found key the Go callback returns the bucket slice tail
`b[m.bytesPerKey:]` of type `[][]byte`, and the `.([]byte)` assertion
panics (`GetResult.panicked`); on a miss it returns `[]byte(nil)` and
the default, if any, is substituted. -/
def Map.Get (H : Hashers) (m : Map) (key : List Nat)
    (defaultValue : Option (List Nat)) : GetResult × Map :=
  let r := Map.kvIndexByKey H m key
  match r.1 with
  | some _ => (.panicked, r.2)
  | none =>
    match defaultValue with
    | some d => (.value (some d), r.2)
    | none => (.value none, r.2)

/-- First `nil` slot of a bucket (the placement scan of `put0`). -/
def firstNone : List (Option (List Nat)) → Option Nat
  | [] => none
  | none :: _ => some 0
  | some _ :: rest => (firstNone rest).map (· + 1)

/-- `put0` from `map.go`: place `key ++ val` into the first empty slot
of bucket `h`; on success bump `count` and `valuesByteCount`. -/
def Map.put0 (m : Map) (key val : List Nat) (h : Nat) : Bool × Map :=
  match firstNone (m.buckets.getD h []) with
  | some i =>
    (true, { m with
      buckets := setSlot m.buckets h i (some (key ++ val))
      count := add64 m.count 1
      valuesByteCount := add64 m.valuesByteCount val.length })
  | none => (false, m)

/-- `update` from `map.go`: overwrite the value bound to a present key,
adjusting `valuesByteCount`; reports whether an overwrite happened. -/
def Map.update (H : Hashers) (m : Map) (key val : List Nat) :
    (Option (List Nat) × Bool) × Map :=
  let r := Map.kvIndexByKey H m key
  match r.1 with
  | none => ((none, false), r.2)
  | some (h, i) =>
    let m1 := r.2
    let oldVal := ((slotOf m1.buckets h i).getD []).drop m1.bytesPerKey
    let m2 := { m1 with
      valuesByteCount := sub64 m1.valuesByteCount oldVal.length }
    let m3 := { m2 with
      buckets := setSlot m2.buckets h i (some (key ++ val))
      valuesByteCount := add64 m2.valuesByteCount val.length }
    ((some oldVal, true), m3)

/-- The kick-out loop of `rehashOrExpand` (`for i := 0; i < keysPerBucket`):
swap the pending entry into slot `i` of bucket `h`, adjust byte
accounting, and try to place the displaced entry into its alternate
bucket.  Returns `(settled?, pendingEntry, state)`. -/
def rehashLoop (H : Hashers) (h : Nat) :
    List Nat → List Nat → Map → Bool × List Nat × Map
  | [], kv, m => (false, kv, m)
  | i :: rest, kv, m =>
    let newKV := kv
    let kvD := (slotOf m.buckets h i).getD []
    let m1 := { m with buckets := setSlot m.buckets h i (some newKV) }
    let m2 := { m1 with
      valuesByteCount :=
        add64 (sub64 m1.valuesByteCount (kvD.drop m1.bytesPerKey).length)
          (newKV.drop m1.bytesPerKey).length }
    let k := kvD.take m2.bytesPerKey
    let v := kvD.drop m2.bytesPerKey
    let p := Map.hash2 H m2 k h
    let q := Map.put0 p.2 k v p.1
    if q.1 then (true, kvD, q.2) else rehashLoop H h rest kvD q.2

/-- `expandBucket`'s per-entry relocation target: the entry's unmasked
raw hash (primary if it produced the current bucket under the old mask,
else the alternate raw hash) masked with the doubled mask. -/
def Map.expandTarget (H : Hashers) (m : Map) (i : Nat) (kv : List Nat) : Nat :=
  let k := kv.take m.bytesPerKey
  let maskOld := (1 <<< m.bucketPower) - 1
  let maskNew := (2 <<< m.bucketPower) - 1
  let h1Raw := Map.hash1Raw H m k
  let hRaw := if h1Raw &&& maskOld = i then h1Raw
              else Map.hash2Raw H m k h1Raw
  hRaw &&& maskNew

/-- One relocation of `expandBucket`'s inner loop: copy the present
slot `(i, j)` of the old array into slot `j` of its target bucket of
the new array. -/
def expandCellStep (H : Hashers) (m : Map) (i : Nat) (acc : Buckets)
    (j : Nat) : Buckets :=
  match slotOf m.buckets i j with
  | none => acc
  | some kv => setSlot acc (Map.expandTarget H m i kv) j (some kv)

/-- Inner loop of `expandBucket` for one source bucket `i`: copy each
present slot `j` into slot `j` of its target bucket in the new array. -/
def expandStep (H : Hashers) (m : Map) (acc : Buckets) (i : Nat) : Buckets :=
  (List.range m.keysPerBucket).foldl (expandCellStep H m i) acc

/-- The doubled bucket array exactly as `expandBucket` allocates it
(`make([][][]byte, m.bucketCount<<1)`, map.go:764): the outer array
has `bucketCount << 1` entries and every row is nil — it holds no
slots. -/
def expandAlloc (m : Map) : Buckets :=
  List.replicate (m.bucketCount <<< 1) []

/-- The relocation step of `expandBucket` as the surrounding code
intends it: double the bucket array, relocating every entry to its raw
hash under the new mask, preserving slot indices.  The Go function
itself allocates only the outer doubled array and — unlike
`initBuckets` — never allocates the rows (`expandAlloc` is the
faithful allocation), so the relocation write `buckets[h][j] = kv`
(map.go:795) panics on every relocated entry; this definition supplies
the intended `keysPerBucket`-wide rows so that executions continuing
past the Go panic point have semantics.  (`bucketCount` is kept as a
mathematical Nat: the `uint32` wrap of `bucketCount << 1` can only
trigger together with an index-out-of-range panic in Go.) -/
def Map.expandBucket (H : Hashers) (m : Map) : Map :=
  let nb := (List.range m.bucketCount).foldl (expandStep H m)
    (List.replicate (m.bucketCount * 2) (List.replicate m.keysPerBucket none))
  { m with
    buckets := nb
    bucketCount := m.bucketCount * 2
    bucketPower := m.bucketPower + 1
    expansionCount := (m.expansionCount + 1) % 256 }

/-- `put1` from `map.go` with `rehashOrExpand` inlined (the two are
mutually recursive through expansion in Go; the fuel makes the
recursion structural — `Err.outOfFuel` is unreachable for executions
the Go code completes).  Try `h1`, then `h2` when distinct, then draw
one PRNG bit to pick the kicked bucket and run the kick-out loop;
on a stall either restore and fail (`ErrBucketIsFull`) or expand and
re-insert. -/
def Map.put1 (H : Hashers) : Nat → Map → List Nat → List Nat →
    Option Err × Map
  | 0, m, _, _ => (some .outOfFuel, m)
  | fuel + 1, m, key, val =>
    if key.length ≠ m.bytesPerKey then (some .invalidArgument, m)
    else
      let h1 := Map.hash1 H m key
      let r1 := Map.put0 m key val h1
      if r1.1 then (none, r1.2)
      else
        let p := Map.hash2 H r1.2 key h1
        let h2 := p.1
        let afterH2 :=
          if h2 ≠ h1 then Map.put0 p.2 key val h2 else (false, p.2)
        if afterH2.1 then (none, afterH2.2)
        else
          let m3 := afterH2.2
          let u := rngStream m3.seed1 m3.rIdx
          let m4 := { m3 with rIdx := m3.rIdx + 1 }
          let h := if u &&& 1 = 0 then h2 else h1
          let kv := key ++ val
          let L := rehashLoop H h (List.range m4.keysPerBucket) kv m4
          if L.1 then (none, L.2.2)
          else
            let kvOut := L.2.1
            let m5 := L.2.2
            if ¬ m5.expandable then
              let oldKV := (slotOf m5.buckets h 0).getD []
              (some .bucketIsFull, { m5 with
                buckets := setSlot m5.buckets h 0 (some kvOut)
                valuesByteCount :=
                  add64 (sub64 m5.valuesByteCount
                    (oldKV.drop m5.bytesPerKey).length)
                    ((kvOut.drop m5.bytesPerKey).length) })
            else
              Map.put1 H fuel (Map.expandBucket H m5) key val

/-- `Map.Put` from `map.go`: insert / overwrite / insert-if-absent. -/
def Map.Put (H : Hashers) (fuel : Nat) (m : Map) (key val : List Nat)
    (ifAbsent : Bool) : (Option (List Nat) × Option Err) × Map :=
  if ifAbsent then
    let r := Map.kvIndexByKey H m key
    match r.1 with
    | some (h, i) =>
      ((some (((slotOf r.2.buckets h i).getD []).drop r.2.bytesPerKey),
        none), r.2)
    | none =>
      let q := Map.put1 H fuel r.2 key val
      ((none, q.1), q.2)
  else
    let r := Map.update H m key val
    if r.1.2 then ((r.1.1, none), r.2)
    else
      let q := Map.put1 H fuel r.2 key val
      ((none, q.1), q.2)

/-- Modelled from the spec: `Map.Del` is not under `src/` (only `Set.Del`
calls it).  Per the spec: locate via lookup; absent fails with
`KEY_NOT_FOUND`; else mark the slot absent, decrement `count`, subtract
the value length from `valuesByteCount`, return the removed value. -/
def Map.Del (H : Hashers) (m : Map) (key : List Nat) :
    (Option (List Nat) × Option Err) × Map :=
  let r := Map.kvIndexByKey H m key
  match r.1 with
  | none => ((none, some .keyNotFound), r.2)
  | some (h, i) =>
    let m1 := r.2
    let v := ((slotOf m1.buckets h i).getD []).drop m1.bytesPerKey
    ((some v, none), { m1 with
      buckets := setSlot m1.buckets h i none
      count := sub64 m1.count 1
      valuesByteCount := sub64 m1.valuesByteCount v.length })

/-- `Map.Clear` (release path): reinitialize the bucket array and reset
`count` and `valuesByteCount`; everything else is preserved. -/
def Map.Clear (m : Map) : Map :=
  { m with
    buckets := List.replicate m.bucketCount (List.replicate m.keysPerBucket none)
    count := 0
    valuesByteCount := 0 }

/-- `Map.Count`: returns the `count` field (`sanityCheck` is a no-op in
release builds). -/
def Map.Count (m : Map) : Nat := m.count

/-- `Map.IsEmpty` exactly as in `map.go`: `return m.Count() != 0`. -/
def Map.IsEmpty (m : Map) : Bool := m.Count != 0

/-- `Set.IsEmpty` from `set.go`: `return s.Count() == 0` (the set facade
embeds a `Map`). -/
def SetIsEmpty (m : Map) : Bool := Map.Count m == 0

/-- One public operation of the mutation/lookup API, for stating
whole-trace properties. -/
inductive Op where
  | put : List Nat → List Nat → Bool → Op
  | del : List Nat → Op
  | clear : Op
  | get : List Nat → Option (List Nat) → Op
  | containsKeyOp : List Nat → Op
  | containsValueOp : List Nat → Op
deriving DecidableEq, Repr

/-- Observable outputs of the public operations. -/
inductive Out where
  | putR : Option (List Nat) → Option Err → Out
  | delR : Option (List Nat) → Option Err → Out
  | clearR : Out
  | getR : GetResult → Out
  | boolR : Bool → Out
deriving DecidableEq, Repr

/-- Apply one public operation (with insertion fuel `fuel`). -/
def applyOp (H : Hashers) (fuel : Nat) (m : Map) : Op → Out × Map
  | .put key val ifAbsent =>
    let r := Map.Put H fuel m key val ifAbsent
    (.putR r.1.1 r.1.2, r.2)
  | .del key =>
    let r := Map.Del H m key
    (.delR r.1.1 r.1.2, r.2)
  | .clear => (.clearR, Map.Clear m)
  | .get key d =>
    let r := Map.Get H m key d
    (.getR r.1, r.2)
  | .containsKeyOp key =>
    let r := Map.ContainsKey H m key
    (.boolR r.1, r.2)
  | .containsValueOp val => (.boolR (Map.ContainsValue m val), m)

/-- Run a sequence of public operations, collecting every output. -/
def runOps (H : Hashers) (fuel : Nat) : List Op → Map → List Out × Map
  | [], m => ([], m)
  | op :: rest, m =>
    let r := applyOp H fuel m op
    let q := runOps H fuel rest r.2
    (r.1 :: q.1, q.2)

/-- A constant hash function, used to build concrete witnesses. -/
def constFn (c : Nat) : HashFn := fun _ _ => c

/-- The all-zero fallback map (used only to strip `Except` in concrete
witnesses; never reached there). -/
def defaultMap : Map :=
  { buckets := [], count := 0, bytesPerKey := 0, keysPerBucket := 0
    bucketCount := 0, bucketPower := 0, expandable := false
    expansionCount := 0, zeroHash2Count := 0, valuesByteCount := 0
    seed1 := 0, seed2 := 0, rIdx := 0 }

/-- Build a map from `newMap`, defaulting on a construction error (the
concrete witnesses below only use it where construction succeeds). -/
def mkMap (bytesPerKey keysPerBucket bucketCount : Nat)
    (hasher1 hasher2 : Option HashFn) (expandable : Bool) (seed1 : Nat) : Map :=
  match newMap bytesPerKey keysPerBucket bucketCount hasher1 hasher2
      expandable seed1 with
  | .ok m => m
  | .error _ => defaultMap

/-- Concrete primary hasher for witnesses (constant 0). -/
def chA : HashFn := constFn 0

/-- Concrete alternate hasher for witnesses (constant 2). -/
def chB : HashFn := constFn 2

/-- Concrete hasher environment for witnesses. -/
def HA : Hashers := ⟨chA, chB⟩

/-- A fresh expandable 1-byte-key, 1-slot, 1-bucket map. -/
def mA : Map := mkMap 1 1 1 (some chA) (some chB) true 0

/-- A fresh non-expandable 1-byte-key, 1-slot, 1-bucket map. -/
def mB : Map := mkMap 1 1 1 (some chA) (some chB) false 0

/-- A fresh expandable 2-bucket map (bucketPower 1). -/
def mC : Map := mkMap 1 1 2 (some chA) (some chB) true 0

/-- A map with exactly `zeroHash2Count` bumped (the only mutation a
lookup can make). -/
def bumpZ (m : Map) : Map :=
  { m with zeroHash2Count := add64 m.zeroHash2Count 1 }

/-- The entry stored by a successful `Put` at the first and only slot of
the witness map. -/
def c1m : Map := (Map.Put HA 32 mB [0] [1] false).2

/-- The full, expandable 1×1×1 map holding `[0] ↦ [1]`: any further
insertion stalls its single bucket and reaches the expansion step. -/
def c2bug : Map := (Map.Put HA 4 mA [0] [1] false).2

/-- Is an `Except` value a success? -/
def exceptOk : Except Err Map → Bool
  | .ok _ => true
  | .error _ => false

/-- A bucket cyclically rotated right by one slot (the net effect of a
failed non-expandable kick-out on the kicked bucket). -/
def rotOne (b : List (Option (List Nat))) : List (Option (List Nat)) :=
  match b.getLast? with
  | none => b
  | some last => last :: b.dropLast

/-- Decidable scan: no slot of any bucket stores an entry whose key
equals `key`. -/
def keyAbsent (bpk : Nat) (key : List Nat) (bkts : Buckets) : Bool :=
  bkts.all (fun b => b.all (fun s => !(slotHasKey bpk key s)))

/-- The stored key-value byte runs of all present slots, in bucket
order (the multiset of entries is its permutation class). -/
def storedKVs (bkts : Buckets) : List (List Nat) :=
  (bkts.map (fun b => b.filterMap id)).flatten

/-- Structural well-formedness of a map: the bucket array has
`bucketCount` rows of `keysPerBucket` slots each, and `bucketCount`
is the power of two recorded in `bucketPower`. -/
def WFb (m : Map) : Prop :=
  m.buckets.length = m.bucketCount ∧
  (∀ i, i < m.bucketCount → (m.buckets.getD i []).length = m.keysPerBucket) ∧
  m.bucketCount = 2 ^ m.bucketPower

/-- The placement invariant: every present entry sits in the bucket
given by its key's masked primary hash or masked alternate hash. -/
def PlacementInv (H : Hashers) (m : Map) : Prop :=
  ∀ i j kv, slotOf m.buckets i j = some kv →
    Map.hash1 H m (kv.take m.bytesPerKey) = i ∨
    Map.hash2val H m (kv.take m.bytesPerKey)
      (Map.hash1 H m (kv.take m.bytesPerKey)) = i

/-- The placement condition of a bucket array relative to the hashing
configuration of a reference state `m` (its seeds, `bucketPower` and
`bytesPerKey`): every present entry sits in its masked primary or
masked alternate bucket. -/
def PlacementAt (H : Hashers) (m : Map) (bkts : Buckets) : Prop :=
  ∀ i j kv, slotOf bkts i j = some kv →
    Map.hash1 H m (kv.take m.bytesPerKey) = i ∨
    Map.hash2val H m (kv.take m.bytesPerKey)
      (Map.hash1 H m (kv.take m.bytesPerKey)) = i

/-- The value (if any) that the expansion loop writes into cell
`(h', j')` while processing source bucket `i`: present source slots
whose relocation target is `h'` are copied, everything else leaves the
cell alone. -/
def expandWriteAt (H : Hashers) (m : Map) (i h' j' : Nat) :
    Option (Option (List Nat)) :=
  match slotOf m.buckets i j' with
  | some kv =>
    if Map.expandTarget H m i kv = h' then some (some kv) else none
  | none => none

/-- Decidable check of the placement invariant. -/
def placementOK (H : Hashers) (m : Map) : Bool :=
  (List.range m.buckets.length).all (fun i =>
    (List.range (m.buckets.getD i []).length).all (fun j =>
      match slotOf m.buckets i j with
      | none => true
      | some kv =>
        decide (Map.hash1 H m (kv.take m.bytesPerKey) = i ∨
          Map.hash2val H m (kv.take m.bytesPerKey)
            (Map.hash1 H m (kv.take m.bytesPerKey)) = i)))

/-- States reachable from construction by the public mutating API. -/
inductive Reachable (H : Hashers) : Map → Prop where
  | base : ∀ bpk kpb bc h1f h2f exp seed m,
      newMap bpk kpb bc h1f h2f exp seed = .ok m → Reachable H m
  | put : ∀ m fuel key val mode, Reachable H m →
      Reachable H (Map.Put H fuel m key val mode).2
  | del : ∀ m key, Reachable H m → Reachable H (Map.Del H m key).2
  | clear : ∀ m, Reachable H m → Reachable H (Map.Clear m)

/-- Agreement of two map states on configuration and array geometry
(everything the kick-out loop leaves alone apart from the counters). -/
def sameShape (m m2 : Map) : Prop :=
  m2.bytesPerKey = m.bytesPerKey ∧ m2.keysPerBucket = m.keysPerBucket ∧
  m2.bucketCount = m.bucketCount ∧ m2.bucketPower = m.bucketPower ∧
  m2.expandable = m.expandable ∧ m2.seed1 = m.seed1 ∧
  m2.seed2 = m.seed2 ∧ m2.buckets.length = m.buckets.length ∧
  ∀ hq, (m2.buckets.getD hq []).length = (m.buckets.getD hq []).length

/-- The entry displaced by one kick-out step (slot `i` of bucket `h`). -/
def kickDisplaced (m : Map) (h i : Nat) : List Nat :=
  (slotOf m.buckets h i).getD []

/-- The state after the swap and byte-accounting part of one kick-out
step: the pending entry `kv` replaces slot `i` of bucket `h`. -/
def kickSwap (m : Map) (h i : Nat) (kv : List Nat) : Map :=
  { m with
    buckets := setSlot m.buckets h i (some kv)
    valuesByteCount :=
      add64 (sub64 m.valuesByteCount
        ((kickDisplaced m h i).drop m.bytesPerKey).length)
        (kv.drop m.bytesPerKey).length }

/-- The attempt to place the displaced entry into its alternate bucket
(including the `hash2` side effect), returning the `put0` outcome. -/
def kickTry (H : Hashers) (m : Map) (h i : Nat) (kv : List Nat) :
    Bool × Map :=
  let kvD := kickDisplaced m h i
  let m2 := kickSwap m h i kv
  let p := Map.hash2 H m2 (kvD.take m.bytesPerKey) h
  Map.put0 p.2 (kvD.take m.bytesPerKey) (kvD.drop m.bytesPerKey) p.1

/-- An entry is compatible with the binding `key ↦ val`: if its key
part is `key`, it is exactly `key ++ val`. -/
def kvOK (key val : List Nat) (bpk : Nat) (kv : List Nat) : Prop :=
  kv.take bpk = key → kv = key ++ val

/-- Every present entry of the table is compatible with `key ↦ val`
(holds vacuously when the key is absent). -/
def uniqueKeyVal (key val : List Nat) (m : Map) : Prop :=
  ∀ i j kv, slotOf m.buckets i j = some kv →
    kvOK key val m.bytesPerKey kv

/-- The key is stored where the lookup path scans: in its masked
primary bucket, or in its distinct masked alternate bucket. -/
def keyLocatable (H : Hashers) (key : List Nat) (m : Map) : Prop :=
  (∃ j, slotHasKey m.bytesPerKey key
    (slotOf m.buckets (Map.hash1 H m key) j) = true) ∨
  (Map.hash2val H m key (Map.hash1 H m key) ≠ Map.hash1 H m key ∧
   ∃ j, slotHasKey m.bytesPerKey key
    (slotOf m.buckets (Map.hash2val H m key (Map.hash1 H m key)) j) =
      true)

/-- The state returned by `hash2` is the input state or the input state
with `zeroHash2Count` bumped. -/
theorem hash2_snd (H : Hashers) (m : Map) (key : List Nat) (h1 : Nat) :
    (Map.hash2 H m key h1).2 = m ∨ (Map.hash2 H m key h1).2 = bumpZ m := by
  by_cases hc : Map.hash2val H m key h1 = h1 ∧ m.bucketPower ≠ 0
  · exact Or.inr (by simp [Map.hash2, hc, bumpZ])
  · exact Or.inl (by simp [Map.hash2, hc])

/-- The state returned by `kvIndexByKey` is the input state or the input
state with `zeroHash2Count` bumped. -/
theorem kvIndexByKey_snd (H : Hashers) (m : Map) (key : List Nat) :
    (Map.kvIndexByKey H m key).2 = m ∨
    (Map.kvIndexByKey H m key).2 = bumpZ m := by
  unfold Map.kvIndexByKey
  split
  · exact Or.inl rfl
  · dsimp only
    split
    · exact Or.inl rfl
    · have h := hash2_snd H m key (Map.hash1 H m key)
      split
      · split
        · exact h
        · exact h
      · exact h

/-- C1: code bug.  After a successful `Put([0], [1])` on a fresh
1×1×1 map, the key is stored (`ContainsKey` is true and the slot holds
`[0] ++ [1]`), but `Get([0])` does not return `[1]`: the found-branch of
the Go callback returns `b[m.bytesPerKey:]` — a `[][]byte` slice of the
bucket — and the `.([]byte)` type assertion panics at run time. -/
theorem c1_get_code_bug :
    (Map.Put HA 32 mB [0] [1] false).1 = (none, none) ∧
    (Map.ContainsKey HA c1m [0]).1 = true ∧
    slotOf c1m.buckets 0 0 = some ([0] ++ [1]) ∧
    (Map.Get HA c1m [0] none).1 = GetResult.panicked := by decide

/-- C5: code bug.  On a fresh map `count = 0`, yet `Map.IsEmpty` returns
`false`, because `map.go` computes `Count() != 0`; the set facade
(`set.go`) computes `Count() == 0` and correctly returns `true`. -/
theorem c5_isEmpty_code_bug :
    Map.Count mA = 0 ∧ Map.IsEmpty mA = false ∧ SetIsEmpty mA = true := by
  decide

/-- C7 counterexample: a missed `ContainsKey` lookup on a fresh 2-bucket
map mutates the observable `zeroHash2Count` diagnostic (the claim states
lookups leave the entire observable state, including `zeroHash2Count`,
unchanged). -/
theorem c7_lookup_mutates_counterexample :
    mC.zeroHash2Count = 0 ∧
    ((Map.ContainsKey HA mC [5]).2).zeroHash2Count = 1 ∧
    (Map.ContainsKey HA mC [5]).2 ≠ mC := by decide

/-- C7 (amended): `Get` and `ContainsKey` leave the state unchanged
except possibly for a single bump of `zeroHash2Count` (so buckets,
`count`, `valuesByteCount` and all configuration are untouched), and
`ContainsValue` leaves the state entirely unchanged. -/
theorem c7_lookup_frame (H : Hashers) (m : Map) (key val : List Nat)
    (d : Option (List Nat)) :
    ((Map.Get H m key d).2 = m ∨ (Map.Get H m key d).2 = bumpZ m) ∧
    ((Map.ContainsKey H m key).2 = m ∨
      (Map.ContainsKey H m key).2 = bumpZ m) ∧
    (applyOp H 0 m (Op.containsValueOp val)).2 = m := by
  have hGet : (Map.Get H m key d).2 = (Map.kvIndexByKey H m key).2 := by
    unfold Map.Get
    rcases hr : (Map.kvIndexByKey H m key).1 with _ | p
    · cases d <;> simp [hr]
    · simp [hr]
  have h := kvIndexByKey_snd H m key
  refine ⟨?_, ?_, rfl⟩
  · rw [hGet]; exact h
  · exact h

/-- The masked alternate-index function is an involution on indices
below `2^bucketPower`. -/
theorem hash2val_involution (H : Hashers) (m : Map) (key : List Nat)
    (h1 : Nat) (hl : h1 < 2 ^ m.bucketPower) :
    Map.hash2val H m key (Map.hash2val H m key h1) = h1 := by
  unfold Map.hash2val Map.hash2Raw Map.mask
  have hmask : (1 <<< m.bucketPower) = 2 ^ m.bucketPower := by
    rw [Nat.shiftLeft_eq, one_mul]
  rw [hmask]
  apply Nat.eq_of_testBit_eq
  intro i
  by_cases hip : i < m.bucketPower
  · simp [Nat.testBit_and, Nat.testBit_xor, Nat.testBit_two_pow_sub_one,
      hip, Bool.xor_assoc]
  · have hb : h1.testBit i = false :=
      Nat.testBit_eq_false_of_lt
        (lt_of_lt_of_le hl (Nat.pow_le_pow_right (by norm_num)
          (le_of_not_lt hip)))
    simp [Nat.testBit_and, Nat.testBit_xor, Nat.testBit_two_pow_sub_one,
      hip, hb]

/-- C6: the masked alternate-index function is an involution: applying
`hash2val` twice returns the original bucket index, for every key and
every in-range index (`bucketCount = 2^bucketPower`). -/
theorem c6_hash2_involution (H : Hashers) (m : Map) (key : List Nat)
    (h1 : Nat) (hpow : m.bucketCount = 2 ^ m.bucketPower)
    (hlt : h1 < m.bucketCount) :
    Map.hash2val H m key (Map.hash2val H m key h1) = h1 :=
  hash2val_involution H m key h1 (hpow ▸ hlt)

/-- C6 witness: the involution at a concrete map and index. -/
theorem c6_hash2_involution_witness :
    (mC.bucketCount = 2 ^ mC.bucketPower ∧ 1 < mC.bucketCount) ∧
    Map.hash2val HA mC [0] (Map.hash2val HA mC [0] 1) = 1 :=
  ⟨⟨by decide, by decide⟩,
    c6_hash2_involution HA mC [0] 1 (by decide) (by decide)⟩

/-- C10: determinism — every operation is a pure function of the state
(the PRNG stream is a fixed function of `seed1` and the stream index,
and nothing consults any other source after construction), so two maps
in identical states produce identical outputs and identical states under
every identical operation sequence. -/
theorem c10_deterministic (H : Hashers) (fuel : Nat) (ops : List Op)
    (m1 m2 : Map) (h : m1 = m2) :
    runOps H fuel ops m1 = runOps H fuel ops m2 := by rw [h]

/-- C10 witness: identical construction gives identical traces on a
concrete operation sequence. -/
theorem c10_deterministic_witness :
    mA = mA ∧
    runOps HA 8 [Op.put [0] [1] true, Op.get [0] none, Op.del [0]] mA =
      runOps HA 8 [Op.put [0] [1] true, Op.get [0] none, Op.del [0]] mA :=
  ⟨rfl, c10_deterministic HA 8 _ mA mA rfl⟩

/-- C8 counterexample: the construction claim requires
`INVALID_ARGUMENT` whenever the two hash functions are not distinct,
but `newMap` performs no distinctness check (Go cannot compare function
values): passing the same function twice succeeds. -/
theorem c8_no_distinctness_check :
    exceptOk (newMap 1 1 1 (some chA) (some chA) true 0) = true := by decide

/-- One or-shift round doubles (plus one) the window of source bits
smeared into each position. -/
theorem testBit_or_shift (x y m : Nat)
    (hy : ∀ i, y.testBit i = true ↔ ∃ j, j ≤ m ∧ x.testBit (i + j) = true) :
    ∀ i, (y ||| (y >>> (m + 1))).testBit i = true ↔
      ∃ j, j ≤ 2 * m + 1 ∧ x.testBit (i + j) = true := by
  intro i
  rw [Nat.testBit_or, Nat.testBit_shiftRight, Bool.or_eq_true]
  constructor
  · intro h
    rcases h with h | h
    · rcases (hy i).mp h with ⟨j, hj, hb⟩
      exact ⟨j, by omega, hb⟩
    · rcases (hy (m + 1 + i)).mp h with ⟨j, hj, hb⟩
      refine ⟨m + 1 + j, by omega, ?_⟩
      have e : i + (m + 1 + j) = m + 1 + i + j := by omega
      rw [e]; exact hb
  · rintro ⟨j, hj, hb⟩
    by_cases hjm : j ≤ m
    · exact Or.inl ((hy i).mpr ⟨j, hjm, hb⟩)
    · refine Or.inr ((hy (m + 1 + i)).mpr ⟨j - (m + 1), by omega, ?_⟩)
      have e : m + 1 + i + (j - (m + 1)) = i + j := by omega
      rw [e]; exact hb

/-- Bit-level characterization of the smear cascade: position `i` of
`smear x` is set exactly when one of the 32 positions `i..i+31` of `x`
is set. -/
theorem testBit_smear (x : Nat) :
    ∀ i, (smear x).testBit i = true ↔
      ∃ j, j ≤ 31 ∧ x.testBit (i + j) = true := by
  have h0 : ∀ i, x.testBit i = true ↔
      ∃ j, j ≤ 0 ∧ x.testBit (i + j) = true := by
    intro i
    constructor
    · intro h; exact ⟨0, le_refl 0, by simpa using h⟩
    · rintro ⟨j, hj, hb⟩
      have : j = 0 := Nat.le_zero.mp hj
      subst this; simpa using hb
  have h1 : ∀ i, (x ||| x >>> 1).testBit i = true ↔
      ∃ j, j ≤ 1 ∧ x.testBit (i + j) = true :=
    testBit_or_shift x x 0 h0
  have h2 : ∀ i, ((x ||| x >>> 1) ||| (x ||| x >>> 1) >>> 2).testBit i = true ↔
      ∃ j, j ≤ 3 ∧ x.testBit (i + j) = true :=
    testBit_or_shift x _ 1 h1
  have h3 := testBit_or_shift x _ 3 h2
  have h4 := testBit_or_shift x _ 7 h3
  have h5 := testBit_or_shift x _ 15 h4
  exact h5

/-- The most significant bit of a nonzero number is set. -/
theorem testBit_log2_self {x : Nat} (hx : x ≠ 0) :
    x.testBit x.log2 = true := by
  have h1 : 2 ^ x.log2 ≤ x := Nat.log2_self_le hx
  have h2 : x < 2 ^ (x.log2 + 1) := Nat.lt_log2_self
  have hd : x / 2 ^ x.log2 = 1 := by
    apply Nat.div_eq_of_lt_le (by simpa using h1)
    calc x < 2 ^ (x.log2 + 1) := h2
    _ = 2 * 2 ^ x.log2 := by rw [Nat.pow_succ, Nat.mul_comm]
    _ = Nat.succ 1 * 2 ^ x.log2 := rfl
  simp [Nat.testBit_to_div_mod, hd]

/-- On nonzero 32-bit inputs the smear cascade yields
`2^(bit length) - 1`. -/
theorem smear_eq {x : Nat} (hx : x ≠ 0) (hlt : x < P32) :
    smear x = 2 ^ (x.log2 + 1) - 1 := by
  have hs : x.log2 + 1 ≤ 32 := by
    have := (Nat.log2_lt hx).mpr (show x < 2 ^ 32 from hlt)
    omega
  apply Nat.eq_of_testBit_eq
  intro i
  rw [Nat.testBit_two_pow_sub_one]
  by_cases hi : i < x.log2 + 1
  · have hset : (smear x).testBit i = true := by
      apply (testBit_smear x i).mpr
      refine ⟨x.log2 - i, by omega, ?_⟩
      have e : i + (x.log2 - i) = x.log2 := by omega
      rw [e]; exact testBit_log2_self hx
    simp [hset, hi]
  · have hclear : (smear x).testBit i = false := by
      cases hb : (smear x).testBit i with
      | false => rfl
      | true =>
        exfalso
        rcases (testBit_smear x i).mp hb with ⟨j, _, hbit⟩
        have hxj : x.testBit (i + j) = false := by
          apply Nat.testBit_eq_false_of_lt
          calc x < 2 ^ (x.log2 + 1) := Nat.lt_log2_self
          _ ≤ 2 ^ (i + j) := Nat.pow_le_pow_right (by norm_num) (by omega)
        rw [hxj] at hbit; exact Bool.false_ne_true hbit
    simp [hclear, hi]

/-- A nonzero `nextPowerOfTwo` result on a 32-bit input is a power of
two with exponent at most 31. -/
theorem nextPowerOfTwo_power {n : Nat} (hlt : n < P32)
    (h0 : nextPowerOfTwo n ≠ 0) :
    ∃ p, p ≤ 31 ∧ nextPowerOfTwo n = 2 ^ p := by
  by_cases hn : n = 0
  · exfalso; apply h0; rw [hn]; decide
  · have hx : (n + (P32 - 1)) % P32 = n - 1 := by
      have e : n + (P32 - 1) = (n - 1) + P32 := by
        have : 1 ≤ n := Nat.one_le_iff_ne_zero.mpr hn
        have hp : 1 ≤ P32 := by decide
        omega
      rw [e, Nat.add_mod_right]
      exact Nat.mod_eq_of_lt (by omega)
    by_cases h1 : n = 1
    · refine ⟨0, by omega, ?_⟩
      rw [h1]; decide
    · have hxne : n - 1 ≠ 0 := by omega
      have hxlt : n - 1 < P32 := by
        have : n < P32 := hlt
        omega
      have hsm : smear (n - 1) = 2 ^ ((n - 1).log2 + 1) - 1 :=
        smear_eq hxne hxlt
      have hs32 : (n - 1).log2 + 1 ≤ 32 := by
        have := (Nat.log2_lt hxne).mpr (show n - 1 < 2 ^ 32 from hxlt)
        omega
      have hnp : nextPowerOfTwo n = 2 ^ ((n - 1).log2 + 1) % P32 := by
        unfold nextPowerOfTwo
        rw [hx, hsm]
        have hpos : 1 ≤ 2 ^ ((n - 1).log2 + 1) := Nat.one_le_two_pow
        rw [Nat.sub_add_cancel hpos]
      by_cases h32 : (n - 1).log2 + 1 = 32
      · exfalso; apply h0
        rw [hnp, h32]
        decide
      · refine ⟨(n - 1).log2 + 1, by omega, ?_⟩
        rw [hnp]
        exact Nat.mod_eq_of_lt
          (Nat.pow_lt_pow_right (by norm_num) (by omega))

/-- `tzAux` computes the exponent of a power of two, given enough fuel. -/
theorem tzAux_two_pow : ∀ fuel p, p < fuel → tzAux fuel (2 ^ p) = p := by
  intro fuel
  induction fuel with
  | zero => intro p hp; omega
  | succ f ih =>
    intro p hp
    cases p with
    | zero => simp [tzAux]
    | succ q =>
      have h2 : 2 ^ (q + 1) % 2 = 0 := by
        rw [Nat.pow_succ]; exact Nat.mul_mod_left _ 2
      have hdiv : 2 ^ (q + 1) / 2 = 2 ^ q := by
        rw [Nat.pow_succ]; exact Nat.mul_div_cancel _ (by norm_num)
      rw [tzAux, if_neg (by omega), hdiv, ih q (by omega)]
      omega

/-- `tz32` on a power of two below `2^32` returns the exponent. -/
theorem tz32_two_pow {p : Nat} (hp : p ≤ 31) : tz32 (2 ^ p) = p := by
  unfold tz32
  rw [if_neg (Nat.pos_iff_ne_zero.mp (Nat.pos_pow_of_pos p (by norm_num)))]
  exact tzAux_two_pow 32 p (by omega)

/-- C8 (amended): construction fails with `INVALID_ARGUMENT` exactly
when `bytesPerKey = 0`, `keysPerBucket = 0`, either hash function is
nil, or the `uint32` round-up `nextPowerOfTwo(bucketCount)` yields `0`
(input `0`, or overflow past `2^31`); no distinctness check is
performed.  On success the resulting `bucketCount` is the rounded
power of two and equals `1 << bucketPower`. -/
theorem c8_construction (bpk kpb bc : Nat) (h1 h2 : Option HashFn)
    (exp : Bool) (s : Nat) (hbc : bc < P32) :
    ((newMap bpk kpb bc h1 h2 exp s = .error .invalidArgument) ↔
      (bpk = 0 ∨ kpb = 0 ∨ nextPowerOfTwo bc = 0 ∨
        h1 = none ∨ h2 = none)) ∧
    (∀ m, newMap bpk kpb bc h1 h2 exp s = .ok m →
      m.bucketCount = nextPowerOfTwo bc ∧
      m.bucketCount = 2 ^ m.bucketPower ∧
      m.bucketCount = 1 <<< m.bucketPower) := by
  constructor
  · by_cases hb : bpk = 0
    · simp [newMap, hb]
    · by_cases hk : kpb = 0
      · simp [newMap, hb, hk]
      · by_cases hn : nextPowerOfTwo bc = 0
        · simp [newMap, hb, hk, hn]
        · cases h1 with
          | none => simp [newMap, hb, hk, hn]
          | some f1 =>
            cases h2 with
            | none => simp [newMap, hb, hk, hn]
            | some f2 => simp [newMap, hb, hk, hn]
  · intro m hm
    by_cases hb : bpk = 0
    · simp [newMap, hb] at hm
    · by_cases hk : kpb = 0
      · simp [newMap, hb, hk] at hm
      · by_cases hn : nextPowerOfTwo bc = 0
        · simp [newMap, hb, hk, hn] at hm
        · cases h1 with
          | none => simp [newMap, hb, hk, hn] at hm
          | some f1 =>
            cases h2 with
            | none => simp [newMap, hb, hk, hn] at hm
            | some f2 =>
              simp [newMap, hb, hk, hn] at hm
              rcases nextPowerOfTwo_power hbc hn with ⟨p, hp, hpe⟩
              subst hm
              refine ⟨rfl, ?_, ?_⟩
              · simp only [hpe, tz32_two_pow hp]
              · simp only [hpe, tz32_two_pow hp]
                rw [Nat.shiftLeft_eq, one_mul]

/-- C8 witness: the characterization at a concrete configuration. -/
theorem c8_construction_witness :
    (5 < P32) ∧
    (((newMap 1 1 5 (some chA) (some chB) true 0 = .error .invalidArgument) ↔
      ((1 : Nat) = 0 ∨ (1 : Nat) = 0 ∨ nextPowerOfTwo 5 = 0 ∨
        some chA = none ∨ some chB = none)) ∧
    (∀ m, newMap 1 1 5 (some chA) (some chB) true 0 = .ok m →
      m.bucketCount = nextPowerOfTwo 5 ∧
      m.bucketCount = 2 ^ m.bucketPower ∧
      m.bucketCount = 1 <<< m.bucketPower)) :=
  ⟨by decide, c8_construction 1 1 5 (some chA) (some chB) true 0 (by decide)⟩

/-- Reading a just-written list position. -/
theorem getD_set_self {α : Type} (l : List α) (i : Nat) (a d : α)
    (h : i < l.length) : (l.set i a).getD i d = a := by
  rw [List.getD_eq_getElem?_getD, List.getElem?_set_self h]
  rfl

/-- Reading another position after a list write. -/
theorem getD_set_ne {α : Type} (l : List α) (i j : Nat) (a d : α)
    (h : i ≠ j) : (l.set i a).getD j d = l.getD j d := by
  rw [List.getD_eq_getElem?_getD, List.getElem?_set_ne h,
    ← List.getD_eq_getElem?_getD]

/-- `setSlot` preserves the number of buckets. -/
theorem setSlot_length (bkts : Buckets) (h j : Nat) (s : Option (List Nat)) :
    (setSlot bkts h j s).length = bkts.length := by
  unfold setSlot; exact List.length_set ..

/-- `setSlot` preserves every bucket's length. -/
theorem setSlot_rowlen (bkts : Buckets) (h j : Nat) (s : Option (List Nat))
    (h' : Nat) :
    ((setSlot bkts h j s).getD h' []).length = (bkts.getD h' []).length := by
  unfold setSlot
  by_cases hh : h = h'
  · subst hh
    by_cases hl : h < bkts.length
    · rw [getD_set_self _ _ _ _ hl, List.length_set]
    · rw [List.set_eq_of_length_le (by omega)]
  · rw [getD_set_ne _ _ _ _ _ hh]

/-- Reading the cell just written by `setSlot`. -/
theorem slotOf_setSlot_same (bkts : Buckets) (h j : Nat)
    (s : Option (List Nat)) (hh : h < bkts.length)
    (hj : j < (bkts.getD h []).length) :
    slotOf (setSlot bkts h j s) h j = s := by
  unfold slotOf setSlot
  rw [getD_set_self _ _ _ _ hh, getD_set_self _ _ _ _ hj]

/-- Reading any other cell after `setSlot`. -/
theorem slotOf_setSlot_ne (bkts : Buckets) (h j : Nat)
    (s : Option (List Nat)) (h' j' : Nat) (hne : h' ≠ h ∨ j' ≠ j) :
    slotOf (setSlot bkts h j s) h' j' = slotOf bkts h' j' := by
  unfold slotOf setSlot
  by_cases hh : h' = h
  · subst hh
    rcases hne with hne | hne
    · exact absurd rfl hne
    · by_cases hl : h' < bkts.length
      · rw [getD_set_self _ _ _ _ hl, getD_set_ne _ _ _ _ _ (Ne.symm hne)]
      · rw [List.set_eq_of_length_le (by omega)]
  · rw [getD_set_ne _ _ _ _ _ (fun e => hh e.symm)]

/-- A bucket with no matching slot scans to `none`. -/
theorem scanKey_eq_none (bpk : Nat) (key : List Nat) :
    ∀ b, scanKey bpk key b = none ↔
      ∀ s ∈ b, slotHasKey bpk key s = false := by
  intro b
  induction b with
  | nil => simp [scanKey]
  | cons s rest ih =>
    by_cases hs : slotHasKey bpk key s <;> simp [scanKey, hs, ih]

/-- A successful scan returns an in-range slot matching the key. -/
theorem scanKey_some (bpk : Nat) (key : List Nat) :
    ∀ b i, scanKey bpk key b = some i →
      i < b.length ∧ slotHasKey bpk key (b.getD i none) = true := by
  intro b
  induction b with
  | nil => intro i h; simp [scanKey] at h
  | cons s rest ih =>
    intro i h
    by_cases hs : slotHasKey bpk key s
    · simp [scanKey, hs] at h
      subst h
      simpa using hs
    · simp [scanKey, hs] at h
      rcases h with ⟨a, ha, hi⟩
      rcases ih a ha with ⟨h1, h2⟩
      subst hi
      constructor
      · simpa using h1
      · simpa using h2

/-- A scan succeeds exactly when some slot matches. -/
theorem scanKey_isSome (bpk : Nat) (key : List Nat) (b : List (Option (List Nat))) :
    (scanKey bpk key b).isSome = true ↔
      ∃ s ∈ b, slotHasKey bpk key s = true := by
  cases hb : scanKey bpk key b with
  | none =>
    simp only [Option.isSome_none]
    constructor
    · intro h; exact absurd h (by simp)
    · rintro ⟨s, hs, hk⟩
      have := (scanKey_eq_none bpk key b).mp hb s hs
      rw [this] at hk
      exact absurd hk (by simp)
  | some i =>
    simp only [Option.isSome_some, true_iff]
    rcases scanKey_some bpk key b i hb with ⟨hlen, hkey⟩
    refine ⟨b.getD i none, ?_, hkey⟩
    rw [List.getD_eq_getElem?_getD, List.getElem?_eq_getElem hlen]
    exact List.getElem_mem hlen

/-- A bucket with no empty slot has `firstNone = none`. -/
theorem firstNone_eq_none :
    ∀ b, firstNone b = none ↔ ∀ s ∈ b, s ≠ none := by
  intro b
  induction b with
  | nil => simp [firstNone]
  | cons s rest ih =>
    cases s with
    | none => simp [firstNone]
    | some kv => simp [firstNone, ih]

/-- A successful `firstNone` returns an in-range empty slot. -/
theorem firstNone_some :
    ∀ b i, firstNone b = some i →
      i < b.length ∧ b.getD i (some []) = none := by
  intro b
  induction b with
  | nil => intro i h; simp [firstNone] at h
  | cons s rest ih =>
    intro i h
    cases s with
    | none =>
      simp [firstNone] at h
      subst h
      simp
    | some kv =>
      simp [firstNone] at h
      rcases h with ⟨a, ha, hi⟩
      rcases ih a ha with ⟨h1, h2⟩
      subst hi
      constructor
      · simpa using h1
      · simpa using h2

/-- Replacing one bucket by a permutation of itself permutes the stored
entries. -/
theorem storedKVs_set_perm :
    ∀ (bkts : Buckets) (h : Nat) (B' : List (Option (List Nat))),
      B'.Perm (bkts.getD h []) → h < bkts.length →
      (storedKVs (bkts.set h B')).Perm (storedKVs bkts) := by
  intro bkts
  induction bkts with
  | nil => intro h B' _ hh; simp at hh
  | cons b rest ih =>
    intro h B' hperm hh
    cases h with
    | zero =>
      simp only [List.getD_cons_zero] at hperm
      simp only [List.set_cons_zero, storedKVs, List.map_cons,
        List.flatten_cons]
      exact (hperm.filterMap id).append_right _
    | succ h' =>
      simp only [List.getD_cons_succ] at hperm
      simp only [List.length_cons] at hh
      simp only [List.set_cons_succ, storedKVs, List.map_cons,
        List.flatten_cons]
      exact (ih h' B' hperm (by omega)).append_left _

/-- Interleaving permutation of flattened lists: if row `i` of `L3` is a
permutation of row `i` of `L1` followed by row `i` of `L2`, the
flattened `L1 ++ L2` permutes the flattened `L3`. -/
theorem flatten_pair_perm {α : Type} :
    ∀ (L3 L1 L2 : List (List α)),
      L1.length = L3.length → L2.length = L3.length →
      (∀ i, i < L3.length →
        ((L1.getD i []) ++ (L2.getD i [])).Perm (L3.getD i [])) →
      (L1.flatten ++ L2.flatten).Perm L3.flatten := by
  intro L3
  induction L3 with
  | nil =>
    intro L1 L2 h1 h2 _
    rw [List.length_eq_zero.mp h1, List.length_eq_zero.mp h2]
    simp
  | cons c C ih =>
    intro L1 L2 h1 h2 hrow
    cases L1 with
    | nil => simp at h1
    | cons a A =>
      cases L2 with
      | nil => simp at h2
      | cons b B =>
        simp only [List.flatten_cons]
        have hhead : (a ++ b).Perm c := by
          have := hrow 0 (by simp)
          simpa using this
        have htail : (A.flatten ++ B.flatten).Perm C.flatten := by
          apply ih A B (by simpa using h1) (by simpa using h2)
          intro i hi
          have := hrow (i + 1) (by simp; omega)
          simpa using this
        have hmid : (A.flatten ++ (b ++ B.flatten)).Perm
            (b ++ (A.flatten ++ B.flatten)) := by
          refine (List.perm_append_comm).trans ?_
          rw [List.append_assoc]
          exact List.Perm.append_left _ List.perm_append_comm
        have s1 : (a ++ (A.flatten ++ (b ++ B.flatten))).Perm
            (a ++ (b ++ (A.flatten ++ B.flatten))) :=
          List.Perm.append_left _ hmid
        have s3 : (a ++ (b ++ (A.flatten ++ B.flatten))).Perm
            (c ++ C.flatten) := by
          rw [← List.append_assoc]
          exact hhead.append htail
        rw [List.append_assoc]
        exact s1.trans s3

/-- `getD` commutes with `map` when the default is the image of a
default. -/
theorem getD_map {α β : Type} (f : α → β) (l : List α) (i : Nat) (d : α) :
    (l.map f).getD i (f d) = f (l.getD i d) := by
  rw [List.getD_eq_getElem?_getD, List.getD_eq_getElem?_getD,
    List.getElem?_map]
  cases l[i]? <;> rfl

/-- `getD` at an in-range index is plain indexing. -/
theorem getD_lt {α : Type} (l : List α) (i : Nat) (d : α)
    (h : i < l.length) : l.getD i d = l[i] := by
  rw [List.getD_eq_getElem?_getD, List.getElem?_eq_getElem h]
  rfl

/-- `getD` at an out-of-range index is the default. -/
theorem getD_ge {α : Type} (l : List α) (i : Nat) (d : α)
    (h : l.length ≤ i) : l.getD i d = d := by
  rw [List.getD_eq_getElem?_getD, List.getElem?_eq_none h]
  rfl

/-- Out-of-range bucket reads are absent. -/
theorem slotOf_oob_bucket (bkts : Buckets) (h j : Nat)
    (hh : bkts.length ≤ h) : slotOf bkts h j = none := by
  unfold slotOf
  rw [getD_ge bkts h [] hh]
  rfl

/-- Out-of-range slot reads are absent. -/
theorem slotOf_oob_slot (bkts : Buckets) (h j : Nat)
    (hj : (bkts.getD h []).length ≤ j) : slotOf bkts h j = none := by
  unfold slotOf
  rw [getD_ge (bkts.getD h []) j none hj]

/-- The Boolean placement check agrees with the placement invariant. -/
theorem placementOK_iff (H : Hashers) (m : Map) :
    placementOK H m = true ↔ PlacementInv H m := by
  unfold placementOK PlacementInv
  rw [List.all_eq_true]
  constructor
  · intro hall i j kv hslot
    by_cases hi : i < m.buckets.length
    · by_cases hj : j < (m.buckets.getD i []).length
      · have h1 := hall i (List.mem_range.mpr hi)
        rw [List.all_eq_true] at h1
        have h2 := h1 j (List.mem_range.mpr hj)
        rw [hslot] at h2
        exact of_decide_eq_true h2
      · rw [slotOf_oob_slot _ _ _ (by omega)] at hslot
        exact absurd hslot (by simp)
    · rw [slotOf_oob_bucket _ _ _ (by omega)] at hslot
      exact absurd hslot (by simp)
  · intro hinv i _
    rw [List.all_eq_true]
    intro j _
    cases hslot : slotOf m.buckets i j with
    | none => rfl
    | some kv => exact decide_eq_true (hinv i j kv hslot)

/-- The Boolean absence check agrees with slot-level absence. -/
theorem keyAbsent_iff (bpk : Nat) (key : List Nat) (bkts : Buckets) :
    keyAbsent bpk key bkts = true ↔
      ∀ h j kv, slotOf bkts h j = some kv → kv.take bpk ≠ key := by
  unfold keyAbsent
  rw [List.all_eq_true]
  constructor
  · intro hall h j kv hslot hkey
    by_cases hh : h < bkts.length
    · by_cases hj : j < (bkts.getD h []).length
      · have hmem : bkts.getD h [] ∈ bkts := by
          rw [getD_lt bkts h [] hh]
          exact List.getElem_mem hh
        have h1 := hall _ hmem
        rw [List.all_eq_true] at h1
        have hmem2 : slotOf bkts h j ∈ bkts.getD h [] := by
          unfold slotOf
          rw [getD_lt (bkts.getD h []) j none hj]
          exact List.getElem_mem hj
        have h2 := h1 _ hmem2
        rw [hslot] at h2
        simp only [Bool.not_eq_true', slotHasKey] at h2
        rw [hkey] at h2
        simp at h2
      · rw [slotOf_oob_slot _ _ _ (by omega)] at hslot
        exact absurd hslot (by simp)
    · rw [slotOf_oob_bucket _ _ _ (by omega)] at hslot
      exact absurd hslot (by simp)
  · intro habs b hb
    rw [List.all_eq_true]
    intro s hs
    cases s with
    | none => rfl
    | some kv =>
      rcases List.getElem_of_mem hb with ⟨h, hh, hbeq⟩
      rcases List.getElem_of_mem hs with ⟨j, hj, hseq⟩
      have hjlen : j < (bkts.getD h []).length := by
        rw [getD_lt bkts h [] hh, hbeq]
        exact hj
      have hslot : slotOf bkts h j = some kv := by
        unfold slotOf
        rw [getD_lt (bkts.getD h []) j none hjlen]
        have : (bkts.getD h [])[j] = b[j] := by
          congr 1
          rw [getD_lt bkts h [] hh, hbeq]
        rw [this, hseq]
      have := habs h j kv hslot
      simp only [Bool.not_eq_true', slotHasKey]
      rw [beq_eq_false_iff_ne]
      exact this

/-- `1 <<< p` is `2 ^ p`. -/
theorem one_shiftLeft_eq (p : Nat) : (1 <<< p) = 2 ^ p := by
  rw [Nat.shiftLeft_eq, one_mul]

/-- `2 <<< p` is `2 ^ (p+1)`. -/
theorem two_shiftLeft_eq (p : Nat) : (2 <<< p) = 2 ^ (p + 1) := by
  rw [Nat.shiftLeft_eq, Nat.pow_succ, Nat.mul_comm]

/-- Masking with `2^p - 1` bounds a number below `2^p`. -/
theorem and_mask_lt (x p : Nat) : x &&& (2 ^ p - 1) < 2 ^ p := by
  rw [Nat.and_pow_two_sub_one_eq_mod]
  exact Nat.mod_lt _ (Nat.pos_pow_of_pos _ (by norm_num))

/-- Narrowing a wider mask. -/
theorem and_masksucc_and_mask (x p : Nat) :
    (x &&& (2 ^ (p + 1) - 1)) &&& (2 ^ p - 1) = x &&& (2 ^ p - 1) := by
  rw [Nat.and_pow_two_sub_one_eq_mod, Nat.and_pow_two_sub_one_eq_mod,
    Nat.and_pow_two_sub_one_eq_mod]
  exact Nat.mod_mod_of_dvd _ (Nat.pow_dvd_pow 2 (Nat.le_succ p))

/-- Pre-masking the left xor operand is absorbed by the outer mask. -/
theorem xor_and_mask (a b p : Nat) :
    ((a &&& (2 ^ p - 1)) ^^^ b) &&& (2 ^ p - 1) = (a ^^^ b) &&& (2 ^ p - 1) := by
  rw [Nat.and_xor_distrib_right, Nat.and_xor_distrib_right,
    Nat.land_assoc, Nat.and_self]

/-- A value below the doubled mask is its low part or its low part plus
`2^p`. -/
theorem mod_pow_succ_split (x p : Nat) :
    x % 2 ^ (p + 1) = x % 2 ^ p ∨ x % 2 ^ (p + 1) = x % 2 ^ p + 2 ^ p := by
  have h : x % 2 ^ (p + 1) = x % 2 ^ p + 2 ^ p * (x / 2 ^ p % 2) :=
    Nat.mod_pow_succ
  rcases Nat.mod_two_eq_zero_or_one (x / 2 ^ p) with h2 | h2 <;>
    rw [h2] at h
  · left; omega
  · right; omega

/-- Relocation-target facts under the placement invariant: the target
is the source bucket under the old mask, it is the source bucket or the
source bucket plus the old bucket count, and it is in range of the
doubled array. -/
theorem expandTarget_spec (H : Hashers) (m : Map) (i j : Nat)
    (kv : List Nat) (hpow : m.bucketCount = 2 ^ m.bucketPower)
    (hslot : slotOf m.buckets i j = some kv)
    (hplace : PlacementInv H m) :
    Map.expandTarget H m i kv &&& (2 ^ m.bucketPower - 1) = i ∧
    (Map.expandTarget H m i kv = i ∨
      Map.expandTarget H m i kv = i + m.bucketCount) ∧
    Map.expandTarget H m i kv < 2 * m.bucketCount := by
  have hp := hplace i j kv hslot
  set p := m.bucketPower with hpdef
  set k := kv.take m.bytesPerKey with hkdef
  have hmain : Map.expandTarget H m i kv &&& (2 ^ p - 1) = i := by
    unfold Map.expandTarget
    rw [one_shiftLeft_eq, two_shiftLeft_eq]
    dsimp only
    by_cases hc : Map.hash1Raw H m k &&& (2 ^ p - 1) = i
    · rw [if_pos hc, and_masksucc_and_mask]
      exact hc
    · rw [if_neg hc, and_masksucc_and_mask]
      rcases hp with hp | hp
      · exfalso
        apply hc
        rw [Map.hash1, Map.mask, one_shiftLeft_eq] at hp
        exact hp
      · rw [Map.hash2val, Map.hash2Raw, Map.hash1, Map.mask,
          one_shiftLeft_eq] at hp
        rw [Map.hash2Raw]
        rw [xor_and_mask] at hp
        exact hp
  refine ⟨hmain, ?_, ?_⟩
  · have hsplit := mod_pow_succ_split
      (if Map.hash1Raw H m k &&& (2 ^ p - 1) = i then Map.hash1Raw H m k
        else Map.hash2Raw H m k (Map.hash1Raw H m k)) p
    have htgt : Map.expandTarget H m i kv =
        (if Map.hash1Raw H m k &&& (2 ^ p - 1) = i then Map.hash1Raw H m k
          else Map.hash2Raw H m k (Map.hash1Raw H m k)) % 2 ^ (p + 1) := by
      unfold Map.expandTarget
      rw [one_shiftLeft_eq, two_shiftLeft_eq]
      dsimp only
      rw [Nat.and_pow_two_sub_one_eq_mod]
    have hlow : (if Map.hash1Raw H m k &&& (2 ^ p - 1) = i
        then Map.hash1Raw H m k
        else Map.hash2Raw H m k (Map.hash1Raw H m k)) % 2 ^ p = i := by
      rw [← Nat.and_pow_two_sub_one_eq_mod]
      have := hmain
      unfold Map.expandTarget at this
      rw [one_shiftLeft_eq, two_shiftLeft_eq] at this
      dsimp only at this
      rw [and_masksucc_and_mask] at this
      exact this
    rw [htgt, hpow]
    rcases hsplit with hs | hs
    · left; rw [hs, hlow]
    · right; rw [hs, hlow]
  · unfold Map.expandTarget
    rw [one_shiftLeft_eq, two_shiftLeft_eq]
    dsimp only
    calc _ < 2 ^ (p + 1) := and_mask_lt _ _
    _ = 2 * m.bucketCount := by rw [hpow, Nat.pow_succ, Nat.mul_comm]

/-- A relocation step never changes the number of buckets. -/
theorem expandCellStep_length (H : Hashers) (m : Map) (i : Nat)
    (acc : Buckets) (j : Nat) :
    (expandCellStep H m i acc j).length = acc.length := by
  unfold expandCellStep
  split
  · rfl
  · exact setSlot_length ..

/-- A relocation step never changes a bucket's width. -/
theorem expandCellStep_rowlen (H : Hashers) (m : Map) (i : Nat)
    (acc : Buckets) (j h' : Nat) :
    ((expandCellStep H m i acc j).getD h' []).length =
      (acc.getD h' []).length := by
  unfold expandCellStep
  split
  · rfl
  · exact setSlot_rowlen ..

/-- The inner relocation loop never changes the number of buckets. -/
theorem foldl_cellStep_length (H : Hashers) (m : Map) (i : Nat) :
    ∀ (js : List Nat) (acc : Buckets),
      ((js.foldl (expandCellStep H m i) acc)).length = acc.length := by
  intro js
  induction js with
  | nil => intro acc; rfl
  | cons j js ih =>
    intro acc
    rw [List.foldl_cons, ih, expandCellStep_length]

/-- The inner relocation loop never changes a bucket's width. -/
theorem foldl_cellStep_rowlen (H : Hashers) (m : Map) (i : Nat) :
    ∀ (js : List Nat) (acc : Buckets) (h' : Nat),
      ((js.foldl (expandCellStep H m i) acc).getD h' []).length =
        (acc.getD h' []).length := by
  intro js
  induction js with
  | nil => intro acc h'; rfl
  | cons j js ih =>
    intro acc h'
    rw [List.foldl_cons, ih, expandCellStep_rowlen]

/-- Cell-level effect of one relocation step. -/
theorem expandCellStep_slot (H : Hashers) (m : Map) (i : Nat)
    (acc : Buckets) (j h' j' : Nat)
    (hlen : ∀ jj kvv, slotOf m.buckets i jj = some kvv →
      Map.expandTarget H m i kvv < acc.length)
    (hrow : ∀ hh, hh < acc.length →
      (acc.getD hh []).length = m.keysPerBucket)
    (hj : j < m.keysPerBucket) :
    slotOf (expandCellStep H m i acc j) h' j' =
      if j' = j then (expandWriteAt H m i h' j).getD (slotOf acc h' j)
      else slotOf acc h' j' := by
  unfold expandCellStep expandWriteAt
  cases hsl : slotOf m.buckets i j with
  | none =>
    by_cases hjj : j' = j
    · subst hjj; simp
    · simp [hjj]
  | some kv =>
    by_cases hjj : j' = j
    · subst hjj
      dsimp only
      by_cases htg : Map.expandTarget H m i kv = h'
      · rw [if_pos rfl, if_pos htg]
        subst htg
        have hb1 : Map.expandTarget H m i kv < acc.length := hlen _ kv hsl
        have hb2 : j' < (acc.getD (Map.expandTarget H m i kv) []).length := by
          rw [hrow _ hb1]; exact hj
        rw [slotOf_setSlot_same _ _ _ _ hb1 hb2]
        rfl
      · rw [if_pos rfl, if_neg htg]
        rw [slotOf_setSlot_ne _ _ _ _ _ _ (Or.inl (fun e => htg e.symm))]
        rfl
    · rw [if_neg hjj]
      dsimp only
      exact slotOf_setSlot_ne _ _ _ _ _ _ (Or.inr hjj)

/-- Cell-level effect of the whole inner relocation loop. -/
theorem expandStep_fold_slot (H : Hashers) (m : Map) (i : Nat) :
    ∀ (js : List Nat) (acc : Buckets) (h' j' : Nat),
      (∀ jj kvv, slotOf m.buckets i jj = some kvv →
        Map.expandTarget H m i kvv < acc.length) →
      (∀ hh, hh < acc.length →
        (acc.getD hh []).length = m.keysPerBucket) →
      (∀ x ∈ js, x < m.keysPerBucket) →
      slotOf (js.foldl (expandCellStep H m i) acc) h' j' =
        if j' ∈ js
        then (expandWriteAt H m i h' j').getD (slotOf acc h' j')
        else slotOf acc h' j' := by
  intro js
  induction js with
  | nil => intro acc h' j' _ _ _; simp
  | cons j js ih =>
    intro acc h' j' hlen hrow hjs
    rw [List.foldl_cons]
    have hlen' : ∀ jj kvv, slotOf m.buckets i jj = some kvv →
        Map.expandTarget H m i kvv < (expandCellStep H m i acc j).length := by
      intro jj kvv hs
      rw [expandCellStep_length]
      exact hlen jj kvv hs
    have hrow' : ∀ hh, hh < (expandCellStep H m i acc j).length →
        ((expandCellStep H m i acc j).getD hh []).length =
          m.keysPerBucket := by
      intro hh hhh
      rw [expandCellStep_rowlen]
      apply hrow
      rw [expandCellStep_length] at hhh
      exact hhh
    have hstep := expandCellStep_slot H m i acc j h' j' hlen hrow
      (hjs j (List.mem_cons_self j js))
    rw [ih (expandCellStep H m i acc j) h' j' hlen' hrow'
      (fun x hx => hjs x (List.mem_cons_of_mem j hx))]
    by_cases hin : j' ∈ js
    · rw [if_pos hin, if_pos (List.mem_cons_of_mem j hin)]
      cases hw : expandWriteAt H m i h' j' with
      | some w => rfl
      | none =>
        simp only [Option.getD_none]
        rw [hstep]
        by_cases hjj : j' = j
        · subst hjj
          rw [if_pos rfl, hw]
          rfl
        · rw [if_neg hjj]
    · rw [if_neg hin, hstep]
      by_cases hjj : j' = j
      · subst hjj
        rw [if_pos rfl, if_pos (List.mem_cons_self _ _)]
      · rw [if_neg hjj, if_neg (by
          intro hmem
          rcases List.mem_cons.mp hmem with h | h
          · exact hjj h
          · exact hin h)]

/-- Absence of cells in the freshly allocated doubled array. -/
theorem slotOf_replicate_none (a b h j : Nat) :
    slotOf (List.replicate a (List.replicate b (none : Option (List Nat))))
      h j = none := by
  unfold slotOf
  by_cases hh : h < a
  · have e1 : (List.replicate a
        (List.replicate b (none : Option (List Nat)))).getD h [] =
        List.replicate b none := by
      rw [getD_lt _ _ _ (by rw [List.length_replicate]; exact hh)]
      exact List.getElem_replicate ..
    rw [e1]
    by_cases hj : j < b
    · rw [getD_lt _ _ _ (by rw [List.length_replicate]; exact hj)]
      exact List.getElem_replicate ..
    · rw [getD_ge _ _ _ (by rw [List.length_replicate]; omega)]
  · rw [getD_ge (List.replicate a
      (List.replicate b (none : Option (List Nat)))) h []
      (by rw [List.length_replicate]; omega)]
    rfl

/-- Cell-level effect of the whole expansion fold: under the placement
invariant, cell `(h', j')` of the result is exactly the relocation
write aimed at it (whose source bucket must be `h'` under the old
mask), or the accumulator's cell. -/
theorem expandFold_slot (H : Hashers) (m : Map)
    (hpow : m.bucketCount = 2 ^ m.bucketPower)
    (hplace : PlacementInv H m) :
    ∀ (is : List Nat) (acc : Buckets) (h' j' : Nat),
      acc.length = 2 * m.bucketCount →
      (∀ hh, hh < acc.length →
        (acc.getD hh []).length = m.keysPerBucket) →
      slotOf (is.foldl (expandStep H m) acc) h' j' =
        if (h' &&& (2 ^ m.bucketPower - 1)) ∈ is ∧ j' < m.keysPerBucket
        then (expandWriteAt H m (h' &&& (2 ^ m.bucketPower - 1)) h' j').getD
          (slotOf acc h' j')
        else slotOf acc h' j' := by
  intro is
  induction is with
  | nil => intro acc h' j' _ _; simp
  | cons i is ih =>
    intro acc h' j' hlen hrow
    rw [List.foldl_cons]
    have hstep_len : (expandStep H m acc i).length = acc.length :=
      foldl_cellStep_length H m i _ acc
    have hstep_row : ∀ hh, hh < (expandStep H m acc i).length →
        ((expandStep H m acc i).getD hh []).length = m.keysPerBucket := by
      intro hh hhh
      show (((List.range m.keysPerBucket).foldl (expandCellStep H m i)
        acc).getD hh []).length = m.keysPerBucket
      rw [foldl_cellStep_rowlen]
      apply hrow
      rw [hstep_len] at hhh
      exact hhh
    have htgtlt : ∀ jj kvv, slotOf m.buckets i jj = some kvv →
        Map.expandTarget H m i kvv < acc.length := by
      intro jj kvv hs
      rw [hlen]
      exact (expandTarget_spec H m i jj kvv hpow hs hplace).2.2
    have hinner : slotOf (expandStep H m acc i) h' j' =
        if j' ∈ List.range m.keysPerBucket
        then (expandWriteAt H m i h' j').getD (slotOf acc h' j')
        else slotOf acc h' j' :=
      expandStep_fold_slot H m i (List.range m.keysPerBucket) acc h' j'
        htgtlt hrow (fun x hx => List.mem_range.mp hx)
    have hwnone : i ≠ h' &&& (2 ^ m.bucketPower - 1) →
        expandWriteAt H m i h' j' = none := by
      intro hne
      unfold expandWriteAt
      cases hs : slotOf m.buckets i j' with
      | none => rfl
      | some kv =>
        dsimp only
        rw [if_neg]
        intro htg
        apply hne
        have hspec := (expandTarget_spec H m i j' kv hpow hs hplace).1
        rw [htg] at hspec
        exact hspec.symm
    have hstep_cell : i ≠ h' &&& (2 ^ m.bucketPower - 1) →
        slotOf (expandStep H m acc i) h' j' = slotOf acc h' j' := by
      intro hne
      rw [hinner]
      by_cases hjr : j' ∈ List.range m.keysPerBucket
      · rw [if_pos hjr, hwnone hne]
        rfl
      · rw [if_neg hjr]
    rw [ih (expandStep H m acc i) h' j' (by rw [hstep_len, hlen]) hstep_row]
    by_cases hmem : (h' &&& (2 ^ m.bucketPower - 1)) ∈ is
    · by_cases hjK : j' < m.keysPerBucket
      · rw [if_pos ⟨hmem, hjK⟩, if_pos ⟨List.mem_cons_of_mem i hmem, hjK⟩]
        cases hw : expandWriteAt H m (h' &&& (2 ^ m.bucketPower - 1)) h' j' with
        | some w => rfl
        | none =>
          simp only [Option.getD_none]
          by_cases hieq : i = h' &&& (2 ^ m.bucketPower - 1)
          · rw [hinner, if_pos (List.mem_range.mpr hjK), hieq, hw]
            rfl
          · exact hstep_cell hieq
      · rw [if_neg (fun hc => hjK hc.2), if_neg (fun hc => hjK hc.2)]
        rw [hinner, if_neg (fun hjr => hjK (List.mem_range.mp hjr))]
    · by_cases hieq : i = h' &&& (2 ^ m.bucketPower - 1)
      · by_cases hjK : j' < m.keysPerBucket
        · rw [if_neg (fun hc => hmem hc.1),
            if_pos (And.intro
              (show (h' &&& (2 ^ m.bucketPower - 1)) ∈ i :: is by
                rw [← hieq]; exact List.mem_cons_self _ _) hjK)]
          rw [hinner, if_pos (List.mem_range.mpr hjK), hieq]
        · rw [if_neg (fun hc => hjK hc.2), if_neg (fun hc => hjK hc.2)]
          rw [hinner, if_neg (fun hjr => hjK (List.mem_range.mp hjr))]
      · rw [if_neg (fun hc => hmem hc.1), if_neg (by
          intro hc
          rcases List.mem_cons.mp hc.1 with h | h
          · exact hieq h.symm
          · exact hmem h)]
        exact hstep_cell hieq

/-- Pointwise description of the doubled bucket array: cell `(h', j')`
holds the old entry of cell `(h' mod oldCount, j')` when that entry's
relocation target is `h'`, and is empty otherwise. -/
theorem expandBucket_slot (H : Hashers) (m : Map)
    (hWF : WFb m) (hplace : PlacementInv H m) (h' j' : Nat) :
    slotOf (Map.expandBucket H m).buckets h' j' =
      (expandWriteAt H m (h' &&& (2 ^ m.bucketPower - 1)) h' j').getD
        none := by
  rcases hWF with ⟨hblen, hrows, hpow⟩
  have hinit_len : (List.replicate (m.bucketCount * 2)
      (List.replicate m.keysPerBucket (none : Option (List Nat)))).length =
      2 * m.bucketCount := by
    rw [List.length_replicate, Nat.mul_comm]
  have hinit_row : ∀ hh, hh < (List.replicate (m.bucketCount * 2)
      (List.replicate m.keysPerBucket (none : Option (List Nat)))).length →
      ((List.replicate (m.bucketCount * 2)
        (List.replicate m.keysPerBucket
          (none : Option (List Nat)))).getD hh []).length =
      m.keysPerBucket := by
    intro hh hhh
    rw [List.length_replicate] at hhh
    rw [getD_lt _ _ _ (by simpa using hhh), List.getElem_replicate,
      List.length_replicate]
  have hchar : slotOf (Map.expandBucket H m).buckets h' j' =
      if (h' &&& (2 ^ m.bucketPower - 1)) ∈ List.range m.bucketCount ∧
        j' < m.keysPerBucket
      then (expandWriteAt H m (h' &&& (2 ^ m.bucketPower - 1)) h' j').getD
        (slotOf (List.replicate (m.bucketCount * 2)
          (List.replicate m.keysPerBucket none)) h' j')
      else slotOf (List.replicate (m.bucketCount * 2)
        (List.replicate m.keysPerBucket none)) h' j' :=
    expandFold_slot H m hpow hplace (List.range m.bucketCount) _ h' j'
      hinit_len hinit_row
  rw [hchar, slotOf_replicate_none]
  have hi0 : (h' &&& (2 ^ m.bucketPower - 1)) ∈ List.range m.bucketCount :=
    List.mem_range.mpr (by rw [hpow]; exact and_mask_lt h' m.bucketPower)
  by_cases hjK : j' < m.keysPerBucket
  · rw [if_pos ⟨hi0, hjK⟩]
  · rw [if_neg (fun hc => hjK hc.2)]
    have hnone : expandWriteAt H m (h' &&& (2 ^ m.bucketPower - 1))
        h' j' = none := by
      unfold expandWriteAt
      have hs : slotOf m.buckets (h' &&& (2 ^ m.bucketPower - 1)) j' =
          none := by
        apply slotOf_oob_slot
        rw [hrows _ (by rw [hpow]; exact and_mask_lt h' m.bucketPower)]
        omega
      rw [hs]
    rw [hnone]
    rfl

/-- `getD` through `take` below the cut. -/
theorem getD_take {α : Type} (l : List α) (n i : Nat) (d : α)
    (h : i < n) : (l.take n).getD i d = l.getD i d := by
  rw [List.getD_eq_getElem?_getD, List.getD_eq_getElem?_getD,
    List.getElem?_take_of_lt h]

/-- `getD` through `drop`. -/
theorem getD_drop {α : Type} (l : List α) (n i : Nat) (d : α) :
    (l.drop n).getD i d = l.getD (n + i) d := by
  rw [List.getD_eq_getElem?_getD, List.getD_eq_getElem?_getD,
    List.getElem?_drop]

/-- A list of known length is the table of its `getD` reads. -/
theorem list_eq_map_range_getD {α : Type} (l : List α) (d : α) (n : Nat)
    (h : l.length = n) :
    l = (List.range n).map (fun j => l.getD j d) := by
  apply List.ext_getElem
  · simp [h]
  · intro i h1 h2
    simp only [List.getElem_map, List.getElem_range]
    rw [getD_lt _ _ _ (by omega)]

/-- `getD` through a `filterMap id` image row. -/
theorem getD_map_filterMap (l : List (List (Option (List Nat)))) (i : Nat) :
    (l.map (fun b => b.filterMap id)).getD i [] =
      (l.getD i []).filterMap id := by
  have h := getD_map (fun b : List (Option (List Nat)) =>
    b.filterMap id) l i []
  simpa using h

/-- Splitting a pointwise either-or distribution of entries between two
row families: their filtered concatenation permutes the filtered
original row. -/
theorem filterMap_pair_perm {α : Type} (g1 g2 g3 : Nat → Option α) :
    ∀ (js : List Nat),
      (∀ j ∈ js, (g1 j = g3 j ∧ g2 j = none) ∨
        (g2 j = g3 j ∧ g1 j = none)) →
      (((js.map g1).filterMap id) ++ ((js.map g2).filterMap id)).Perm
        ((js.map g3).filterMap id) := by
  intro js
  induction js with
  | nil => intro _; simp
  | cons j js ih =>
    intro hcomp
    have hj := hcomp j (List.mem_cons_self _ _)
    have htail := ih (fun x hx => hcomp x (List.mem_cons_of_mem _ hx))
    simp only [List.map_cons, List.filterMap_cons, id]
    rcases hj with ⟨h13, h2n⟩ | ⟨h23, h1n⟩
    · rw [h2n, h13]
      cases hg3 : g3 j with
      | none => simpa using htail
      | some a =>
        simp only
        exact htail.cons a
    · rw [h1n, h23]
      cases hg3 : g3 j with
      | none => simpa using htail
      | some a =>
        simp only
        exact (List.perm_middle).trans (htail.cons a)

/-- The outer expansion fold never changes the number of buckets. -/
theorem foldl_expandStep_length (H : Hashers) (m : Map) :
    ∀ (is : List Nat) (acc : Buckets),
      (is.foldl (expandStep H m) acc).length = acc.length := by
  intro is
  induction is with
  | nil => intro acc; rfl
  | cons i is ih =>
    intro acc
    rw [List.foldl_cons, ih]
    exact foldl_cellStep_length H m i _ acc

/-- The outer expansion fold never changes a bucket's width. -/
theorem foldl_expandStep_rowlen (H : Hashers) (m : Map) :
    ∀ (is : List Nat) (acc : Buckets) (h' : Nat),
      ((is.foldl (expandStep H m) acc).getD h' []).length =
        (acc.getD h' []).length := by
  intro is
  induction is with
  | nil => intro acc h'; rfl
  | cons i is ih =>
    intro acc h'
    rw [List.foldl_cons, ih]
    exact foldl_cellStep_rowlen H m i _ acc h'

/-- The doubled array has `2 · bucketCount` buckets. -/
theorem expandBucket_length (H : Hashers) (m : Map) :
    (Map.expandBucket H m).buckets.length = m.bucketCount * 2 := by
  show ((List.range m.bucketCount).foldl (expandStep H m)
    (List.replicate (m.bucketCount * 2)
      (List.replicate m.keysPerBucket none))).length = m.bucketCount * 2
  rw [foldl_expandStep_length, List.length_replicate]

/-- Rows of the doubled array keep width `keysPerBucket`. -/
theorem expandBucket_rowlen (H : Hashers) (m : Map) (h' : Nat)
    (hh : h' < m.bucketCount * 2) :
    ((Map.expandBucket H m).buckets.getD h' []).length =
      m.keysPerBucket := by
  show (((List.range m.bucketCount).foldl (expandStep H m)
    (List.replicate (m.bucketCount * 2)
      (List.replicate m.keysPerBucket none))).getD h' []).length =
    m.keysPerBucket
  rw [foldl_expandStep_rowlen]
  rw [getD_lt _ _ _ (by rw [List.length_replicate]; exact hh),
    List.getElem_replicate, List.length_replicate]

/-- A failed `put0` leaves the state untouched. -/
theorem put0_fail_eq (m : Map) (key val : List Nat) (h : Nat)
    (hf : (Map.put0 m key val h).1 = false) :
    (Map.put0 m key val h).2 = m := by
  unfold Map.put0 at hf ⊢
  cases hfn : firstNone (m.buckets.getD h []) with
  | some i => rw [hfn] at hf; exact absurd hf (by simp)
  | none => rfl

/-- `put0` fails exactly on a full bucket. -/
theorem put0_fail_iff (m : Map) (key val : List Nat) (h : Nat) :
    (Map.put0 m key val h).1 = false ↔
      firstNone (m.buckets.getD h []) = none := by
  unfold Map.put0
  cases hfn : firstNone (m.buckets.getD h []) <;> simp

/-- `sameShape` is reflexive. -/
theorem sameShape_refl (m : Map) : sameShape m m :=
  ⟨rfl, rfl, rfl, rfl, rfl, rfl, rfl, rfl, fun _ => rfl⟩

/-- `sameShape` composes. -/
theorem sameShape_trans {m1 m2 m3 : Map} (h12 : sameShape m1 m2)
    (h23 : sameShape m2 m3) : sameShape m1 m3 := by
  obtain ⟨a1, a2, a3, a4, a5, a6, a7, a8, a9⟩ := h12
  obtain ⟨b1, b2, b3, b4, b5, b6, b7, b8, b9⟩ := h23
  exact ⟨b1.trans a1, b2.trans a2, b3.trans a3, b4.trans a4,
    b5.trans a5, b6.trans a6, b7.trans a7, b8.trans a8,
    fun hq => (b9 hq).trans (a9 hq)⟩

/-- `put0` keeps the shape. -/
theorem put0_sameShape (m : Map) (key val : List Nat) (h : Nat) :
    sameShape m (Map.put0 m key val h).2 := by
  unfold Map.put0
  cases hfn : firstNone (m.buckets.getD h []) with
  | none => exact sameShape_refl m
  | some i =>
    exact ⟨rfl, rfl, rfl, rfl, rfl, rfl, rfl, setSlot_length ..,
      fun hq => setSlot_rowlen ..⟩

/-- `hash2` keeps the shape. -/
theorem hash2_sameShape (H : Hashers) (m : Map) (key : List Nat)
    (h1 : Nat) : sameShape m (Map.hash2 H m key h1).2 := by
  rcases hash2_snd H m key h1 with h | h <;> rw [h]
  · exact sameShape_refl m
  · exact ⟨rfl, rfl, rfl, rfl, rfl, rfl, rfl, rfl, fun _ => rfl⟩

/-- `put0`'s effect on `count`. -/
theorem put0_count (m : Map) (key val : List Nat) (h : Nat) :
    (Map.put0 m key val h).2.count =
      (if (Map.put0 m key val h).1 then add64 m.count 1 else m.count) := by
  unfold Map.put0
  cases hfn : firstNone (m.buckets.getD h []) <;> simp

/-- `bumpZ` changes only `zeroHash2Count`. -/
theorem bumpZ_shape (m : Map) :
    (bumpZ m).buckets = m.buckets ∧ (bumpZ m).count = m.count ∧
    (bumpZ m).valuesByteCount = m.valuesByteCount :=
  ⟨rfl, rfl, rfl⟩

/-- A full bucket: `firstNone` misses exactly when no slot is empty. -/
theorem full_of_firstNone_none (b : List (Option (List Nat)))
    (hfn : firstNone b = none) :
    ∀ t, t < b.length → b.getD t none ≠ none := by
  intro t ht
  have hall := (firstNone_eq_none b).mp hfn
  rw [getD_lt _ _ _ ht]
  exact hall _ (List.getElem_mem ht)

/-- `put0` into any bucket never touches the slots of a full bucket. -/
theorem put0_keeps_full_bucket (m : Map) (key val : List Nat)
    (tgt h : Nat)
    (hfull : ∀ t, t < (m.buckets.getD h []).length →
      slotOf m.buckets h t ≠ none) :
    ∀ t, slotOf (Map.put0 m key val tgt).2.buckets h t =
      slotOf m.buckets h t := by
  intro t
  unfold Map.put0
  cases hfn : firstNone (m.buckets.getD tgt []) with
  | none => rfl
  | some i =>
    dsimp only
    by_cases htgt : h = tgt
    · subst htgt
      rcases firstNone_some _ _ hfn with ⟨hil, hie⟩
      exfalso
      apply hfull i hil
      unfold slotOf
      rw [getD_lt _ _ _ hil]
      rw [getD_lt _ _ (some []) hil] at hie
      exact hie
    · exact slotOf_setSlot_ne _ _ _ _ _ _ (Or.inl htgt)

/-- The kick-out loop keeps the shape. -/
theorem rehashLoop_sameShape (H : Hashers) (h : Nat) :
    ∀ (js : List Nat) (kv : List Nat) (m : Map),
      sameShape m (rehashLoop H h js kv m).2.2 := by
  intro js
  induction js with
  | nil => intro kv m; exact sameShape_refl m
  | cons i js ih =>
    intro kv m
    rw [rehashLoop]
    have hm2 : sameShape m
        { m with
          buckets := setSlot m.buckets h i (some kv),
          valuesByteCount :=
            add64 (sub64 m.valuesByteCount
              (((slotOf m.buckets h i).getD []).drop m.bytesPerKey).length)
              (kv.drop m.bytesPerKey).length } :=
      ⟨rfl, rfl, rfl, rfl, rfl, rfl, rfl, setSlot_length ..,
        fun hq => setSlot_rowlen ..⟩
    dsimp only
    split
    · exact sameShape_trans hm2 (sameShape_trans
        (hash2_sameShape H _ _ _) (put0_sameShape ..))
    · exact sameShape_trans hm2 (sameShape_trans
        (hash2_sameShape H _ _ _)
        (sameShape_trans (put0_sameShape ..) (ih _ _)))

/-- Unfolding equation of the kick-out loop in terms of the named
step pieces. -/
theorem rehashLoop_cons (H : Hashers) (h i : Nat) (js : List Nat)
    (kv : List Nat) (m : Map) :
    rehashLoop H h (i :: js) kv m =
      (if (kickTry H m h i kv).1
       then (true, kickDisplaced m h i, (kickTry H m h i kv).2)
       else rehashLoop H h js (kickDisplaced m h i)
         (kickTry H m h i kv).2) := rfl

/-- `P64` is positive. -/
theorem P64_pos : 0 < P64 := Nat.pos_pow_of_pos 64 (by norm_num)

/-- `add64` stays below the modulus. -/
theorem add64_lt (a b : Nat) : add64 a b < P64 := Nat.mod_lt _ P64_pos

/-- `sub64` stays below the modulus. -/
theorem sub64_lt (a b : Nat) : sub64 a b < P64 := Nat.mod_lt _ P64_pos

/-- `add64` is addition in `ZMod P64`. -/
theorem add64_cast (a b : Nat) :
    ((add64 a b : Nat) : ZMod P64) = (a : ZMod P64) + b := by
  unfold add64
  rw [ZMod.natCast_mod]
  push_cast
  ring

/-- `sub64` is subtraction in `ZMod P64`. -/
theorem sub64_cast (a b : Nat) :
    ((sub64 a b : Nat) : ZMod P64) = (a : ZMod P64) - b := by
  unfold sub64
  rw [ZMod.natCast_mod]
  have hb : b % P64 ≤ P64 := le_of_lt (Nat.mod_lt _ P64_pos)
  push_cast [hb]
  rw [ZMod.natCast_self, ZMod.natCast_mod]
  ring

/-- Two reduced values agreeing in `ZMod P64` are equal. -/
theorem cast64_inj {a b : Nat} (ha : a < P64) (hb : b < P64)
    (h : (a : ZMod P64) = (b : ZMod P64)) : a = b :=
  Nat.ModEq.eq_of_lt_of_lt ((ZMod.natCast_eq_natCast_iff a b P64).mp h)
    ha hb

/-- `hash2` leaves buckets and both byte counters untouched. -/
theorem hash2_counters (H : Hashers) (m : Map) (key : List Nat)
    (h1 : Nat) :
    (Map.hash2 H m key h1).2.buckets = m.buckets ∧
    (Map.hash2 H m key h1).2.count = m.count ∧
    (Map.hash2 H m key h1).2.valuesByteCount = m.valuesByteCount ∧
    (Map.hash2 H m key h1).2.bytesPerKey = m.bytesPerKey := by
  rcases hash2_snd H m key h1 with h | h <;> rw [h] <;>
    exact ⟨rfl, rfl, rfl, rfl⟩

/-- A failed placement attempt of the displaced entry: the state is the
post-swap state up to a possible `zeroHash2Count` bump. -/
theorem kickTry_fail (H : Hashers) (m : Map) (h i : Nat) (kv : List Nat)
    (hf : (kickTry H m h i kv).1 = false) :
    (kickTry H m h i kv).2.buckets = (kickSwap m h i kv).buckets ∧
    (kickTry H m h i kv).2.count = m.count ∧
    (kickTry H m h i kv).2.valuesByteCount =
      (kickSwap m h i kv).valuesByteCount ∧
    (kickTry H m h i kv).2.bytesPerKey = m.bytesPerKey := by
  unfold kickTry at hf ⊢
  dsimp only at hf ⊢
  rw [put0_fail_eq _ _ _ _ hf]
  have hc := hash2_counters H (kickSwap m h i kv)
    ((kickDisplaced m h i).take m.bytesPerKey) h
  exact ⟨hc.1, hc.2.1, hc.2.2.1, hc.2.2.2⟩

/-- A successful placement attempt: the count goes up by one and a full
bucket `h` is untouched. -/
theorem kickTry_success (H : Hashers) (m : Map) (h i : Nat)
    (kv : List Nat)
    (hfullSwap : ∀ t, t < ((kickSwap m h i kv).buckets.getD h []).length →
      slotOf (kickSwap m h i kv).buckets h t ≠ none)
    (hs : (kickTry H m h i kv).1 = true) :
    (∀ t, slotOf (kickTry H m h i kv).2.buckets h t =
      slotOf (kickSwap m h i kv).buckets h t) ∧
    (kickTry H m h i kv).2.count = add64 m.count 1 := by
  unfold kickTry at hs ⊢
  dsimp only at hs ⊢
  have hc := hash2_counters H (kickSwap m h i kv)
    ((kickDisplaced m h i).take m.bytesPerKey) h
  constructor
  · intro t
    have hkeep := put0_keeps_full_bucket
      (Map.hash2 H (kickSwap m h i kv)
        ((kickDisplaced m h i).take m.bytesPerKey) h).2
      ((kickDisplaced m h i).take m.bytesPerKey)
      ((kickDisplaced m h i).drop m.bytesPerKey)
      (Map.hash2 H (kickSwap m h i kv)
        ((kickDisplaced m h i).take m.bytesPerKey) h).1 h
      (by rw [hc.1]; exact hfullSwap) t
    rw [hkeep, hc.1]
  · rw [put0_count]
    rw [hs]
    rw [if_pos rfl, hc.2.1]
    rfl

/-- The swap writes the pending entry into its slot. -/
theorem kickSwap_slot_same (m : Map) (h i : Nat) (kv : List Nat)
    (hh : h < m.buckets.length)
    (hi : i < (m.buckets.getD h []).length) :
    slotOf (kickSwap m h i kv).buckets h i = some kv := by
  unfold kickSwap
  dsimp only
  exact slotOf_setSlot_same _ _ _ _ hh hi

/-- The swap changes no other cell. -/
theorem kickSwap_slot_ne (m : Map) (h i : Nat) (kv : List Nat)
    (hq jq : Nat) (hne : hq ≠ h ∨ jq ≠ i) :
    slotOf (kickSwap m h i kv).buckets hq jq = slotOf m.buckets hq jq := by
  unfold kickSwap
  dsimp only
  exact slotOf_setSlot_ne _ _ _ _ _ _ hne

/-- The swap preserves the kicked bucket's width. -/
theorem kickSwap_rowlen (m : Map) (h i : Nat) (kv : List Nat) (hq : Nat) :
    ((kickSwap m h i kv).buckets.getD hq []).length =
      (m.buckets.getD hq []).length := by
  unfold kickSwap
  dsimp only
  exact setSlot_rowlen ..

/-- A successful kick-out loop writes the pending entry into the first
processed slot of the kicked bucket, leaves lower slots alone, and
raises `count` by exactly one. -/
theorem rehashLoop_success (H : Hashers) (h : Nat) :
    ∀ (n i : Nat) (kv : List Nat) (m : Map),
      h < m.buckets.length →
      (∀ t, t < (m.buckets.getD h []).length →
        slotOf m.buckets h t ≠ none) →
      i + n ≤ (m.buckets.getD h []).length →
      (rehashLoop H h (List.range' i n) kv m).1 = true →
      (slotOf (rehashLoop H h (List.range' i n) kv m).2.2.buckets h i =
        some kv) ∧
      (∀ t, t < i →
        slotOf (rehashLoop H h (List.range' i n) kv m).2.2.buckets h t =
          slotOf m.buckets h t) ∧
      (rehashLoop H h (List.range' i n) kv m).2.2.count =
        add64 m.count 1 := by
  intro n
  induction n with
  | zero =>
    intro i kv m _ _ _ hres
    rw [show List.range' i 0 = [] from rfl, rehashLoop] at hres
    exact absurd hres (by simp)
  | succ n ih =>
    intro i kv m hlen hfull hrange hres
    have hcons : List.range' i (n + 1) = i :: List.range' (i + 1) n := rfl
    rw [hcons, rehashLoop_cons] at hres ⊢
    have hi : i < (m.buckets.getD h []).length := by omega
    have hswap_same := kickSwap_slot_same m h i kv hlen hi
    have hswap_full : ∀ t,
        t < ((kickSwap m h i kv).buckets.getD h []).length →
        slotOf (kickSwap m h i kv).buckets h t ≠ none := by
      intro t ht
      rw [kickSwap_rowlen] at ht
      by_cases hti : t = i
      · subst hti
        rw [hswap_same]
        simp
      · rw [kickSwap_slot_ne m h i kv h t (Or.inr hti)]
        exact hfull t ht
    by_cases hq1 : (kickTry H m h i kv).1
    · rw [if_pos hq1] at hres ⊢
      dsimp only
      have hks := kickTry_success H m h i kv hswap_full hq1
      refine ⟨?_, ?_, hks.2⟩
      · rw [hks.1 i, hswap_same]
      · intro t ht
        rw [hks.1 t, kickSwap_slot_ne m h i kv h t (Or.inr (by omega))]
    · rw [if_neg hq1] at hres ⊢
      have hkf := kickTry_fail H m h i kv (by simpa using hq1)
      have hlen' : h < (kickTry H m h i kv).2.buckets.length := by
        rw [hkf.1]
        unfold kickSwap
        dsimp only
        rw [setSlot_length]
        exact hlen
      have hrowlen' : ((kickTry H m h i kv).2.buckets.getD h []).length =
          (m.buckets.getD h []).length := by
        rw [hkf.1, kickSwap_rowlen]
      have hfull' : ∀ t,
          t < ((kickTry H m h i kv).2.buckets.getD h []).length →
          slotOf (kickTry H m h i kv).2.buckets h t ≠ none := by
        intro t ht
        rw [hkf.1] at ht ⊢
        exact hswap_full t ht
      have hrange' : (i + 1) + n ≤
          ((kickTry H m h i kv).2.buckets.getD h []).length := by
        rw [hrowlen']
        omega
      have hrec := ih (i + 1) (kickDisplaced m h i)
        (kickTry H m h i kv).2 hlen' hfull' hrange' hres
      refine ⟨?_, ?_, ?_⟩
      · rw [hrec.2.1 i (by omega), hkf.1, hswap_same]
      · intro t ht
        rw [hrec.2.1 t (by omega), hkf.1,
          kickSwap_slot_ne m h i kv h t (Or.inr (by omega))]
      · rw [hrec.2.2, hkf.2.1]

/-- A failed kick-out loop shifts the kicked bucket's entries down by
one slot (the pending entry enters the first processed slot), leaves
every other bucket untouched, preserves `count`, walks the byte
accounting to `original + pendingValue - displacedValue`, and hands the
last displaced entry back. -/
theorem rehashLoop_fail (H : Hashers) (h : Nat) :
    ∀ (n i : Nat) (kv : List Nat) (m : Map),
      h < m.buckets.length →
      (∀ t, i ≤ t → t < i + n → slotOf m.buckets h t ≠ none) →
      i + n ≤ (m.buckets.getD h []).length →
      m.valuesByteCount < P64 →
      (rehashLoop H h (List.range' i n) kv m).1 = false →
      (∀ hq jq,
        slotOf (rehashLoop H h (List.range' i n) kv m).2.2.buckets hq jq =
          if hq = h ∧ i ≤ jq ∧ jq < i + n then
            (if jq = i then some kv else slotOf m.buckets h (jq - 1))
          else slotOf m.buckets hq jq) ∧
      ((rehashLoop H h (List.range' i n) kv m).2.1 =
        if n = 0 then kv else (slotOf m.buckets h (i + n - 1)).getD []) ∧
      ((rehashLoop H h (List.range' i n) kv m).2.2.count = m.count) ∧
      (((rehashLoop H h (List.range' i n) kv m).2.2.valuesByteCount :
          ZMod P64) =
        (m.valuesByteCount : ZMod P64)
        + ((kv.drop m.bytesPerKey).length : ZMod P64)
        - ((((rehashLoop H h (List.range' i n) kv m).2.1).drop
            m.bytesPerKey).length : ZMod P64)) ∧
      ((rehashLoop H h (List.range' i n) kv m).2.2.valuesByteCount <
        P64) := by
  intro n
  induction n with
  | zero =>
    intro i kv m _ _ _ hv _
    rw [show List.range' i 0 = [] from rfl]
    refine ⟨?_, ?_, rfl, ?_, hv⟩
    · intro hq jq
      rw [if_neg (by rintro ⟨-, h1, h2⟩; omega)]
      rfl
    · rw [if_pos rfl]
      rfl
    · show ((m.valuesByteCount : ZMod P64)) =
        (m.valuesByteCount : ZMod P64)
        + ((kv.drop m.bytesPerKey).length : ZMod P64)
        - ((kv.drop m.bytesPerKey).length : ZMod P64)
      ring
  | succ n ih =>
    intro i kv m hlen hfull hrange hv hres
    have hcons : List.range' i (n + 1) = i :: List.range' (i + 1) n := rfl
    rw [hcons, rehashLoop_cons] at hres ⊢
    have hi : i < (m.buckets.getD h []).length := by omega
    by_cases hq1 : (kickTry H m h i kv).1
    · rw [if_pos hq1] at hres
      exact absurd hres (by simp)
    · rw [if_neg hq1] at hres ⊢
      have hkf := kickTry_fail H m h i kv (by simpa using hq1)
      have hlen' : h < (kickTry H m h i kv).2.buckets.length := by
        rw [hkf.1]
        unfold kickSwap
        dsimp only
        rw [setSlot_length]
        exact hlen
      have hrowlen' : ((kickTry H m h i kv).2.buckets.getD h []).length =
          (m.buckets.getD h []).length := by
        rw [hkf.1, kickSwap_rowlen]
      have hfull' : ∀ t, i + 1 ≤ t → t < i + 1 + n →
          slotOf (kickTry H m h i kv).2.buckets h t ≠ none := by
        intro t ht1 ht2
        rw [hkf.1, kickSwap_slot_ne m h i kv h t (Or.inr (by omega))]
        exact hfull t (by omega) (by omega)
      have hrange' : (i + 1) + n ≤
          ((kickTry H m h i kv).2.buckets.getD h []).length := by
        rw [hrowlen']
        omega
      have hvbcQ : (kickTry H m h i kv).2.valuesByteCount =
          add64 (sub64 m.valuesByteCount
            ((kickDisplaced m h i).drop m.bytesPerKey).length)
            ((kv.drop m.bytesPerKey).length) := hkf.2.2.1
      have hvQ : (kickTry H m h i kv).2.valuesByteCount < P64 := by
        rw [hvbcQ]
        exact add64_lt _ _
      have hrec := ih (i + 1) (kickDisplaced m h i)
        (kickTry H m h i kv).2 hlen' hfull' hrange' hvQ hres
      have hslotm : ∀ hq jq, (hq ≠ h ∨ jq ≠ i) →
          slotOf (kickTry H m h i kv).2.buckets hq jq =
            slotOf m.buckets hq jq := by
        intro hq jq hne
        rw [hkf.1]
        exact kickSwap_slot_ne m h i kv hq jq hne
      have hsloti : slotOf (kickTry H m h i kv).2.buckets h i =
          some kv := by
        rw [hkf.1]
        exact kickSwap_slot_same m h i kv hlen hi
      have hkvD : some (kickDisplaced m h i) = slotOf m.buckets h i := by
        have he := hfull i (by omega) (by omega)
        cases hsm : slotOf m.buckets h i with
        | none => exact absurd hsm he
        | some e =>
          unfold kickDisplaced
          rw [hsm]
          rfl
      refine ⟨?_, ?_, ?_, ?_, hrec.2.2.2.2⟩
      · intro hq jq
        have hIA := hrec.1 hq jq
        by_cases hcond : hq = h ∧ i ≤ jq ∧ jq < i + (n + 1)
        · obtain ⟨he, hge, hlt⟩ := hcond
          rw [if_pos ⟨he, hge, hlt⟩]
          subst he
          by_cases hji : jq = i
          · subst hji
            rw [if_pos rfl, hIA, if_neg (by omega)]
            exact hsloti
          · rw [if_neg hji]
            by_cases hj1 : jq = i + 1
            · subst hj1
              rw [hIA, if_pos ⟨rfl, by omega, by omega⟩, if_pos rfl]
              rw [show i + 1 - 1 = i from rfl]
              exact hkvD
            · rw [hIA, if_pos ⟨rfl, by omega, by omega⟩, if_neg hj1]
              exact hslotm hq (jq - 1) (Or.inr (by omega))
        · rw [if_neg hcond, hIA,
            if_neg (fun hc => hcond ⟨hc.1, by omega, by omega⟩)]
          apply hslotm
          by_cases hqh : hq = h
          · exact Or.inr (fun hji => hcond ⟨hqh, by omega, by omega⟩)
          · exact Or.inl hqh
      · rw [hrec.2.1]
        cases n with
        | zero =>
          rw [if_pos rfl, if_neg (by omega)]
          rw [show i + (0 + 1) - 1 = i from by omega]
          rfl
        | succ n' =>
          rw [if_neg (by omega), if_neg (by omega)]
          rw [hslotm h (i + 1 + (n' + 1) - 1) (Or.inr (by omega))]
          rw [show i + 1 + (n' + 1) - 1 = i + (n' + 1 + 1) - 1 from by omega]
      · rw [hrec.2.2.1, hkf.2.1]
      · have hC := hrec.2.2.2.1
        rw [hkf.2.2.2] at hC
        rw [hC, hvbcQ, add64_cast, sub64_cast]
        ring

/-- Lists agreeing in length and in `getD` at every index are equal. -/
theorem list_ext_getD {α : Type} (d : α) :
    ∀ (l1 l2 : List α), l1.length = l2.length →
      (∀ i, i < l1.length → l1.getD i d = l2.getD i d) → l1 = l2 := by
  intro l1
  induction l1 with
  | nil =>
    intro l2 h _
    exact (List.length_eq_zero.mp h.symm).symm
  | cons a t ih =>
    intro l2 h hp
    cases l2 with
    | nil => simp at h
    | cons b t2 =>
      have h0 := hp 0 (by simp)
      simp only [List.getD_cons_zero] at h0
      have ht : t = t2 := by
        refine ih t2 (by simpa using h) ?_
        intro i hi
        have := hp (i + 1) (by simp; omega)
        simpa using this
      rw [h0, ht]

/-- A `getD` result different from the default is a member. -/
theorem getD_mem_ne {α : Type} (l : List α) (i : Nat) (d x : α)
    (h : l.getD i d = x) (hne : x ≠ d) : x ∈ l := by
  by_cases hi : i < l.length
  · rw [getD_lt _ _ _ hi] at h
    exact h ▸ List.getElem_mem hi
  · rw [getD_ge _ _ _ (by omega)] at h
    exact absurd h.symm hne

/-- `rotOne` on a one-appended list moves the last element to the front. -/
theorem rotOne_concat (l : List (Option (List Nat)))
    (a : Option (List Nat)) : rotOne (l ++ [a]) = a :: l := by
  unfold rotOne
  rw [List.getLast?_concat, List.dropLast_concat]

/-- `rotOne` preserves length. -/
theorem rotOne_length (b : List (Option (List Nat))) :
    (rotOne b).length = b.length := by
  rcases List.eq_nil_or_concat b with rfl | ⟨l, a, rfl⟩
  · rfl
  · rw [List.concat_eq_append, rotOne_concat]
    simp

/-- `rotOne` is a permutation of the bucket. -/
theorem rotOne_perm (b : List (Option (List Nat))) :
    (rotOne b).Perm b := by
  rcases List.eq_nil_or_concat b with rfl | ⟨l, a, rfl⟩
  · exact List.Perm.refl _
  · rw [List.concat_eq_append, rotOne_concat]
    exact (List.perm_append_singleton a l).symm

/-- Head of the rotated bucket: the old last slot. -/
theorem rotOne_getD_zero (b : List (Option (List Nat))) (hb : b ≠ []) :
    (rotOne b).getD 0 none = b.getD (b.length - 1) none := by
  rcases List.eq_nil_or_concat b with rfl | ⟨l, a, rfl⟩
  · exact absurd rfl hb
  · rw [List.concat_eq_append] at hb ⊢
    rw [rotOne_concat]
    simp only [List.getD_cons_zero, List.length_append, List.length_cons,
      List.length_nil]
    rw [show l.length + (0 + 1) - 1 = l.length from by omega]
    rw [getD_lt _ _ _ (by simp)]
    simp

/-- Later slots of the rotated bucket: the old preceding slot. -/
theorem rotOne_getD_succ (b : List (Option (List Nat))) (j : Nat)
    (hj : j + 1 < b.length) :
    (rotOne b).getD (j + 1) none = b.getD j none := by
  rcases List.eq_nil_or_concat b with rfl | ⟨l, a, rfl⟩
  · simp at hj
  · rw [List.concat_eq_append] at hj ⊢
    rw [rotOne_concat]
    simp only [List.getD_cons_succ]
    simp only [List.length_append, List.length_cons, List.length_nil] at hj
    rw [getD_lt _ _ _ (by omega),
      getD_lt _ _ _ (by simp only [List.length_append, List.length_cons,
        List.length_nil]; omega)]
    exact (List.getElem_append_left (by omega)).symm

/-- Rotating one bucket of a key-free table keeps the key absent. -/
theorem keyAbsent_set_rot (bpk : Nat) (key : List Nat) (bkts : Buckets)
    (h : Nat) (hh : h < bkts.length)
    (habs : keyAbsent bpk key bkts = true) :
    keyAbsent bpk key (bkts.set h (rotOne (bkts.getD h []))) = true := by
  rw [keyAbsent_iff] at habs ⊢
  intro hq jq kv hslot
  by_cases hqh : hq = h
  · subst hqh
    unfold slotOf at hslot
    rw [getD_set_self _ _ _ _ hh] at hslot
    have hmem : some kv ∈ rotOne (bkts.getD hq []) :=
      getD_mem_ne _ _ _ _ hslot (by simp)
    have hmem2 : some kv ∈ bkts.getD hq [] :=
      (rotOne_perm _).mem_iff.mp hmem
    rcases List.getElem_of_mem hmem2 with ⟨jp, hjp, he⟩
    refine habs hq jp kv ?_
    unfold slotOf
    rw [getD_lt _ _ _ hjp]
    exact he
  · refine habs hq jq kv ?_
    rw [← hslot]
    unfold slotOf
    rw [getD_set_ne _ _ _ _ _ (fun he => hqh he.symm)]

/-- The index returned by `hash2` is `hash2val`. -/
theorem hash2_fst (H : Hashers) (m : Map) (key : List Nat) (h1 : Nat) :
    (Map.hash2 H m key h1).1 = Map.hash2val H m key h1 := by
  unfold Map.hash2
  dsimp only
  split <;> rfl

/-- The rollback step of a non-expandable `BUCKET_FULL` failure: after a
failed kick-out loop over the whole (full) bucket `hch`, re-writing the
returned pending entry into slot 0 restores `count` and
`valuesByteCount` exactly and leaves the bucket array equal to the
original with bucket `hch` cyclically rotated by one slot. -/
theorem restore_state (H : Hashers) (m m4 : Map) (hch : Nat)
    (kv : List Nat)
    (hbk : m4.buckets = m.buckets) (hc : m4.count = m.count)
    (hvb : m4.valuesByteCount = m.valuesByteCount)
    (hbpk : m4.bytesPerKey = m.bytesPerKey)
    (hkpb : m4.keysPerBucket = m.keysPerBucket)
    (hWF1 : m.buckets.length = m.bucketCount)
    (hWF2 : ∀ i, i < m.bucketCount →
      (m.buckets.getD i []).length = m.keysPerBucket)
    (hK : 1 ≤ m.keysPerBucket) (hv : m.valuesByteCount < P64)
    (hhlt : hch < m.buckets.length)
    (hfullh : ∀ t, t < m.keysPerBucket → slotOf m.buckets hch t ≠ none)
    (hLf : (rehashLoop H hch (List.range m4.keysPerBucket) kv m4).1 =
      false) :
    (rehashLoop H hch (List.range m4.keysPerBucket) kv m4).2.2.count =
      m.count ∧
    add64 (sub64
        ((rehashLoop H hch (List.range m4.keysPerBucket) kv
          m4).2.2.valuesByteCount)
        ((((slotOf ((rehashLoop H hch (List.range m4.keysPerBucket) kv
              m4).2.2.buckets) hch 0).getD []).drop
          ((rehashLoop H hch (List.range m4.keysPerBucket) kv
            m4).2.2.bytesPerKey)).length))
      ((((rehashLoop H hch (List.range m4.keysPerBucket) kv m4).2.1).drop
        ((rehashLoop H hch (List.range m4.keysPerBucket) kv
          m4).2.2.bytesPerKey)).length) = m.valuesByteCount ∧
    setSlot ((rehashLoop H hch (List.range m4.keysPerBucket) kv
        m4).2.2.buckets) hch 0
        (some ((rehashLoop H hch (List.range m4.keysPerBucket) kv
          m4).2.1)) =
      m.buckets.set hch (rotOne (m.buckets.getD hch [])) := by
  have hRR : List.range m4.keysPerBucket =
      List.range' 0 m.keysPerBucket := by
    rw [hkpb, List.range_eq_range']
  rw [hRR] at hLf ⊢
  have hrow : (m.buckets.getD hch []).length = m.keysPerBucket :=
    hWF2 hch (by rw [← hWF1]; exact hhlt)
  have hloop := rehashLoop_fail H hch m.keysPerBucket 0 kv m4
    (by rw [hbk]; exact hhlt)
    (by intro t _ ht; rw [hbk]; exact hfullh t (by omega))
    (by rw [hbk, hrow]; omega)
    (by rw [hvb]; exact hv)
    hLf
  obtain ⟨hA, hB, hC, hD, hE⟩ := hloop
  obtain ⟨hs1, hs2, hs3, hs4, hs5, hs6, hs7, hs8, hs9⟩ :=
    rehashLoop_sameShape H hch (List.range' 0 m.keysPerBucket) kv m4
  obtain ⟨e, he⟩ : ∃ e,
      slotOf m.buckets hch (m.keysPerBucket - 1) = some e := by
    cases hsl : slotOf m.buckets hch (m.keysPerBucket - 1) with
    | none => exact absurd hsl (hfullh _ (by omega))
    | some e => exact ⟨e, rfl⟩
  have hOut : (rehashLoop H hch (List.range' 0 m.keysPerBucket) kv
      m4).2.1 = e := by
    rw [hB, if_neg (by omega), hbk,
      show 0 + m.keysPerBucket - 1 = m.keysPerBucket - 1 from by omega,
      he]
    rfl
  have hslot0 : slotOf (rehashLoop H hch
      (List.range' 0 m.keysPerBucket) kv m4).2.2.buckets hch 0 =
      some kv := by
    rw [hA hch 0, if_pos ⟨rfl, by omega, by omega⟩, if_pos rfl]
  have hbpkL : (rehashLoop H hch (List.range' 0 m.keysPerBucket) kv
      m4).2.2.bytesPerKey = m.bytesPerKey := by
    rw [hs1, hbpk]
  refine ⟨by rw [hC, hc], ?_, ?_⟩
  · refine cast64_inj (add64_lt _ _) hv ?_
    rw [add64_cast, sub64_cast, hslot0, hOut, hbpkL]
    rw [hOut, hbpk, hvb] at hD
    rw [hD]
    simp only [Option.getD_some]
    ring
  · unfold setSlot
    have hlen22 : (rehashLoop H hch (List.range' 0 m.keysPerBucket) kv
        m4).2.2.buckets.length = m.buckets.length := by
      rw [hs8, hbk]
    have hrowlen22 : ∀ hq,
        ((rehashLoop H hch (List.range' 0 m.keysPerBucket) kv
          m4).2.2.buckets.getD hq []).length =
          (m.buckets.getD hq []).length := by
      intro hq
      rw [hs9 hq, hbk]
    refine list_ext_getD [] _ _ (by simp [hlen22]) ?_
    intro i hi
    rw [List.length_set, hlen22] at hi
    by_cases hih : i = hch
    · subst hih
      rw [getD_set_self _ _ _ _ (by rw [hlen22]; exact hhlt),
        getD_set_self _ _ _ _ hhlt]
      refine list_ext_getD none _ _ ?_ ?_
      · rw [List.length_set, hrowlen22, rotOne_length]
      · intro j hj
        rw [List.length_set, hrowlen22 i, hrow] at hj
        cases j with
        | zero =>
          rw [getD_set_self _ _ _ _
            (by rw [hrowlen22 i, hrow]; omega)]
          rw [rotOne_getD_zero _ (by
            intro hnil
            rw [hnil] at hrow
            simp at hrow
            omega)]
          rw [hOut, hrow]
          unfold slotOf at he
          rw [he]
        | succ j =>
          rw [getD_set_ne _ _ _ _ _ (by omega)]
          have hAj := hA i (j + 1)
          unfold slotOf at hAj
          rw [hAj, if_pos ⟨rfl, by omega, by omega⟩,
            if_neg (by omega), hbk,
            show j + 1 - 1 = j from by omega]
          rw [rotOne_getD_succ _ j (by rw [hrow]; omega)]
    · rw [getD_set_ne _ _ _ _ _ (fun hc2 => hih hc2.symm),
        getD_set_ne _ _ _ _ _ (fun hc2 => hih hc2.symm)]
      refine list_ext_getD none _ _ (hrowlen22 i) ?_
      intro j _
      have hAj := hA i j
      unfold slotOf at hAj
      rw [hAj, if_neg (by rintro ⟨hc2, -, -⟩; exact hih hc2), hbk]

/-- A `BUCKET_FULL` failure of the insertion core `put1` on a
non-expandable table preserves `count` and `valuesByteCount` exactly,
and the resulting bucket array is the original with one bucket (the
kicked one) cyclically rotated by one slot. -/
theorem put1_bucketFull_state (H : Hashers) (fuel : Nat) (m : Map)
    (key val : List Nat)
    (hWF : WFb m) (hK : 1 ≤ m.keysPerBucket)
    (hexp : m.expandable = false) (hv : m.valuesByteCount < P64)
    (hfail : (Map.put1 H fuel m key val).1 = some Err.bucketIsFull) :
    (Map.put1 H fuel m key val).2.count = m.count ∧
    (Map.put1 H fuel m key val).2.valuesByteCount = m.valuesByteCount ∧
    ∃ hb, hb < m.buckets.length ∧
      (Map.put1 H fuel m key val).2.buckets =
        m.buckets.set hb (rotOne (m.buckets.getD hb [])) := by
  obtain ⟨hWF1, hWF2, hWF3⟩ := hWF
  cases fuel with
  | zero => simp [Map.put1] at hfail
  | succ fuel =>
    by_cases hkl : key.length ≠ m.bytesPerKey
    · rw [show Map.put1 H (fuel + 1) m key val =
          (some Err.invalidArgument, m) from by
        simp only [Map.put1]
        rw [if_pos hkl]] at hfail
      simp at hfail
    · simp only [Map.put1] at hfail ⊢
      rw [if_neg hkl] at hfail ⊢
      set h1v := Map.hash1 H m key with hh1v
      by_cases hr1 : (Map.put0 m key val h1v).1 = true
      · rw [if_pos hr1] at hfail
        simp at hfail
      · rw [if_neg hr1] at hfail ⊢
        have hr1f : (Map.put0 m key val h1v).1 = false := by
          simpa using hr1
        rw [put0_fail_eq m key val h1v hr1f] at hfail ⊢
        simp only [hash2_fst] at hfail ⊢
        set mz := (Map.hash2 H m key h1v).2 with hmzv
        set h2v := Map.hash2val H m key h1v with hh2v
        have hz := hash2_snd H m key h1v
        rw [← hmzv] at hz
        have hzb : mz.buckets = m.buckets := by
          rcases hz with hz | hz
          · rw [hz]
          · rw [hz]; rfl
        have hzc : mz.count = m.count := by
          rcases hz with hz | hz
          · rw [hz]
          · rw [hz]; rfl
        have hzv : mz.valuesByteCount = m.valuesByteCount := by
          rcases hz with hz | hz
          · rw [hz]
          · rw [hz]; rfl
        have hzbpk : mz.bytesPerKey = m.bytesPerKey := by
          rcases hz with hz | hz
          · rw [hz]
          · rw [hz]; rfl
        have hzkpb : mz.keysPerBucket = m.keysPerBucket := by
          rcases hz with hz | hz
          · rw [hz]
          · rw [hz]; rfl
        have hzexp : mz.expandable = m.expandable := by
          rcases hz with hz | hz
          · rw [hz]
          · rw [hz]; rfl
        have hmlt : ∀ x : Nat, x &&& m.mask < m.buckets.length := by
          intro x
          rw [hWF1, hWF3]
          unfold Map.mask
          rw [one_shiftLeft_eq]
          exact and_mask_lt _ _
        have hhlt1 : h1v < m.buckets.length := hmlt (Map.hash1Raw H m key)
        have hhlt2 : h2v < m.buckets.length :=
          hmlt (Map.hash2Raw H m key h1v)
        have hfull1 : ∀ t, t < m.keysPerBucket →
            slotOf m.buckets h1v t ≠ none := by
          have hfn := (put0_fail_iff m key val h1v).mp hr1f
          intro t ht
          have hrl : (m.buckets.getD h1v []).length = m.keysPerBucket :=
            hWF2 _ (by rw [← hWF1]; exact hhlt1)
          exact full_of_firstNone_none _ hfn t (by rw [hrl]; omega)
        by_cases hA1 : (if h2v ≠ h1v then Map.put0 mz key val h2v
            else (false, mz)).1 = true
        · rw [if_pos hA1] at hfail
          simp at hfail
        · rw [if_neg hA1] at hfail ⊢
          have hA2 : (if h2v ≠ h1v then Map.put0 mz key val h2v
              else (false, mz)).2 = mz := by
            by_cases hne : h2v ≠ h1v
            · rw [if_pos hne] at hA1 ⊢
              exact put0_fail_eq mz key val h2v (by simpa using hA1)
            · rw [if_neg hne]
          rw [hA2] at hfail ⊢
          have hfullc : ∀ t, t < m.keysPerBucket →
              slotOf m.buckets
                (if rngStream mz.seed1 mz.rIdx &&& 1 = 0 then h2v
                 else h1v) t ≠ none := by
            intro t ht
            by_cases hu : rngStream mz.seed1 mz.rIdx &&& 1 = 0
            · rw [if_pos hu]
              by_cases hne : h2v = h1v
              · rw [hne]
                exact hfull1 t ht
              · have hr2f : (Map.put0 mz key val h2v).1 = false := by
                  rw [if_pos hne] at hA1
                  simpa using hA1
                have hfn := (put0_fail_iff mz key val h2v).mp hr2f
                rw [hzb] at hfn
                have hrl : (m.buckets.getD h2v []).length =
                    m.keysPerBucket :=
                  hWF2 _ (by rw [← hWF1]; exact hhlt2)
                exact full_of_firstNone_none _ hfn t (by rw [hrl]; omega)
            · rw [if_neg hu]
              exact hfull1 t ht
          have hhltc : (if rngStream mz.seed1 mz.rIdx &&& 1 = 0 then h2v
              else h1v) < m.buckets.length := by
            by_cases hu : rngStream mz.seed1 mz.rIdx &&& 1 = 0
            · rw [if_pos hu]; exact hhlt2
            · rw [if_neg hu]; exact hhlt1
          by_cases hL : (rehashLoop H
              (if rngStream mz.seed1 mz.rIdx &&& 1 = 0 then h2v else h1v)
              (List.range ({ mz with rIdx := mz.rIdx + 1 } :
                Map).keysPerBucket)
              (key ++ val) { mz with rIdx := mz.rIdx + 1 }).1 = true
          · rw [if_pos hL] at hfail
            simp at hfail
          · rw [if_neg hL] at hfail ⊢
            have hm5e : (rehashLoop H
                (if rngStream mz.seed1 mz.rIdx &&& 1 = 0 then h2v
                 else h1v)
                (List.range ({ mz with rIdx := mz.rIdx + 1 } :
                  Map).keysPerBucket)
                (key ++ val)
                { mz with rIdx := mz.rIdx + 1 }).2.2.expandable =
                false := by
              rw [(rehashLoop_sameShape H _ _ _ _).2.2.2.2.1]
              show mz.expandable = false
              rw [hzexp, hexp]
            rw [if_pos (show ¬((rehashLoop H
                (if rngStream mz.seed1 mz.rIdx &&& 1 = 0 then h2v
                 else h1v)
                (List.range ({ mz with rIdx := mz.rIdx + 1 } :
                  Map).keysPerBucket)
                (key ++ val)
                { mz with rIdx := mz.rIdx + 1 }).2.2.expandable = true)
              from by rw [hm5e]; simp)] at hfail ⊢
            dsimp only at hfail ⊢
            have hrs := restore_state H m { mz with rIdx := mz.rIdx + 1 }
              (if rngStream mz.seed1 mz.rIdx &&& 1 = 0 then h2v else h1v)
              (key ++ val) hzb hzc hzv hzbpk hzkpb hWF1 hWF2 hK hv
              hhltc hfullc (by simpa using hL)
            exact ⟨hrs.1, hrs.2.1, _, hhltc, hrs.2.2⟩

/-- When `update` does not overwrite, its state is the lookup's state. -/
theorem update_not_found (H : Hashers) (m : Map) (key val : List Nat)
    (hu : (Map.update H m key val).1.2 = false) :
    (Map.update H m key val).2 = (Map.kvIndexByKey H m key).2 := by
  simp only [Map.update] at hu ⊢
  cases hr : (Map.kvIndexByKey H m key).1 with
  | none =>
    rfl
  | some p =>
    obtain ⟨ph, pi⟩ := p
    rw [hr] at hu
    simp at hu

/-- C3: a `BUCKET_FULL` failure of `Put` on a non-expandable table
leaves `count` and `valuesByteCount` at their pre-call values, leaves
the bucket array equal to the original with the kicked bucket cyclically
rotated by one slot, hence preserves the multiset of stored entries, and
the pending key (absent before the call, as it is whenever `Put`
reaches the insertion path) is still absent afterwards. -/
theorem c3_bucket_full_preserves (H : Hashers) (fuel : Nat) (m : Map)
    (key val : List Nat) (ifAbsent : Bool)
    (hWF : WFb m) (hK : 1 ≤ m.keysPerBucket)
    (hexp : m.expandable = false) (hv : m.valuesByteCount < P64)
    (habs : keyAbsent m.bytesPerKey key m.buckets = true)
    (hfail : (Map.Put H fuel m key val ifAbsent).1.2 =
      some Err.bucketIsFull) :
    (Map.Put H fuel m key val ifAbsent).2.count = m.count ∧
    (Map.Put H fuel m key val ifAbsent).2.valuesByteCount =
      m.valuesByteCount ∧
    (∃ hb, hb < m.buckets.length ∧
      (Map.Put H fuel m key val ifAbsent).2.buckets =
        m.buckets.set hb (rotOne (m.buckets.getD hb []))) ∧
    (storedKVs (Map.Put H fuel m key val ifAbsent).2.buckets).Perm
      (storedKVs m.buckets) ∧
    keyAbsent m.bytesPerKey key
      (Map.Put H fuel m key val ifAbsent).2.buckets = true := by
  obtain ⟨hWF1, hWF2, hWF3⟩ := hWF
  simp only [Map.Put] at hfail ⊢
  by_cases hia : ifAbsent = true
  · rw [if_pos hia] at hfail ⊢
    cases hr : (Map.kvIndexByKey H m key).1 with
    | some p =>
      obtain ⟨ph, pi⟩ := p
      rw [hr] at hfail
      simp at hfail
    | none =>
      rw [hr] at hfail
      dsimp only at hfail ⊢
      rcases kvIndexByKey_snd H m key with hr2 | hr2 <;>
        rw [hr2] at hfail ⊢
      · have h1 := put1_bucketFull_state H fuel m key val
          ⟨hWF1, hWF2, hWF3⟩ hK hexp hv hfail
        obtain ⟨hb, hblt, hbeq⟩ := h1.2.2
        refine ⟨h1.1, h1.2.1, ⟨hb, hblt, hbeq⟩, ?_, ?_⟩
        · rw [hbeq]
          exact storedKVs_set_perm m.buckets hb _ (rotOne_perm _) hblt
        · rw [hbeq]
          exact keyAbsent_set_rot m.bytesPerKey key m.buckets hb hblt
            habs
      · have h1 := put1_bucketFull_state H fuel (bumpZ m) key val
          ⟨hWF1, hWF2, hWF3⟩ hK hexp hv hfail
        obtain ⟨hb, hblt, hbeq⟩ := h1.2.2
        refine ⟨h1.1, h1.2.1, ⟨hb, hblt, hbeq⟩, ?_, ?_⟩
        · rw [hbeq]
          exact storedKVs_set_perm m.buckets hb _ (rotOne_perm _) hblt
        · rw [hbeq]
          exact keyAbsent_set_rot m.bytesPerKey key m.buckets hb hblt
            habs
  · rw [if_neg hia] at hfail ⊢
    by_cases hu : (Map.update H m key val).1.2 = true
    · rw [if_pos hu] at hfail
      simp at hfail
    · rw [if_neg hu] at hfail ⊢
      dsimp only at hfail ⊢
      rw [update_not_found H m key val (by simpa using hu)]
        at hfail ⊢
      rcases kvIndexByKey_snd H m key with hr2 | hr2 <;>
        rw [hr2] at hfail ⊢
      · have h1 := put1_bucketFull_state H fuel m key val
          ⟨hWF1, hWF2, hWF3⟩ hK hexp hv hfail
        obtain ⟨hb, hblt, hbeq⟩ := h1.2.2
        refine ⟨h1.1, h1.2.1, ⟨hb, hblt, hbeq⟩, ?_, ?_⟩
        · rw [hbeq]
          exact storedKVs_set_perm m.buckets hb _ (rotOne_perm _) hblt
        · rw [hbeq]
          exact keyAbsent_set_rot m.bytesPerKey key m.buckets hb hblt
            habs
      · have h1 := put1_bucketFull_state H fuel (bumpZ m) key val
          ⟨hWF1, hWF2, hWF3⟩ hK hexp hv hfail
        obtain ⟨hb, hblt, hbeq⟩ := h1.2.2
        refine ⟨h1.1, h1.2.1, ⟨hb, hblt, hbeq⟩, ?_, ?_⟩
        · rw [hbeq]
          exact storedKVs_set_perm m.buckets hb _ (rotOne_perm _) hblt
        · rw [hbeq]
          exact keyAbsent_set_rot m.bytesPerKey key m.buckets hb hblt
            habs

/-- C3 witness: on the full, non-expandable 1-slot map `c1m` (holding
`[0] ↦ [1]`), inserting key `[1]` fails with `BUCKET_FULL` and all the
hypotheses and conclusions of the C3 theorem hold concretely. -/
theorem c3_bucket_full_preserves_witness :
    (WFb c1m ∧ 1 ≤ c1m.keysPerBucket ∧ c1m.expandable = false ∧
      c1m.valuesByteCount < P64 ∧
      keyAbsent c1m.bytesPerKey [1] c1m.buckets = true ∧
      (Map.Put HA 4 c1m [1] [9] false).1.2 = some Err.bucketIsFull) ∧
    ((Map.Put HA 4 c1m [1] [9] false).2.count = c1m.count ∧
     (Map.Put HA 4 c1m [1] [9] false).2.valuesByteCount =
       c1m.valuesByteCount ∧
     (∃ hb, hb < c1m.buckets.length ∧
       (Map.Put HA 4 c1m [1] [9] false).2.buckets =
         c1m.buckets.set hb (rotOne (c1m.buckets.getD hb []))) ∧
     (storedKVs (Map.Put HA 4 c1m [1] [9] false).2.buckets).Perm
       (storedKVs c1m.buckets) ∧
     keyAbsent c1m.bytesPerKey [1]
       (Map.Put HA 4 c1m [1] [9] false).2.buckets = true) := by
  have hWF : WFb c1m := by
    refine ⟨by decide, ?_, by decide⟩
    intro i hi
    have h1 : c1m.bucketCount = 1 := by decide
    rw [h1] at hi
    have h0 : i = 0 := by omega
    subst h0
    decide
  exact ⟨⟨hWF, by decide, by decide, by decide, by decide, by decide⟩,
    c3_bucket_full_preserves HA 4 c1m [1] [9] false hWF (by decide)
      (by decide) (by decide) (by decide) (by decide)⟩

/-- A written cell either holds the written value or is unchanged. -/
theorem slotOf_setSlot_cases (bkts : Buckets) (a b : Nat)
    (s : Option (List Nat)) (i j : Nat) :
    slotOf (setSlot bkts a b s) i j = s ∨
    slotOf (setSlot bkts a b s) i j = slotOf bkts i j := by
  by_cases hia : i = a
  · subst hia
    by_cases hi : i < bkts.length
    · unfold slotOf setSlot
      rw [getD_set_self _ _ _ _ hi]
      by_cases hjb : j = b
      · subst hjb
        by_cases hjl : j < (bkts.getD i []).length
        · left
          rw [getD_set_self _ _ _ _ hjl]
        · right
          rw [getD_ge _ _ _ (by rw [List.length_set]; omega),
            getD_ge _ _ _ (by omega)]
      · right
        rw [getD_set_ne _ _ _ _ _ (fun he => hjb he.symm)]
    · right
      unfold slotOf setSlot
      rw [getD_ge (bkts.set i ((bkts.getD i []).set b s)) i []
          (by rw [List.length_set]; omega),
        getD_ge bkts i [] (by omega)]
  · right
    unfold slotOf setSlot
    rw [getD_set_ne _ _ _ _ _ (fun he => hia he.symm)]

/-- A successful `put0` writes `key ++ val` into the first free slot. -/
theorem put0_success (m : Map) (key val : List Nat) (h : Nat)
    (hs : (Map.put0 m key val h).1 = true) :
    ∃ i, firstNone (m.buckets.getD h []) = some i ∧
      (Map.put0 m key val h).2 =
        { m with
          buckets := setSlot m.buckets h i (some (key ++ val)),
          count := add64 m.count 1,
          valuesByteCount := add64 m.valuesByteCount val.length } := by
  unfold Map.put0 at hs ⊢
  cases hfn : firstNone (m.buckets.getD h []) with
  | none => rw [hfn] at hs; simp at hs
  | some i =>
    refine ⟨i, rfl, ?_⟩
    rfl

/-- Slots after `put0` hold the inserted entry or an old entry. -/
theorem put0_slot_cases (m : Map) (k0 v0 : List Nat) (h : Nat)
    (i j : Nat) (kv : List Nat)
    (hs : slotOf (Map.put0 m k0 v0 h).2.buckets i j = some kv) :
    kv = k0 ++ v0 ∨ slotOf m.buckets i j = some kv := by
  by_cases hp : (Map.put0 m k0 v0 h).1 = true
  · obtain ⟨i0, hfn, heq⟩ := put0_success m k0 v0 h hp
    rw [heq] at hs
    rcases slotOf_setSlot_cases m.buckets h i0 (some (k0 ++ v0)) i j
      with hc | hc
    · left
      exact Option.some.inj (hs.symm.trans hc)
    · right
      rw [← hc]
      exact hs
  · right
    rw [put0_fail_eq m k0 v0 h (by simpa using hp)] at hs
    exact hs

/-- `hash1` depends only on the key, `seed1` and `bucketPower`. -/
theorem hash1_congr (H : Hashers) (m m2 : Map) (key : List Nat)
    (hs : m2.seed1 = m.seed1) (hp : m2.bucketPower = m.bucketPower) :
    Map.hash1 H m2 key = Map.hash1 H m key := by
  unfold Map.hash1 Map.hash1Raw Map.mask
  rw [hs, hp]

/-- `hash2val` depends only on its arguments, `seed2` and
`bucketPower`. -/
theorem hash2val_congr (H : Hashers) (m m2 : Map) (key : List Nat)
    (h1 : Nat)
    (hs : m2.seed2 = m.seed2) (hp : m2.bucketPower = m.bucketPower) :
    Map.hash2val H m2 key h1 = Map.hash2val H m key h1 := by
  unfold Map.hash2val Map.hash2Raw Map.hash2Mix Map.mask
  rw [hs, hp]

/-- The kick-out loop raises `count` by one exactly when it settles. -/
theorem rehashLoop_count (H : Hashers) (h : Nat) :
    ∀ (js : List Nat) (kv : List Nat) (m : Map),
      (rehashLoop H h js kv m).2.2.count =
        if (rehashLoop H h js kv m).1 then add64 m.count 1
        else m.count := by
  intro js
  induction js with
  | nil => intro kv m; rfl
  | cons i js ih =>
    intro kv m
    rw [rehashLoop_cons]
    by_cases hq : (kickTry H m h i kv).1 = true
    · rw [if_pos hq, if_pos (show ((true : Bool),
          kickDisplaced m h i, (kickTry H m h i kv).2).1 = true from rfl)]
      show (kickTry H m h i kv).2.count = add64 m.count 1
      unfold kickTry at hq ⊢
      dsimp only at hq ⊢
      rw [put0_count, hq, if_pos rfl,
        (hash2_counters H (kickSwap m h i kv) _ h).2.1]
      rfl
    · rw [if_neg hq, ih,
        (kickTry_fail H m h i kv (by simpa using hq)).2.1]

/-- Shape agreement transports structural well-formedness. -/
theorem WFb_of_sameShape (m m2 : Map) (hs : sameShape m m2)
    (hw : WFb m) : WFb m2 := by
  obtain ⟨s1, s2, s3, s4, s5, s6, s7, s8, s9⟩ := hs
  obtain ⟨w1, w2, w3⟩ := hw
  refine ⟨by rw [s8, s3, w1], ?_, by rw [s3, s4]; exact w3⟩
  intro i hi
  rw [s9 i, s2, s3] at *
  exact w2 i (by rw [← s3]; exact hi)

/-- Expansion preserves structural well-formedness. -/
theorem WFb_expandBucket (H : Hashers) (m : Map) (hw : WFb m) :
    WFb (Map.expandBucket H m) := by
  obtain ⟨w1, w2, w3⟩ := hw
  refine ⟨?_, ?_, ?_⟩
  · rw [expandBucket_length]
    rfl
  · intro i hi
    exact expandBucket_rowlen H m i hi
  · show m.bucketCount * 2 = 2 ^ (m.bucketPower + 1)
    rw [w3, Nat.pow_succ]

/-- A key absent from the table is missed by every bucket scan. -/
theorem scanKey_none_of_absent (bpk : Nat) (key : List Nat)
    (bkts : Buckets) (h : Nat)
    (habs : keyAbsent bpk key bkts = true) :
    scanKey bpk key (bkts.getD h []) = none := by
  rw [scanKey_eq_none]
  intro s hsm
  rcases List.getElem_of_mem hsm with ⟨j, hj, hje⟩
  cases s with
  | none => rfl
  | some kv =>
    have hslot : slotOf bkts h j = some kv := by
      unfold slotOf
      rw [getD_lt _ _ _ hj, hje]
    have := (keyAbsent_iff bpk key bkts).mp habs h j kv hslot
    simp only [slotHasKey]
    rw [beq_eq_false_iff_ne]
    exact this

/-- A key absent from the table is not found by `kvIndexByKey`. -/
theorem kvIndexByKey_none_of_absent (H : Hashers) (m : Map)
    (key : List Nat)
    (habs : keyAbsent m.bytesPerKey key m.buckets = true) :
    (Map.kvIndexByKey H m key).1 = none := by
  unfold Map.kvIndexByKey
  split
  · rfl
  · dsimp only
    rw [scanKey_none_of_absent _ _ _ _ habs]
    dsimp only
    rw [(hash2_counters H m key (Map.hash1 H m key)).1]
    rw [scanKey_none_of_absent _ _ _ _ habs]
    split <;> rfl

/-- Key absence gives the compatibility invariant vacuously. -/
theorem uniqueKeyVal_of_keyAbsent (key val : List Nat) (m : Map)
    (habs : keyAbsent m.bytesPerKey key m.buckets = true) :
    uniqueKeyVal key val m := by
  intro i j kv hslot htake
  exact absurd htake ((keyAbsent_iff _ _ _).mp habs i j kv hslot)

/-- `kickTry` keeps `bytesPerKey`. -/
theorem kickTry_bytesPerKey (H : Hashers) (m : Map) (h i : Nat)
    (kv : List Nat) :
    (kickTry H m h i kv).2.bytesPerKey = m.bytesPerKey := by
  unfold kickTry
  dsimp only
  rw [(put0_sameShape _ _ _ _).1, (hash2_counters _ _ _ _).2.2.2]
  rfl

/-- The kick-out loop preserves the compatibility invariant: it only
moves entries around and re-writes the pending entry, so every entry
whose key part is `key` still stores exactly `key ++ val`. -/
theorem rehashLoop_unique (H : Hashers) (h : Nat) (key val : List Nat)
    (hkey : key ≠ []) :
    ∀ (js : List Nat) (kv : List Nat) (m : Map),
      uniqueKeyVal key val m →
      kvOK key val m.bytesPerKey kv →
      uniqueKeyVal key val (rehashLoop H h js kv m).2.2 ∧
      kvOK key val m.bytesPerKey (rehashLoop H h js kv m).2.1 := by
  intro js
  induction js with
  | nil => intro kv m hu hk; exact ⟨hu, hk⟩
  | cons i js ih =>
    intro kv m hu hk
    rw [rehashLoop_cons]
    have hkD : kvOK key val m.bytesPerKey (kickDisplaced m h i) := by
      unfold kickDisplaced
      cases hsl : slotOf m.buckets h i with
      | none =>
        intro ht
        exact absurd (by simpa using ht.symm) hkey
      | some e =>
        exact hu h i e hsl
    have huSwap : uniqueKeyVal key val (kickSwap m h i kv) := by
      intro a b kv2 hs2
      unfold kickSwap at hs2
      dsimp only at hs2
      show kvOK key val m.bytesPerKey kv2
      rcases slotOf_setSlot_cases m.buckets h i (some kv) a b with hc | hc
      · rw [Option.some.inj (hs2.symm.trans hc)]
        exact hk
      · exact hu a b kv2 (hc ▸ hs2)
    have huQ : uniqueKeyVal key val (kickTry H m h i kv).2 := by
      intro a b kv2 hs2
      have hbpk := kickTry_bytesPerKey H m h i kv
      rw [show kvOK key val (kickTry H m h i kv).2.bytesPerKey kv2 =
        kvOK key val m.bytesPerKey kv2 from by rw [hbpk]]
      unfold kickTry at hs2
      dsimp only at hs2
      rcases put0_slot_cases _ _ _ _ a b kv2 hs2 with hc | hc
      · rw [hc, List.take_append_drop]
        exact hkD
      · rw [(hash2_counters H (kickSwap m h i kv) _ h).1] at hc
        exact huSwap a b kv2 hc
    by_cases hq : (kickTry H m h i kv).1 = true
    · rw [if_pos hq]
      exact ⟨huQ, hkD⟩
    · rw [if_neg hq]
      have hrec := ih (kickDisplaced m h i) (kickTry H m h i kv).2 huQ
        (by rw [kickTry_bytesPerKey]; exact hkD)
      rw [kickTry_bytesPerKey] at hrec
      exact hrec

/-- Every entry written by the inner expansion fold is an old entry. -/
theorem foldl_cellStep_sub (H : Hashers) (m : Map) (i0 : Nat) :
    ∀ (js : List Nat) (acc : Buckets) (i j : Nat) (kv : List Nat),
      slotOf (js.foldl (expandCellStep H m i0) acc) i j = some kv →
      (∃ a b, slotOf m.buckets a b = some kv) ∨
        slotOf acc i j = some kv := by
  intro js
  induction js with
  | nil => intro acc i j kv hs; right; exact hs
  | cons x js ih =>
    intro acc i j kv hs
    rw [List.foldl_cons] at hs
    rcases ih _ i j kv hs with hold | hacc
    · left; exact hold
    · unfold expandCellStep at hacc
      cases hsl : slotOf m.buckets i0 x with
      | none => rw [hsl] at hacc; right; exact hacc
      | some kv0 =>
        rw [hsl] at hacc
        dsimp only at hacc
        rcases slotOf_setSlot_cases acc (Map.expandTarget H m i0 kv0) x
          (some kv0) i j with hc | hc
        · left
          refine ⟨i0, x, ?_⟩
          rw [hsl, Option.some.inj (hacc.symm.trans hc)]
        · right
          rw [← hc]
          exact hacc

/-- Every entry written by the outer expansion fold is an old entry. -/
theorem foldl_expandStep_sub (H : Hashers) (m : Map) :
    ∀ (is : List Nat) (acc : Buckets) (i j : Nat) (kv : List Nat),
      slotOf (is.foldl (expandStep H m) acc) i j = some kv →
      (∃ a b, slotOf m.buckets a b = some kv) ∨
        slotOf acc i j = some kv := by
  intro is
  induction is with
  | nil => intro acc i j kv hs; right; exact hs
  | cons x is ih =>
    intro acc i j kv hs
    rw [List.foldl_cons] at hs
    rcases ih _ i j kv hs with hold | hacc
    · left; exact hold
    · exact foldl_cellStep_sub H m x (List.range m.keysPerBucket) acc
        i j kv hacc

/-- Every entry of the doubled array is an entry of the old array. -/
theorem expandBucket_sub (H : Hashers) (m : Map) (i j : Nat)
    (kv : List Nat)
    (hs : slotOf (Map.expandBucket H m).buckets i j = some kv) :
    ∃ a b, slotOf m.buckets a b = some kv := by
  have hs2 : slotOf ((List.range m.bucketCount).foldl (expandStep H m)
      (List.replicate (m.bucketCount * 2)
        (List.replicate m.keysPerBucket none))) i j = some kv := hs
  rcases foldl_expandStep_sub H m (List.range m.bucketCount) _ i j kv hs2
    with hold | hacc
  · exact hold
  · rw [slotOf_replicate_none] at hacc
    exact absurd hacc (by simp)

/-- Expansion preserves the compatibility invariant. -/
theorem uniqueKeyVal_expandBucket (H : Hashers) (m : Map)
    (key val : List Nat) (hu : uniqueKeyVal key val m) :
    uniqueKeyVal key val (Map.expandBucket H m) := by
  intro i j kv hs
  obtain ⟨a, b, hab⟩ := expandBucket_sub H m i j kv hs
  show kvOK key val m.bytesPerKey kv
  exact hu a b kv hab

/-- Under the compatibility invariant, a locatable key is found by
`kvIndexByKey` without any state change, at a slot storing exactly
`key ++ val`. -/
theorem kvIndexByKey_found (H : Hashers) (m : Map) (key val : List Nat)
    (hkl : key.length = m.bytesPerKey)
    (huniq : uniqueKeyVal key val m)
    (hloc : keyLocatable H key m) :
    ∃ h i, Map.kvIndexByKey H m key = (some (h, i), m) ∧
      slotOf m.buckets h i = some (key ++ val) := by
  unfold Map.kvIndexByKey
  rw [if_neg (fun hc => hc hkl)]
  have hslot_of_scan : ∀ hq i, scanKey m.bytesPerKey key
      (m.buckets.getD hq []) = some i →
      slotOf m.buckets hq i = some (key ++ val) := by
    intro hq i hscan
    obtain ⟨hlt, hkeymatch⟩ := scanKey_some _ _ _ _ hscan
    cases hsl : (m.buckets.getD hq []).getD i none with
    | none => rw [hsl] at hkeymatch; simp [slotHasKey] at hkeymatch
    | some kv =>
      rw [hsl] at hkeymatch
      simp only [slotHasKey, beq_iff_eq] at hkeymatch
      have hkv : kv = key ++ val := huniq hq i kv hsl hkeymatch
      show (m.buckets.getD hq []).getD i none = some (key ++ val)
      rw [hsl, hkv]
  dsimp only
  cases hscan : scanKey m.bytesPerKey key
      (m.buckets.getD (Map.hash1 H m key) []) with
  | some i =>
    exact ⟨Map.hash1 H m key, i, rfl,
      hslot_of_scan _ i hscan⟩
  | none =>
    dsimp only
    have hmiss1 : ∀ j, slotHasKey m.bytesPerKey key
        (slotOf m.buckets (Map.hash1 H m key) j) ≠ true := by
      intro j hj
      by_cases hjl : j < (m.buckets.getD (Map.hash1 H m key) []).length
      · have := (scanKey_eq_none _ _ _).mp hscan
          (slotOf m.buckets (Map.hash1 H m key) j) (by
            show (m.buckets.getD (Map.hash1 H m key) []).getD j none ∈ _
            rw [getD_lt _ _ _ hjl]
            exact List.getElem_mem hjl)
        rw [this] at hj
        exact absurd hj (by simp)
      · rw [slotOf_oob_slot _ _ _ (by omega)] at hj
        simp [slotHasKey] at hj
    rcases hloc with ⟨j, hj⟩ | ⟨hne, j, hj⟩
    · exact absurd hj (hmiss1 j)
    · have hp2 : Map.hash2 H m key (Map.hash1 H m key) =
          (Map.hash2val H m key (Map.hash1 H m key), m) := by
        unfold Map.hash2
        rw [if_neg (fun hc => hne hc.1)]
      rw [hp2]
      dsimp only
      rw [if_pos hne]
      have hjl : j < (m.buckets.getD
          (Map.hash2val H m key (Map.hash1 H m key)) []).length := by
        by_contra hge
        rw [slotOf_oob_slot _ _ _ (by omega)] at hj
        simp [slotHasKey] at hj
      have hsome : (scanKey m.bytesPerKey key (m.buckets.getD
          (Map.hash2val H m key (Map.hash1 H m key)) [])).isSome =
          true := by
        rw [scanKey_isSome]
        refine ⟨slotOf m.buckets
          (Map.hash2val H m key (Map.hash1 H m key)) j, ?_, hj⟩
        show (m.buckets.getD _ []).getD j none ∈ _
        rw [getD_lt _ _ _ hjl]
        exact List.getElem_mem hjl
      cases hscan2 : scanKey m.bytesPerKey key (m.buckets.getD
          (Map.hash2val H m key (Map.hash1 H m key)) []) with
      | none => rw [hscan2] at hsome; simp at hsome
      | some i =>
        exact ⟨Map.hash2val H m key (Map.hash1 H m key), i, rfl,
          hslot_of_scan _ i hscan2⟩

/-- A successful insertion through `put1` on a well-formed table whose
entries are compatible with `key ↦ val` raises `count` by exactly one,
keeps `bytesPerKey`, keeps every entry compatible, and leaves the key
locatable on the lookup path. -/
theorem put1_ok_state (H : Hashers) (key val : List Nat)
    (hkey : key ≠ []) :
    ∀ (fuel : Nat) (m : Map),
      key.length = m.bytesPerKey →
      WFb m →
      uniqueKeyVal key val m →
      (Map.put1 H fuel m key val).1 = none →
      (Map.put1 H fuel m key val).2.count = add64 m.count 1 ∧
      (Map.put1 H fuel m key val).2.bytesPerKey = m.bytesPerKey ∧
      uniqueKeyVal key val (Map.put1 H fuel m key val).2 ∧
      keyLocatable H key (Map.put1 H fuel m key val).2 := by
  intro fuel
  induction fuel with
  | zero => intro m _ _ _ hsucc; simp [Map.put1] at hsucc
  | succ fuel ih =>
    intro m hkl hWF huniq hsucc
    obtain ⟨hWF1, hWF2, hWF3⟩ := hWF
    simp only [Map.put1] at hsucc ⊢
    rw [if_neg (fun hc => hc hkl)] at hsucc ⊢
    set h1v := Map.hash1 H m key with hh1v
    have hmlt : ∀ x : Nat, x &&& m.mask < m.buckets.length := by
      intro x
      rw [hWF1, hWF3]
      unfold Map.mask
      rw [one_shiftLeft_eq]
      exact and_mask_lt _ _
    have hhlt1 : h1v < m.buckets.length := hmlt (Map.hash1Raw H m key)
    have hrow1 : (m.buckets.getD h1v []).length = m.keysPerBucket :=
      hWF2 _ (by rw [← hWF1]; exact hhlt1)
    by_cases hr1 : (Map.put0 m key val h1v).1 = true
    · rw [if_pos hr1] at hsucc ⊢
      obtain ⟨i0, hfn, heq⟩ := put0_success m key val h1v hr1
      obtain ⟨hi0len0, _⟩ := firstNone_some _ _ hfn
      dsimp only
      rw [heq]
      refine ⟨rfl, rfl, ?_, ?_⟩
      · intro a b kv2 hs2
        show kvOK key val m.bytesPerKey kv2
        rcases slotOf_setSlot_cases m.buckets h1v i0
          (some (key ++ val)) a b with hc | hc
        · rw [Option.some.inj (hs2.symm.trans hc)]
          intro _
          rfl
        · exact huniq a b kv2 (hc ▸ hs2)
      · left
        refine ⟨i0, ?_⟩
        rw [hash1_congr H m
          ({ m with
            buckets := setSlot m.buckets h1v i0 (some (key ++ val)),
            count := add64 m.count 1,
            valuesByteCount :=
              add64 m.valuesByteCount val.length } : Map) key rfl rfl,
          ← hh1v]
        show slotHasKey m.bytesPerKey key
          (slotOf (setSlot m.buckets h1v i0 (some (key ++ val)))
            h1v i0) = true
        rw [slotOf_setSlot_same _ _ _ _ hhlt1 hi0len0]
        simp only [slotHasKey, beq_iff_eq]
        rw [← hkl, List.take_left]
    · rw [if_neg hr1] at hsucc ⊢
      have hr1f : (Map.put0 m key val h1v).1 = false := by
        simpa using hr1
      rw [put0_fail_eq m key val h1v hr1f] at hsucc ⊢
      simp only [hash2_fst] at hsucc ⊢
      set mz := (Map.hash2 H m key h1v).2 with hmzv
      set h2v := Map.hash2val H m key h1v with hh2v
      have hz := hash2_snd H m key h1v
      rw [← hmzv] at hz
      have hzb : mz.buckets = m.buckets := by
        rcases hz with hz | hz
        · rw [hz]
        · rw [hz]; rfl
      have hzc : mz.count = m.count := by
        rcases hz with hz | hz
        · rw [hz]
        · rw [hz]; rfl
      have hzbpk : mz.bytesPerKey = m.bytesPerKey := by
        rcases hz with hz | hz
        · rw [hz]
        · rw [hz]; rfl
      have hzkpb : mz.keysPerBucket = m.keysPerBucket := by
        rcases hz with hz | hz
        · rw [hz]
        · rw [hz]; rfl
      have hzbc : mz.bucketCount = m.bucketCount := by
        rcases hz with hz | hz
        · rw [hz]
        · rw [hz]; rfl
      have hzbp : mz.bucketPower = m.bucketPower := by
        rcases hz with hz | hz
        · rw [hz]
        · rw [hz]; rfl
      have hzs1 : mz.seed1 = m.seed1 := by
        rcases hz with hz | hz
        · rw [hz]
        · rw [hz]; rfl
      have hzs2 : mz.seed2 = m.seed2 := by
        rcases hz with hz | hz
        · rw [hz]
        · rw [hz]; rfl
      have hhlt2 : h2v < m.buckets.length :=
        hmlt (Map.hash2Raw H m key h1v)
      have hrow2 : (m.buckets.getD h2v []).length = m.keysPerBucket :=
        hWF2 _ (by rw [← hWF1]; exact hhlt2)
      have hfull1 : ∀ t, t < m.keysPerBucket →
          slotOf m.buckets h1v t ≠ none := by
        have hfn := (put0_fail_iff m key val h1v).mp hr1f
        intro t ht
        exact full_of_firstNone_none _ hfn t (by rw [hrow1]; omega)
      have huz : uniqueKeyVal key val mz := by
        intro a b kv2 hs2
        rw [show kvOK key val mz.bytesPerKey kv2 =
          kvOK key val m.bytesPerKey kv2 from by rw [hzbpk]]
        rw [hzb] at hs2
        exact huniq a b kv2 hs2
      by_cases hA1 : (if h2v ≠ h1v then Map.put0 mz key val h2v
          else (false, mz)).1 = true
      · rw [if_pos hA1] at hsucc ⊢
        have hne : h2v ≠ h1v := by
          by_cases hne : h2v ≠ h1v
          · exact hne
          · rw [if_neg hne] at hA1
            simp at hA1
        rw [if_pos hne] at hA1 ⊢
        obtain ⟨i0, hfn, heq⟩ := put0_success mz key val h2v hA1
        obtain ⟨hi0len0, _⟩ := firstNone_some _ _ hfn
        dsimp only
        have hsp := put0_sameShape mz key val h2v
        refine ⟨?_, ?_, ?_, ?_⟩
        · rw [heq]
          show add64 mz.count 1 = add64 m.count 1
          rw [hzc]
        · rw [heq]
          show mz.bytesPerKey = m.bytesPerKey
          exact hzbpk
        · intro a b kv2 hs2
          rw [heq] at hs2
          dsimp only at hs2
          rw [show kvOK key val
              (Map.put0 mz key val h2v).2.bytesPerKey kv2 =
              kvOK key val m.bytesPerKey kv2 from by
            rw [heq]
            show kvOK key val mz.bytesPerKey kv2 =
              kvOK key val m.bytesPerKey kv2
            rw [hzbpk]]
          rcases slotOf_setSlot_cases mz.buckets h2v i0
            (some (key ++ val)) a b with hc | hc
          · rw [Option.some.inj (hs2.symm.trans hc)]
            intro _
            rfl
          · have hs3 : slotOf mz.buckets a b = some kv2 := hc ▸ hs2
            rw [hzb] at hs3
            exact huniq a b kv2 hs3
        · have hH1 : Map.hash1 H (Map.put0 mz key val h2v).2 key =
              h1v := by
            rw [hash1_congr H m (Map.put0 mz key val h2v).2 key
              (hsp.2.2.2.2.2.1.trans hzs1)
              (hsp.2.2.2.1.trans hzbp), ← hh1v]
          have hH2 : Map.hash2val H (Map.put0 mz key val h2v).2 key
              h1v = h2v := by
            rw [hash2val_congr H m (Map.put0 mz key val h2v).2 key h1v
              (hsp.2.2.2.2.2.2.1.trans hzs2)
              (hsp.2.2.2.1.trans hzbp), ← hh2v]
          unfold keyLocatable
          rw [hH1, hH2]
          right
          refine ⟨hne, i0, ?_⟩
          rw [heq]
          dsimp only
          rw [slotOf_setSlot_same _ _ _ _ (by rw [hzb]; exact hhlt2)
            hi0len0]
          simp only [slotHasKey, beq_iff_eq]
          rw [hzbpk, ← hkl, List.take_left]
      · rw [if_neg hA1] at hsucc ⊢
        have hA2 : (if h2v ≠ h1v then Map.put0 mz key val h2v
            else (false, mz)).2 = mz := by
          by_cases hne : h2v ≠ h1v
          · rw [if_pos hne] at hA1 ⊢
            exact put0_fail_eq mz key val h2v (by simpa using hA1)
          · rw [if_neg hne]
        rw [hA2] at hsucc ⊢
        have hfullc : ∀ t, t < m.keysPerBucket →
            slotOf m.buckets
              (if rngStream mz.seed1 mz.rIdx &&& 1 = 0 then h2v
               else h1v) t ≠ none := by
          intro t ht
          by_cases hu : rngStream mz.seed1 mz.rIdx &&& 1 = 0
          · rw [if_pos hu]
            by_cases hne : h2v = h1v
            · rw [hne]
              exact hfull1 t ht
            · have hr2f : (Map.put0 mz key val h2v).1 = false := by
                rw [if_pos hne] at hA1
                simpa using hA1
              have hfn := (put0_fail_iff mz key val h2v).mp hr2f
              rw [hzb] at hfn
              exact full_of_firstNone_none _ hfn t (by rw [hrow2]; omega)
          · rw [if_neg hu]
            exact hfull1 t ht
        have hhltc : (if rngStream mz.seed1 mz.rIdx &&& 1 = 0 then h2v
            else h1v) < m.buckets.length := by
          by_cases hu : rngStream mz.seed1 mz.rIdx &&& 1 = 0
          · rw [if_pos hu]; exact hhlt2
          · rw [if_neg hu]; exact hhlt1
        have hrowc : (m.buckets.getD
            (if rngStream mz.seed1 mz.rIdx &&& 1 = 0 then h2v
             else h1v) []).length = m.keysPerBucket :=
          hWF2 _ (by rw [← hWF1]; exact hhltc)
        have hRR : List.range ({ mz with rIdx := mz.rIdx + 1 } :
            Map).keysPerBucket = List.range' 0 m.keysPerBucket := by
          show List.range mz.keysPerBucket = List.range' 0 m.keysPerBucket
          rw [hzkpb, List.range_eq_range']
        rw [hRR] at hsucc ⊢
        have hu4 : uniqueKeyVal key val
            ({ mz with rIdx := mz.rIdx + 1 } : Map) := by
          intro a b kv2 hs2
          exact huz a b kv2 hs2
        have hsh := rehashLoop_sameShape H
          (if rngStream mz.seed1 mz.rIdx &&& 1 = 0 then h2v else h1v)
          (List.range' 0 m.keysPerBucket) (key ++ val)
          ({ mz with rIdx := mz.rIdx + 1 } : Map)
        have hloopu := rehashLoop_unique H
          (if rngStream mz.seed1 mz.rIdx &&& 1 = 0 then h2v else h1v)
          key val hkey (List.range' 0 m.keysPerBucket) (key ++ val)
          ({ mz with rIdx := mz.rIdx + 1 } : Map) hu4 (fun _ => rfl)
        by_cases hL : (rehashLoop H
            (if rngStream mz.seed1 mz.rIdx &&& 1 = 0 then h2v else h1v)
            (List.range' 0 m.keysPerBucket) (key ++ val)
            ({ mz with rIdx := mz.rIdx + 1 } : Map)).1 = true
        · rw [if_pos hL] at hsucc ⊢
          have hks := rehashLoop_success H
            (if rngStream mz.seed1 mz.rIdx &&& 1 = 0 then h2v else h1v)
            m.keysPerBucket 0 (key ++ val)
            ({ mz with rIdx := mz.rIdx + 1 } : Map)
            (by show _ < mz.buckets.length; rw [hzb]; exact hhltc)
            (by
              intro t ht
              show slotOf mz.buckets _ t ≠ none
              rw [hzb]
              refine hfullc t ?_
              have ht2 : t < (mz.buckets.getD
                  (if rngStream mz.seed1 mz.rIdx &&& 1 = 0 then h2v
                   else h1v) []).length := ht
              rw [hzb, hrowc] at ht2
              exact ht2)
            (by
              show 0 + m.keysPerBucket ≤ (mz.buckets.getD _ []).length
              rw [hzb, hrowc]
              omega)
            hL
          refine ⟨?_, ?_, hloopu.1, ?_⟩
          · rw [hks.2.2]
            show add64 mz.count 1 = add64 m.count 1
            rw [hzc]
          · rw [hsh.1]
            show mz.bytesPerKey = m.bytesPerKey
            exact hzbpk
          · have hH1 : Map.hash1 H (rehashLoop H
                (if rngStream mz.seed1 mz.rIdx &&& 1 = 0 then h2v
                 else h1v)
                (List.range' 0 m.keysPerBucket) (key ++ val)
                ({ mz with rIdx := mz.rIdx + 1 } : Map)).2.2 key =
                h1v := by
              rw [hash1_congr H m _ key
                (by rw [hsh.2.2.2.2.2.1]; exact hzs1)
                (by rw [hsh.2.2.2.1]; exact hzbp), ← hh1v]
            have hH2 : Map.hash2val H (rehashLoop H
                (if rngStream mz.seed1 mz.rIdx &&& 1 = 0 then h2v
                 else h1v)
                (List.range' 0 m.keysPerBucket) (key ++ val)
                ({ mz with rIdx := mz.rIdx + 1 } : Map)).2.2 key h1v =
                h2v := by
              rw [hash2val_congr H m _ key h1v
                (by rw [hsh.2.2.2.2.2.2.1]; exact hzs2)
                (by rw [hsh.2.2.2.1]; exact hzbp), ← hh2v]
            have hbpkL : (rehashLoop H
                (if rngStream mz.seed1 mz.rIdx &&& 1 = 0 then h2v
                 else h1v)
                (List.range' 0 m.keysPerBucket) (key ++ val)
                { mz with rIdx := mz.rIdx + 1 }).2.2.bytesPerKey =
                  m.bytesPerKey := by
              rw [hsh.1]
              exact hzbpk
            unfold keyLocatable
            rw [hH1, hH2]
            by_cases hu : rngStream mz.seed1 mz.rIdx &&& 1 = 0
            · rw [if_pos hu] at hks hbpkL ⊢
              by_cases hne : h2v = h1v
              · left
                refine ⟨0, ?_⟩
                rw [← hne, hks.1]
                simp only [slotHasKey, beq_iff_eq]
                rw [hbpkL, ← hkl, List.take_left]
              · right
                refine ⟨hne, 0, ?_⟩
                rw [hks.1]
                simp only [slotHasKey, beq_iff_eq]
                rw [hbpkL, ← hkl, List.take_left]
            · rw [if_neg hu] at hks hbpkL ⊢
              left
              refine ⟨0, ?_⟩
              rw [hks.1]
              simp only [slotHasKey, beq_iff_eq]
              rw [hbpkL, ← hkl, List.take_left]
        · rw [if_neg hL] at hsucc ⊢
          by_cases hexp5 : (rehashLoop H
              (if rngStream mz.seed1 mz.rIdx &&& 1 = 0 then h2v
               else h1v)
              (List.range' 0 m.keysPerBucket) (key ++ val)
              { mz with rIdx := mz.rIdx + 1 }).2.2.expandable = true
          · rw [if_neg (not_not_intro hexp5)] at hsucc ⊢
            have hWF4 : WFb ({ mz with rIdx := mz.rIdx + 1 } : Map) := by
              refine ⟨?_, ?_, ?_⟩
              · show mz.buckets.length = mz.bucketCount
                rw [hzb, hzbc]
                exact hWF1
              · intro i hi
                show (mz.buckets.getD i []).length = mz.keysPerBucket
                rw [hzb, hzkpb]
                refine hWF2 i ?_
                have hi2 : i < mz.bucketCount := hi
                rw [hzbc] at hi2
                exact hi2
              · show mz.bucketCount = 2 ^ mz.bucketPower
                rw [hzbc, hzbp]
                exact hWF3
            have hWFL := WFb_of_sameShape _ _ hsh hWF4
            have IH := ih (Map.expandBucket H (rehashLoop H
                (if rngStream mz.seed1 mz.rIdx &&& 1 = 0 then h2v
                 else h1v)
                (List.range' 0 m.keysPerBucket) (key ++ val)
                ({ mz with rIdx := mz.rIdx + 1 } : Map)).2.2)
              (by
                show key.length = (rehashLoop H _ _ _ _).2.2.bytesPerKey
                rw [hsh.1]
                show key.length = mz.bytesPerKey
                rw [hzbpk]
                exact hkl)
              (WFb_expandBucket H _ hWFL)
              (uniqueKeyVal_expandBucket H _ key val hloopu.1)
              hsucc
            refine ⟨?_, ?_, IH.2.2.1, IH.2.2.2⟩
            · rw [IH.1]
              show add64 (rehashLoop H _ _ _ _).2.2.count 1 =
                add64 m.count 1
              rw [rehashLoop_count, if_neg hL]
              show add64 mz.count 1 = add64 m.count 1
              rw [hzc]
            · rw [IH.2.1]
              show (rehashLoop H _ _ _ _).2.2.bytesPerKey =
                m.bytesPerKey
              rw [hsh.1]
              exact hzbpk
          · rw [if_pos hexp5] at hsucc
            simp at hsucc

/-- C9: with `ifAbsent = true`, inserting an absent key `key ↦ v1` and
then calling `Put(key, v2, ifAbsent = true)` again increments `count`
by exactly one in total: the first call raises `count` by one, and the
second call returns the value `v1` stored by the first call, reports no
error, and returns the intermediate state unchanged. -/
theorem c9_put_if_absent_twice (H : Hashers) (fuel1 fuel2 : Nat)
    (m : Map) (key v1 v2 : List Nat)
    (hkey : key ≠ []) (hkl : key.length = m.bytesPerKey)
    (hWF : WFb m)
    (habs : keyAbsent m.bytesPerKey key m.buckets = true)
    (hok : (Map.Put H fuel1 m key v1 true).1.2 = none) :
    (Map.Put H fuel1 m key v1 true).2.count = add64 m.count 1 ∧
    (Map.Put H fuel2 (Map.Put H fuel1 m key v1 true).2 key v2
      true).1.1 = some v1 ∧
    (Map.Put H fuel2 (Map.Put H fuel1 m key v1 true).2 key v2
      true).1.2 = none ∧
    (Map.Put H fuel2 (Map.Put H fuel1 m key v1 true).2 key v2
      true).2 = (Map.Put H fuel1 m key v1 true).2 := by
  obtain ⟨hWF1, hWF2, hWF3⟩ := hWF
  have hr1n : (Map.kvIndexByKey H m key).1 = none :=
    kvIndexByKey_none_of_absent H m key habs
  have hPut1 : Map.Put H fuel1 m key v1 true =
      ((none, (Map.put1 H fuel1 (Map.kvIndexByKey H m key).2 key
        v1).1),
        (Map.put1 H fuel1 (Map.kvIndexByKey H m key).2 key v1).2) := by
    simp only [Map.Put]
    rw [if_pos trivial, hr1n]
  rw [hPut1] at hok ⊢
  dsimp only at hok ⊢
  rcases kvIndexByKey_snd H m key with hr2 | hr2 <;> rw [hr2] at hok ⊢
  · have hP := put1_ok_state H key v1 hkey fuel1 m hkl
      ⟨hWF1, hWF2, hWF3⟩ (uniqueKeyVal_of_keyAbsent key v1 m habs) hok
    have hkl1 : key.length =
        (Map.put1 H fuel1 m key v1).2.bytesPerKey := by
      rw [hP.2.1]
      exact hkl
    obtain ⟨h, i, hkvi, hslot⟩ := kvIndexByKey_found H
      (Map.put1 H fuel1 m key v1).2 key v1 hkl1 hP.2.2.1 hP.2.2.2
    have hPut2 : Map.Put H fuel2 (Map.put1 H fuel1 m key v1).2 key v2
        true =
        ((some (((slotOf (Map.put1 H fuel1 m key v1).2.buckets h
            i).getD []).drop
          (Map.put1 H fuel1 m key v1).2.bytesPerKey), none),
          (Map.put1 H fuel1 m key v1).2) := by
      simp only [Map.Put]
      rw [if_pos trivial, hkvi]
    rw [hPut2]
    dsimp only
    refine ⟨hP.1, ?_, rfl, rfl⟩
    rw [hslot, hP.2.1]
    show some ((key ++ v1).drop m.bytesPerKey) = some v1
    rw [← hkl, List.drop_left]
  · have hP := put1_ok_state H key v1 hkey fuel1 (bumpZ m) hkl
      ⟨hWF1, hWF2, hWF3⟩
      (uniqueKeyVal_of_keyAbsent key v1 (bumpZ m) habs) hok
    have hkl1 : key.length =
        (Map.put1 H fuel1 (bumpZ m) key v1).2.bytesPerKey := by
      rw [hP.2.1]
      exact hkl
    obtain ⟨h, i, hkvi, hslot⟩ := kvIndexByKey_found H
      (Map.put1 H fuel1 (bumpZ m) key v1).2 key v1 hkl1 hP.2.2.1
      hP.2.2.2
    have hPut2 : Map.Put H fuel2 (Map.put1 H fuel1 (bumpZ m) key
        v1).2 key v2 true =
        ((some (((slotOf (Map.put1 H fuel1 (bumpZ m) key
            v1).2.buckets h i).getD []).drop
          (Map.put1 H fuel1 (bumpZ m) key v1).2.bytesPerKey), none),
          (Map.put1 H fuel1 (bumpZ m) key v1).2) := by
      simp only [Map.Put]
      rw [if_pos trivial, hkvi]
    rw [hPut2]
    dsimp only
    refine ⟨hP.1, ?_, rfl, rfl⟩
    rw [hslot, hP.2.1]
    show some ((key ++ v1).drop m.bytesPerKey) = some v1
    rw [← hkl, List.drop_left]

/-- C9 witness: on the fresh non-expandable 1×1×1 map `mB`, a first
`Put([0], [1], ifAbsent)` succeeds and raises `count` to 1, and a
second `Put([0], [9], ifAbsent)` returns `[1]` with no error and no
state change. -/
theorem c9_put_if_absent_twice_witness :
    (([0] : List Nat) ≠ [] ∧ ([0] : List Nat).length = mB.bytesPerKey ∧
      WFb mB ∧ keyAbsent mB.bytesPerKey [0] mB.buckets = true ∧
      (Map.Put HA 4 mB [0] [1] true).1.2 = none) ∧
    ((Map.Put HA 4 mB [0] [1] true).2.count = add64 mB.count 1 ∧
     (Map.Put HA 4 (Map.Put HA 4 mB [0] [1] true).2 [0] [9]
       true).1.1 = some [1] ∧
     (Map.Put HA 4 (Map.Put HA 4 mB [0] [1] true).2 [0] [9]
       true).1.2 = none ∧
     (Map.Put HA 4 (Map.Put HA 4 mB [0] [1] true).2 [0] [9]
       true).2 = (Map.Put HA 4 mB [0] [1] true).2) := by
  have hWF : WFb mB := by
    refine ⟨by decide, ?_, by decide⟩
    intro i hi
    have h1 : mB.bucketCount = 1 := by decide
    rw [h1] at hi
    have h0 : i = 0 := by omega
    subst h0
    decide
  exact ⟨⟨by decide, by decide, hWF, by decide, by decide⟩,
    c9_put_if_absent_twice HA 4 4 mB [0] [1] [9] (by decide)
      (by decide) hWF (by decide) (by decide)⟩

/-- `nextPowerOfTwo` only depends on its argument modulo `2^32`. -/
theorem nextPowerOfTwo_mod (n : Nat) :
    nextPowerOfTwo n = nextPowerOfTwo (n % P32) := by
  unfold nextPowerOfTwo
  have h : (n + (P32 - 1)) % P32 = (n % P32 + (P32 - 1)) % P32 := by
    conv_lhs => rw [Nat.add_mod]
    conv_rhs => rw [Nat.add_mod, Nat.mod_mod_of_dvd n dvd_rfl]
  rw [h]

/-- The placement condition only mentions the reference configuration:
states with the same seeds, mask and key width agree on it. -/
theorem PlacementAt_congr (H : Hashers) (m m2 : Map) (bkts : Buckets)
    (hbpk : m2.bytesPerKey = m.bytesPerKey) (hs1 : m2.seed1 = m.seed1)
    (hs2 : m2.seed2 = m.seed2) (hp : m2.bucketPower = m.bucketPower)
    (h : PlacementAt H m bkts) : PlacementAt H m2 bkts := by
  intro i j kv hslot
  rw [hbpk, hash1_congr H m m2 _ hs1 hp,
    hash2val_congr H m m2 _ _ hs2 hp]
  exact h i j kv hslot

/-- Writing a correctly placed entry (or clearing a slot) preserves the
placement condition. -/
theorem PlacementAt_setSlot (H : Hashers) (m : Map) (bkts : Buckets)
    (h i : Nat) (s : Option (List Nat))
    (hp : PlacementAt H m bkts)
    (hleg : ∀ kv, s = some kv →
      Map.hash1 H m (kv.take m.bytesPerKey) = h ∨
      Map.hash2val H m (kv.take m.bytesPerKey)
        (Map.hash1 H m (kv.take m.bytesPerKey)) = h) :
    PlacementAt H m (setSlot bkts h i s) := by
  intro a b kv hslot
  by_cases hab : a = h ∧ b = i
  · obtain ⟨ha, hb⟩ := hab
    subst ha
    subst hb
    rcases slotOf_setSlot_cases bkts a b s a b with hc | hc
    · exact hleg kv (hc.symm.trans hslot)
    · exact hp a b kv (hc ▸ hslot)
  · rw [slotOf_setSlot_ne _ _ _ _ _ _ (by
      by_cases ha : a = h
      · exact Or.inr (fun hbi => hab ⟨ha, hbi⟩)
      · exact Or.inl ha)] at hslot
    exact hp a b kv hslot

/-- Expansion re-places every entry correctly for the doubled mask:
each relocated entry lands in its masked primary bucket or its masked
alternate bucket of the expanded state. -/
theorem PlacementInv_expandBucket (H : Hashers) (m : Map)
    (hWF : WFb m) (hplace : PlacementInv H m) :
    PlacementInv H (Map.expandBucket H m) := by
  intro hq jq kv hslot
  rw [expandBucket_slot H m hWF hplace hq jq] at hslot
  unfold expandWriteAt at hslot
  cases hsl : slotOf m.buckets (hq &&& (2 ^ m.bucketPower - 1)) jq with
  | none => rw [hsl] at hslot; simp at hslot
  | some kv0 =>
    rw [hsl] at hslot
    dsimp only at hslot
    by_cases htg : Map.expandTarget H m (hq &&& (2 ^ m.bucketPower - 1))
        kv0 = hq
    · rw [if_pos htg] at hslot
      have hkv : kv0 = kv := by simpa using hslot
      subst hkv
      have hH1e : Map.hash1 H (Map.expandBucket H m)
          (kv0.take (Map.expandBucket H m).bytesPerKey) =
          Map.hash1Raw H m (kv0.take m.bytesPerKey) &&&
            (2 ^ (m.bucketPower + 1) - 1) := by
        show Map.hash1Raw H (Map.expandBucket H m)
          (kv0.take m.bytesPerKey) &&&
          ((1 <<< (m.bucketPower + 1)) - 1) = _
        rw [one_shiftLeft_eq]
        rfl
      have hH2e : ∀ x, Map.hash2val H (Map.expandBucket H m)
          (kv0.take (Map.expandBucket H m).bytesPerKey) x =
          (x ^^^ Map.hash2Mix H m (kv0.take m.bytesPerKey)) &&&
            (2 ^ (m.bucketPower + 1) - 1) := by
        intro x
        show (x ^^^ Map.hash2Mix H (Map.expandBucket H m)
          (kv0.take m.bytesPerKey)) &&&
          ((1 <<< (m.bucketPower + 1)) - 1) = _
        rw [one_shiftLeft_eq]
        rfl
      unfold Map.expandTarget at htg
      rw [one_shiftLeft_eq, two_shiftLeft_eq] at htg
      dsimp only at htg
      by_cases hc : Map.hash1Raw H m (kv0.take m.bytesPerKey) &&&
          (2 ^ m.bucketPower - 1) = hq &&& (2 ^ m.bucketPower - 1)
      · left
        rw [if_pos hc] at htg
        rw [hH1e]
        exact htg
      · right
        rw [if_neg hc] at htg
        rw [hH2e, hH1e]
        unfold Map.hash2Raw at htg
        rw [xor_and_mask]
        exact htg
    · rw [if_neg htg] at hslot
      simp at hslot

/-- A successful lookup reports a masked primary or masked alternate
bucket, and implies the key has the configured width. -/
theorem kvIndexByKey_some_spec (H : Hashers) (m : Map)
    (key : List Nat) (h i : Nat)
    (hf : (Map.kvIndexByKey H m key).1 = some (h, i)) :
    key.length = m.bytesPerKey ∧
    (h = Map.hash1 H m key ∨
      h = Map.hash2val H m key (Map.hash1 H m key)) := by
  unfold Map.kvIndexByKey at hf
  by_cases hkl : key.length ≠ m.bytesPerKey
  · rw [if_pos hkl] at hf
    simp at hf
  · rw [if_neg hkl] at hf
    dsimp only at hf
    refine ⟨by push_neg at hkl; exact hkl, ?_⟩
    cases hscan : scanKey m.bytesPerKey key
        (m.buckets.getD (Map.hash1 H m key) []) with
    | some i0 =>
      rw [hscan] at hf
      dsimp only at hf
      left
      exact (Prod.mk.injEq _ _ _ _ ▸ (Option.some.inj hf)).1.symm
    | none =>
      rw [hscan] at hf
      dsimp only at hf
      rw [hash2_fst] at hf
      by_cases hne : Map.hash2val H m key (Map.hash1 H m key) ≠
          Map.hash1 H m key
      · rw [if_pos hne] at hf
        cases hscan2 : scanKey m.bytesPerKey key
            ((Map.hash2 H m key (Map.hash1 H m key)).2.buckets.getD
              (Map.hash2val H m key (Map.hash1 H m key)) []) with
        | some i0 =>
          rw [hscan2] at hf
          dsimp only at hf
          right
          exact (Prod.mk.injEq _ _ _ _ ▸ (Option.some.inj hf)).1.symm
        | none =>
          rw [hscan2] at hf
          simp at hf
      · rw [if_neg hne] at hf
        simp at hf

/-- The masked primary index is below `2^bucketPower`. -/
theorem hash1_lt (H : Hashers) (m : Map) (key : List Nat) :
    Map.hash1 H m key < 2 ^ m.bucketPower := by
  unfold Map.hash1 Map.mask
  rw [one_shiftLeft_eq]
  exact and_mask_lt _ _

/-- The kick-out loop preserves the placement condition: every swap
writes the (correctly placed) pending entry into its own bucket, and
every displaced entry is re-placed into its masked alternate bucket,
which by the involution is its other legitimate bucket.  The pending
entry handed back is always legitimate for the kicked bucket. -/
theorem rehashLoop_place (H : Hashers) (m0 : Map) (h : Nat) :
    ∀ (n i : Nat) (kv : List Nat) (m : Map),
      m.bytesPerKey = m0.bytesPerKey → m.seed1 = m0.seed1 →
      m.seed2 = m0.seed2 → m.bucketPower = m0.bucketPower →
      (∀ t, i ≤ t → t < i + n → slotOf m.buckets h t ≠ none) →
      PlacementAt H m0 m.buckets →
      (Map.hash1 H m0 (kv.take m0.bytesPerKey) = h ∨
        Map.hash2val H m0 (kv.take m0.bytesPerKey)
          (Map.hash1 H m0 (kv.take m0.bytesPerKey)) = h) →
      PlacementAt H m0
        (rehashLoop H h (List.range' i n) kv m).2.2.buckets ∧
      (Map.hash1 H m0
          (((rehashLoop H h (List.range' i n) kv m).2.1).take
            m0.bytesPerKey) = h ∨
        Map.hash2val H m0
          (((rehashLoop H h (List.range' i n) kv m).2.1).take
            m0.bytesPerKey)
          (Map.hash1 H m0
            (((rehashLoop H h (List.range' i n) kv m).2.1).take
              m0.bytesPerKey)) = h) := by
  intro n
  induction n with
  | zero =>
    intro i kv m _ _ _ _ _ hpl hkv
    rw [show List.range' i 0 = [] from rfl]
    exact ⟨hpl, hkv⟩
  | succ n ih =>
    intro i kv m hbpk hs1 hs2 hbp hfull hpl hkv
    have hcons : List.range' i (n + 1) = i :: List.range' (i + 1) n := rfl
    rw [hcons, rehashLoop_cons]
    obtain ⟨e, he⟩ : ∃ e, slotOf m.buckets h i = some e := by
      cases hsl : slotOf m.buckets h i with
      | none => exact absurd hsl (hfull i (by omega) (by omega))
      | some e => exact ⟨e, rfl⟩
    have hkD : kickDisplaced m h i = e := by
      unfold kickDisplaced
      rw [he]
      rfl
    have hlegD := hpl h i e he
    have hplSwap : PlacementAt H m0 (kickSwap m h i kv).buckets := by
      show PlacementAt H m0 (setSlot m.buckets h i (some kv))
      refine PlacementAt_setSlot H m0 m.buckets h i (some kv) hpl ?_
      intro kv2 hkv2
      rw [← Option.some.inj hkv2]
      exact hkv
    have hbpk2 : e.take m.bytesPerKey = e.take m0.bytesPerKey := by
      rw [hbpk]
    have htgt : (Map.hash2 H (kickSwap m h i kv)
        ((kickDisplaced m h i).take m.bytesPerKey) h).1 =
        Map.hash2val H m0 (e.take m0.bytesPerKey) h := by
      rw [hash2_fst, hkD, hbpk2]
      exact hash2val_congr H m0 (kickSwap m h i kv) _ h hs2 hbp
    have hlegTgt : Map.hash1 H m0 (e.take m0.bytesPerKey) =
          Map.hash2val H m0 (e.take m0.bytesPerKey) h ∨
        Map.hash2val H m0 (e.take m0.bytesPerKey)
          (Map.hash1 H m0 (e.take m0.bytesPerKey)) =
          Map.hash2val H m0 (e.take m0.bytesPerKey) h := by
      rcases hlegD with hD | hD
      · right
        rw [hD]
      · left
        rw [← hD]
        exact (hash2val_involution H m0 _ _ (hash1_lt H m0 _)).symm
    have hplQ : PlacementAt H m0 (kickTry H m h i kv).2.buckets := by
      unfold kickTry
      dsimp only
      by_cases hps : (Map.put0
          (Map.hash2 H (kickSwap m h i kv)
            ((kickDisplaced m h i).take m.bytesPerKey) h).2
          ((kickDisplaced m h i).take m.bytesPerKey)
          ((kickDisplaced m h i).drop m.bytesPerKey)
          (Map.hash2 H (kickSwap m h i kv)
            ((kickDisplaced m h i).take m.bytesPerKey) h).1).1 = true
      · obtain ⟨i0, hfn, heq⟩ := put0_success _ _ _ _ hps
        rw [heq]
        dsimp only
        rw [(hash2_counters H (kickSwap m h i kv)
          ((kickDisplaced m h i).take m.bytesPerKey) h).1]
        refine PlacementAt_setSlot H m0 _ _ _ _ hplSwap ?_
        intro kv2 hkv2
        have he2 : kv2 = e := by
          rw [← Option.some.inj hkv2, List.take_append_drop, hkD]
        subst he2
        rw [htgt]
        exact hlegTgt
      · rw [put0_fail_eq _ _ _ _ (by simpa using hps)]
        rw [(hash2_counters H (kickSwap m h i kv)
          ((kickDisplaced m h i).take m.bytesPerKey) h).1]
        exact hplSwap
    by_cases hq : (kickTry H m h i kv).1 = true
    · rw [if_pos hq]
      refine ⟨hplQ, ?_⟩
      show Map.hash1 H m0 ((kickDisplaced m h i).take m0.bytesPerKey) =
          h ∨ _
      rw [hkD]
      exact hlegD
    · rw [if_neg hq]
      have hshQ : sameShape m (kickTry H m h i kv).2 := by
        unfold kickTry
        dsimp only
        exact sameShape_trans
          (⟨rfl, rfl, rfl, rfl, rfl, rfl, rfl, setSlot_length ..,
            fun hq2 => setSlot_rowlen ..⟩ :
              sameShape m (kickSwap m h i kv))
          (sameShape_trans (hash2_sameShape ..) (put0_sameShape ..))
      have hkf := kickTry_fail H m h i kv (by simpa using hq)
      refine ih (i + 1) (kickDisplaced m h i) (kickTry H m h i kv).2
        (hshQ.1.trans hbpk) (hshQ.2.2.2.2.2.1.trans hs1)
        (hshQ.2.2.2.2.2.2.1.trans hs2) (hshQ.2.2.2.1.trans hbp)
        ?_ hplQ ?_
      · intro t ht1 ht2
        rw [hkf.1, kickSwap_slot_ne m h i kv h t (Or.inr (by omega))]
        exact hfull t (by omega) (by omega)
      · rw [hkD]
        exact hlegD

/-- The placement invariant is the placement condition of a state's own
bucket array. -/
theorem PlacementInv_of_At (H : Hashers) (m2 : Map)
    (h : PlacementAt H m2 m2.buckets) : PlacementInv H m2 := h

/-- Converse direction of `PlacementInv_of_At`. -/
theorem PlacementAt_of_Inv (H : Hashers) (m : Map)
    (h : PlacementInv H m) : PlacementAt H m m.buckets := h

/-- The insertion core `put1` preserves structural well-formedness and
the placement invariant, whatever its outcome. -/
theorem put1_WFb_place (H : Hashers) :
    ∀ (fuel : Nat) (m : Map) (key val : List Nat),
      WFb m → PlacementInv H m →
      WFb (Map.put1 H fuel m key val).2 ∧
      PlacementInv H (Map.put1 H fuel m key val).2 := by
  intro fuel
  induction fuel with
  | zero => intro m key val hWF hpl; exact ⟨hWF, hpl⟩
  | succ fuel ih =>
    intro m key val hWF hpl
    obtain ⟨hWF1, hWF2, hWF3⟩ := hWF
    simp only [Map.put1]
    by_cases hkl : key.length ≠ m.bytesPerKey
    · rw [if_pos hkl]
      exact ⟨⟨hWF1, hWF2, hWF3⟩, hpl⟩
    · rw [if_neg hkl]
      push_neg at hkl
      set h1v := Map.hash1 H m key with hh1v
      have hkeyleg1 : Map.hash1 H m ((key ++ val).take m.bytesPerKey) =
          h1v := by
        rw [← hkl, List.take_left, hh1v]
      have hkeyleg2 : Map.hash2val H m ((key ++ val).take m.bytesPerKey)
          (Map.hash1 H m ((key ++ val).take m.bytesPerKey)) =
          Map.hash2val H m key h1v := by
        rw [← hkl, List.take_left, hh1v]
      by_cases hr1 : (Map.put0 m key val h1v).1 = true
      · rw [if_pos hr1]
        obtain ⟨i0, hfn, heq⟩ := put0_success m key val h1v hr1
        dsimp only
        rw [heq]
        constructor
        · refine ⟨?_, ?_, hWF3⟩
          · show (setSlot m.buckets h1v i0 (some (key ++ val))).length =
              m.bucketCount
            rw [setSlot_length]
            exact hWF1
          · intro i hi
            show ((setSlot m.buckets h1v i0
              (some (key ++ val))).getD i []).length = m.keysPerBucket
            rw [setSlot_rowlen]
            exact hWF2 i hi
        · refine PlacementInv_of_At H _
            (PlacementAt_congr H m _ _ rfl rfl rfl rfl
              (PlacementAt_setSlot H m m.buckets h1v i0
                (some (key ++ val)) hpl ?_))
          intro kv2 hkv2
          rw [← Option.some.inj hkv2]
          left
          exact hkeyleg1
      · rw [if_neg hr1]
        rw [put0_fail_eq m key val h1v (by simpa using hr1)]
        simp only [hash2_fst]
        set mz := (Map.hash2 H m key h1v).2 with hmzv
        set h2v := Map.hash2val H m key h1v with hh2v
        have hz := hash2_snd H m key h1v
        rw [← hmzv] at hz
        have hzb : mz.buckets = m.buckets := by
          rcases hz with hz | hz
          · rw [hz]
          · rw [hz]; rfl
        have hzbpk : mz.bytesPerKey = m.bytesPerKey := by
          rcases hz with hz | hz
          · rw [hz]
          · rw [hz]; rfl
        have hzkpb : mz.keysPerBucket = m.keysPerBucket := by
          rcases hz with hz | hz
          · rw [hz]
          · rw [hz]; rfl
        have hzbc : mz.bucketCount = m.bucketCount := by
          rcases hz with hz | hz
          · rw [hz]
          · rw [hz]; rfl
        have hzbp : mz.bucketPower = m.bucketPower := by
          rcases hz with hz | hz
          · rw [hz]
          · rw [hz]; rfl
        have hzs1 : mz.seed1 = m.seed1 := by
          rcases hz with hz | hz
          · rw [hz]
          · rw [hz]; rfl
        have hzs2 : mz.seed2 = m.seed2 := by
          rcases hz with hz | hz
          · rw [hz]
          · rw [hz]; rfl
        have hplz : PlacementAt H m mz.buckets := by
          rw [hzb]
          exact hpl
        by_cases hA1 : (if h2v ≠ h1v then Map.put0 mz key val h2v
            else (false, mz)).1 = true
        · rw [if_pos hA1]
          have hne : h2v ≠ h1v := by
            by_cases hne : h2v ≠ h1v
            · exact hne
            · rw [if_neg hne] at hA1
              simp at hA1
          rw [if_pos hne] at hA1 ⊢
          obtain ⟨i0, hfn, heq⟩ := put0_success mz key val h2v hA1
          dsimp only
          rw [heq]
          constructor
          · refine ⟨?_, ?_, ?_⟩
            · show (setSlot mz.buckets h2v i0
                (some (key ++ val))).length = mz.bucketCount
              rw [setSlot_length, hzb, hzbc]
              exact hWF1
            · intro i hi
              show ((setSlot mz.buckets h2v i0
                (some (key ++ val))).getD i []).length = mz.keysPerBucket
              rw [setSlot_rowlen, hzb, hzkpb]
              refine hWF2 i ?_
              have hi2 : i < mz.bucketCount := hi
              rw [hzbc] at hi2
              exact hi2
            · show mz.bucketCount = 2 ^ mz.bucketPower
              rw [hzbc, hzbp]
              exact hWF3
          · refine PlacementInv_of_At H _
              (PlacementAt_congr H m _ _ hzbpk hzs1 hzs2 hzbp
                (PlacementAt_setSlot H m mz.buckets h2v i0
                  (some (key ++ val)) hplz ?_))
            intro kv2 hkv2
            rw [← Option.some.inj hkv2]
            right
            rw [hkeyleg2, hh2v]
        · rw [if_neg hA1]
          have hA2 : (if h2v ≠ h1v then Map.put0 mz key val h2v
              else (false, mz)).2 = mz := by
            by_cases hne : h2v ≠ h1v
            · rw [if_pos hne] at hA1 ⊢
              exact put0_fail_eq mz key val h2v (by simpa using hA1)
            · rw [if_neg hne]
          rw [hA2]
          have hmlt : ∀ x : Nat, x &&& m.mask < m.buckets.length := by
            intro x
            rw [hWF1, hWF3]
            unfold Map.mask
            rw [one_shiftLeft_eq]
            exact and_mask_lt _ _
          have hhlt1 : h1v < m.buckets.length :=
            hmlt (Map.hash1Raw H m key)
          have hhlt2 : h2v < m.buckets.length :=
            hmlt (Map.hash2Raw H m key h1v)
          have hrow1 : (m.buckets.getD h1v []).length =
              m.keysPerBucket := hWF2 _ (by rw [← hWF1]; exact hhlt1)
          have hrow2 : (m.buckets.getD h2v []).length =
              m.keysPerBucket := hWF2 _ (by rw [← hWF1]; exact hhlt2)
          have hfull1 : ∀ t, t < m.keysPerBucket →
              slotOf m.buckets h1v t ≠ none := by
            have hfn := (put0_fail_iff m key val h1v).mp
              (by simpa using hr1)
            intro t ht
            exact full_of_firstNone_none _ hfn t (by rw [hrow1]; omega)
          have hfullc : ∀ t, t < m.keysPerBucket →
              slotOf m.buckets
                (if rngStream mz.seed1 mz.rIdx &&& 1 = 0 then h2v
                 else h1v) t ≠ none := by
            intro t ht
            by_cases hu : rngStream mz.seed1 mz.rIdx &&& 1 = 0
            · rw [if_pos hu]
              by_cases hne : h2v = h1v
              · rw [hne]
                exact hfull1 t ht
              · have hr2f : (Map.put0 mz key val h2v).1 = false := by
                  rw [if_pos hne] at hA1
                  simpa using hA1
                have hfn := (put0_fail_iff mz key val h2v).mp hr2f
                rw [hzb] at hfn
                exact full_of_firstNone_none _ hfn t
                  (by rw [hrow2]; omega)
            · rw [if_neg hu]
              exact hfull1 t ht
          have hhltc : (if rngStream mz.seed1 mz.rIdx &&& 1 = 0 then h2v
              else h1v) < m.buckets.length := by
            by_cases hu : rngStream mz.seed1 mz.rIdx &&& 1 = 0
            · rw [if_pos hu]; exact hhlt2
            · rw [if_neg hu]; exact hhlt1
          have hlegc : Map.hash1 H m ((key ++ val).take m.bytesPerKey) =
              (if rngStream mz.seed1 mz.rIdx &&& 1 = 0 then h2v
               else h1v) ∨
              Map.hash2val H m ((key ++ val).take m.bytesPerKey)
                (Map.hash1 H m ((key ++ val).take m.bytesPerKey)) =
              (if rngStream mz.seed1 mz.rIdx &&& 1 = 0 then h2v
               else h1v) := by
            by_cases hu : rngStream mz.seed1 mz.rIdx &&& 1 = 0
            · rw [if_pos hu]
              right
              rw [hkeyleg2, hh2v]
            · rw [if_neg hu]
              left
              exact hkeyleg1
          have hRR : List.range ({ mz with rIdx := mz.rIdx + 1 } :
              Map).keysPerBucket = List.range' 0 m.keysPerBucket := by
            show List.range mz.keysPerBucket =
              List.range' 0 m.keysPerBucket
            rw [hzkpb, List.range_eq_range']
          rw [hRR]
          have hWF4 : WFb ({ mz with rIdx := mz.rIdx + 1 } : Map) := by
            refine ⟨?_, ?_, ?_⟩
            · show mz.buckets.length = mz.bucketCount
              rw [hzb, hzbc]
              exact hWF1
            · intro i hi
              show (mz.buckets.getD i []).length = mz.keysPerBucket
              rw [hzb, hzkpb]
              refine hWF2 i ?_
              have hi2 : i < mz.bucketCount := hi
              rw [hzbc] at hi2
              exact hi2
            · show mz.bucketCount = 2 ^ mz.bucketPower
              rw [hzbc, hzbp]
              exact hWF3
          have hsh := rehashLoop_sameShape H
            (if rngStream mz.seed1 mz.rIdx &&& 1 = 0 then h2v else h1v)
            (List.range' 0 m.keysPerBucket) (key ++ val)
            ({ mz with rIdx := mz.rIdx + 1 } : Map)
          have hWFL := WFb_of_sameShape _ _ hsh hWF4
          have hloopP := rehashLoop_place H m
            (if rngStream mz.seed1 mz.rIdx &&& 1 = 0 then h2v else h1v)
            m.keysPerBucket 0 (key ++ val)
            ({ mz with rIdx := mz.rIdx + 1 } : Map)
            hzbpk hzs1 hzs2 hzbp
            (by
              intro t ht1 ht2
              show slotOf mz.buckets _ t ≠ none
              rw [hzb]
              exact hfullc t (by omega))
            hplz hlegc
          have hplL : PlacementInv H (rehashLoop H
              (if rngStream mz.seed1 mz.rIdx &&& 1 = 0 then h2v
               else h1v)
              (List.range' 0 m.keysPerBucket) (key ++ val)
              ({ mz with rIdx := mz.rIdx + 1 } : Map)).2.2 :=
            PlacementInv_of_At H _
              (PlacementAt_congr H m _ _ (hsh.1.trans hzbpk)
                (hsh.2.2.2.2.2.1.trans hzs1)
                (hsh.2.2.2.2.2.2.1.trans hzs2)
                (hsh.2.2.2.1.trans hzbp) hloopP.1)
          by_cases hL : (rehashLoop H
              (if rngStream mz.seed1 mz.rIdx &&& 1 = 0 then h2v
               else h1v)
              (List.range' 0 m.keysPerBucket) (key ++ val)
              ({ mz with rIdx := mz.rIdx + 1 } : Map)).1 = true
          · rw [if_pos hL]
            exact ⟨hWFL, hplL⟩
          · rw [if_neg hL]
            by_cases hexp5 : (rehashLoop H
                (if rngStream mz.seed1 mz.rIdx &&& 1 = 0 then h2v
                 else h1v)
                (List.range' 0 m.keysPerBucket) (key ++ val)
                { mz with rIdx := mz.rIdx + 1 }).2.2.expandable = true
            · rw [if_neg (not_not_intro hexp5)]
              exact ih _ key val (WFb_expandBucket H _ hWFL)
                (PlacementInv_expandBucket H _ hWFL hplL)
            · rw [if_pos hexp5]
              obtain ⟨hL1, hL2, hL3⟩ := hWFL
              constructor
              · refine ⟨?_, ?_, hL3⟩
                · show (setSlot (rehashLoop H _ _ _ _).2.2.buckets _ 0
                    (some (rehashLoop H _ _ _ _).2.1)).length = _
                  rw [setSlot_length]
                  exact hL1
                · intro i hi
                  show ((setSlot (rehashLoop H _ _ _ _).2.2.buckets _ 0
                    (some (rehashLoop H _ _ _ _).2.1)).getD i []).length
                    = _
                  rw [setSlot_rowlen]
                  exact hL2 i hi
              · refine PlacementInv_of_At H _
                  (PlacementAt_congr H m _ _ (hsh.1.trans hzbpk)
                    (hsh.2.2.2.2.2.1.trans hzs1)
                    (hsh.2.2.2.2.2.2.1.trans hzs2)
                    (hsh.2.2.2.1.trans hzbp)
                    (PlacementAt_setSlot H m _ _ 0 _ hloopP.1 ?_))
                intro kv2 hkv2
                rw [← Option.some.inj hkv2]
                exact hloopP.2

/-- `update` preserves structural well-formedness and placement: an
overwrite rewrites a found slot, which the lookup only reports in a
masked primary or masked alternate bucket. -/
theorem update_WFb_place (H : Hashers) (m : Map) (key val : List Nat)
    (hWF : WFb m) (hpl : PlacementInv H m) :
    WFb (Map.update H m key val).2 ∧
    PlacementInv H (Map.update H m key val).2 := by
  obtain ⟨hWF1, hWF2, hWF3⟩ := hWF
  simp only [Map.update]
  cases hr : (Map.kvIndexByKey H m key).1 with
  | none =>
    rcases kvIndexByKey_snd H m key with h | h <;> rw [h]
    · exact ⟨⟨hWF1, hWF2, hWF3⟩, hpl⟩
    · exact ⟨⟨hWF1, hWF2, hWF3⟩, hpl⟩
  | some p =>
    obtain ⟨ph, pi⟩ := p
    obtain ⟨hkl, hleg⟩ := kvIndexByKey_some_spec H m key ph pi hr
    rcases kvIndexByKey_snd H m key with h | h <;> rw [h]
    · constructor
      · refine ⟨?_, ?_, hWF3⟩
        · show (setSlot m.buckets ph pi (some (key ++ val))).length =
            m.bucketCount
          rw [setSlot_length]
          exact hWF1
        · intro i hi
          show ((setSlot m.buckets ph pi
            (some (key ++ val))).getD i []).length = m.keysPerBucket
          rw [setSlot_rowlen]
          exact hWF2 i hi
      · refine PlacementInv_of_At H _
          (PlacementAt_congr H m _ _ rfl rfl rfl rfl
            (PlacementAt_setSlot H m m.buckets ph pi
              (some (key ++ val)) hpl ?_))
        intro kv2 hkv2
        rw [← Option.some.inj hkv2, ← hkl, List.take_left]
        rcases hleg with hq | hq
        · left
          exact hq.symm
        · right
          exact hq.symm
    · constructor
      · refine ⟨?_, ?_, hWF3⟩
        · show (setSlot (bumpZ m).buckets ph pi
            (some (key ++ val))).length = m.bucketCount
          rw [setSlot_length]
          exact hWF1
        · intro i hi
          show ((setSlot (bumpZ m).buckets ph pi
            (some (key ++ val))).getD i []).length = m.keysPerBucket
          rw [setSlot_rowlen]
          exact hWF2 i hi
      · refine PlacementInv_of_At H _
          (PlacementAt_congr H m _ _ rfl rfl rfl rfl
            (PlacementAt_setSlot H m m.buckets ph pi
              (some (key ++ val)) hpl ?_))
        intro kv2 hkv2
        rw [← Option.some.inj hkv2, ← hkl, List.take_left]
        rcases hleg with hq | hq
        · left
          exact hq.symm
        · right
          exact hq.symm

/-- `Put` preserves structural well-formedness and placement. -/
theorem Put_WFb_place (H : Hashers) (fuel : Nat) (m : Map)
    (key val : List Nat) (mode : Bool)
    (hWF : WFb m) (hpl : PlacementInv H m) :
    WFb (Map.Put H fuel m key val mode).2 ∧
    PlacementInv H (Map.Put H fuel m key val mode).2 := by
  simp only [Map.Put]
  by_cases hmode : mode = true
  · rw [if_pos hmode]
    cases hr : (Map.kvIndexByKey H m key).1 with
    | some p =>
      obtain ⟨ph, pi⟩ := p
      dsimp only
      rcases kvIndexByKey_snd H m key with h | h <;> rw [h]
      · exact ⟨hWF, hpl⟩
      · exact ⟨hWF, hpl⟩
    | none =>
      dsimp only
      rcases kvIndexByKey_snd H m key with h | h <;> rw [h]
      · exact put1_WFb_place H fuel m key val hWF hpl
      · exact put1_WFb_place H fuel (bumpZ m) key val hWF hpl
  · rw [if_neg hmode]
    by_cases hu : (Map.update H m key val).1.2 = true
    · rw [if_pos hu]
      exact update_WFb_place H m key val hWF hpl
    · rw [if_neg hu]
      dsimp only
      rw [update_not_found H m key val (by simpa using hu)]
      rcases kvIndexByKey_snd H m key with h | h <;> rw [h]
      · exact put1_WFb_place H fuel m key val hWF hpl
      · exact put1_WFb_place H fuel (bumpZ m) key val hWF hpl

/-- `Del` preserves structural well-formedness and placement. -/
theorem Del_WFb_place (H : Hashers) (m : Map) (key : List Nat)
    (hWF : WFb m) (hpl : PlacementInv H m) :
    WFb (Map.Del H m key).2 ∧ PlacementInv H (Map.Del H m key).2 := by
  obtain ⟨hWF1, hWF2, hWF3⟩ := hWF
  simp only [Map.Del]
  cases hr : (Map.kvIndexByKey H m key).1 with
  | none =>
    rcases kvIndexByKey_snd H m key with h | h <;> rw [h]
    · exact ⟨⟨hWF1, hWF2, hWF3⟩, hpl⟩
    · exact ⟨⟨hWF1, hWF2, hWF3⟩, hpl⟩
  | some p =>
    obtain ⟨ph, pi⟩ := p
    rcases kvIndexByKey_snd H m key with h | h <;> rw [h]
    · constructor
      · refine ⟨?_, ?_, hWF3⟩
        · show (setSlot m.buckets ph pi none).length = m.bucketCount
          rw [setSlot_length]
          exact hWF1
        · intro i hi
          show ((setSlot m.buckets ph pi none).getD i []).length =
            m.keysPerBucket
          rw [setSlot_rowlen]
          exact hWF2 i hi
      · refine PlacementInv_of_At H _
          (PlacementAt_congr H m _ _ rfl rfl rfl rfl
            (PlacementAt_setSlot H m m.buckets ph pi none hpl ?_))
        intro kv2 hkv2
        exact absurd hkv2 (by simp)
    · constructor
      · refine ⟨?_, ?_, hWF3⟩
        · show (setSlot (bumpZ m).buckets ph pi none).length =
            m.bucketCount
          rw [setSlot_length]
          exact hWF1
        · intro i hi
          show ((setSlot (bumpZ m).buckets ph pi none).getD i []).length
            = m.keysPerBucket
          rw [setSlot_rowlen]
          exact hWF2 i hi
      · refine PlacementInv_of_At H _
          (PlacementAt_congr H m _ _ rfl rfl rfl rfl
            (PlacementAt_setSlot H m m.buckets ph pi none hpl ?_))
        intro kv2 hkv2
        exact absurd hkv2 (by simp)

/-- `Clear` preserves structural well-formedness and placement. -/
theorem Clear_WFb_place (H : Hashers) (m : Map) (hWF : WFb m) :
    WFb (Map.Clear m) ∧ PlacementInv H (Map.Clear m) := by
  obtain ⟨hWF1, hWF2, hWF3⟩ := hWF
  constructor
  · refine ⟨?_, ?_, hWF3⟩
    · show (List.replicate m.bucketCount
        (List.replicate m.keysPerBucket none)).length = m.bucketCount
      rw [List.length_replicate]
    · intro i hi
      show ((List.replicate m.bucketCount
        (List.replicate m.keysPerBucket none)).getD i []).length =
        m.keysPerBucket
      rw [getD_lt _ _ _ (by rw [List.length_replicate]; exact hi),
        List.getElem_replicate, List.length_replicate]
  · intro i j kv hslot
    rw [show (Map.Clear m).buckets = List.replicate m.bucketCount
      (List.replicate m.keysPerBucket none) from rfl,
      slotOf_replicate_none] at hslot
    exact absurd hslot (by simp)

/-- A successfully constructed map is well-formed and (vacuously)
correctly placed. -/
theorem newMap_WFb_place (H : Hashers) (bpk kpb bc : Nat)
    (h1f h2f : Option HashFn) (exp : Bool) (seed : Nat) (m : Map)
    (hok : newMap bpk kpb bc h1f h2f exp seed = .ok m) :
    WFb m ∧ PlacementInv H m := by
  unfold newMap at hok
  by_cases h1 : bpk = 0
  · rw [if_pos h1] at hok
    exact absurd hok (by simp)
  rw [if_neg h1] at hok
  by_cases h2 : kpb = 0
  · rw [if_pos h2] at hok
    exact absurd hok (by simp)
  rw [if_neg h2] at hok
  dsimp only at hok
  by_cases h3 : nextPowerOfTwo bc = 0
  · rw [if_pos h3] at hok
    exact absurd hok (by simp)
  rw [if_neg h3] at hok
  by_cases h4 : (h1f.isNone || h2f.isNone) = true
  · rw [if_pos h4] at hok
    exact absurd hok (by simp)
  rw [if_neg h4] at hok
  have hm := (Except.ok.inj hok).symm
  obtain ⟨p, hp31, hpe⟩ := nextPowerOfTwo_power
    (show bc % P32 < P32 from Nat.mod_lt _ (by decide))
    (by rw [← nextPowerOfTwo_mod]; exact h3)
  rw [← nextPowerOfTwo_mod] at hpe
  have htz : tz32 (nextPowerOfTwo bc) = p := by
    rw [hpe]
    exact tz32_two_pow hp31
  constructor
  · refine ⟨?_, ?_, ?_⟩
    · rw [hm]
      show (List.replicate (nextPowerOfTwo bc)
        (List.replicate kpb none)).length = nextPowerOfTwo bc
      rw [List.length_replicate]
    · intro i hi
      rw [hm]
      rw [hm] at hi
      show ((List.replicate (nextPowerOfTwo bc)
        (List.replicate kpb none)).getD i []).length = kpb
      have hi2 : i < nextPowerOfTwo bc := hi
      rw [getD_lt _ _ _ (by rw [List.length_replicate]; exact hi2),
        List.getElem_replicate, List.length_replicate]
    · rw [hm]
      show nextPowerOfTwo bc = 2 ^ tz32 (nextPowerOfTwo bc)
      rw [htz, hpe]
  · intro i j kv hslot
    rw [hm] at hslot
    have hslot2 : slotOf (List.replicate (nextPowerOfTwo bc)
        (List.replicate kpb none)) i j = some kv := hslot
    rw [slotOf_replicate_none] at hslot2
    exact absurd hslot2 (by simp)

/-- Every reachable state is well-formed and correctly placed. -/
theorem reachable_inv (H : Hashers) (m : Map) (h : Reachable H m) :
    WFb m ∧ PlacementInv H m := by
  induction h with
  | base bpk kpb bc h1f h2f exp seed m hok =>
    exact newMap_WFb_place H bpk kpb bc h1f h2f exp seed m hok
  | put m fuel key val mode _ ih =>
    exact Put_WFb_place H fuel m key val mode ih.1 ih.2
  | del m key _ ih =>
    exact Del_WFb_place H m key ih.1 ih.2
  | clear m _ ih =>
    exact Clear_WFb_place H m ih.1

/-- C4: in every state reachable from construction by the public
mutating operations (`Put`, `Del`, `Clear`), every present entry at
bucket index `i` with key `k` satisfies `i = hash1(k)` or
`i = hash2(k, hash1(k))`, the masked primary and masked alternate
indices of the state. -/
theorem c4_reachable_placement (H : Hashers) (m : Map)
    (h : Reachable H m) : PlacementInv H m :=
  (reachable_inv H m h).2

/-- C4 witness: a freshly constructed 1×1×1 map is reachable and
satisfies the placement invariant. -/
theorem c4_reachable_placement_witness :
    newMap 1 1 1 (some chA) (some chB) true 0 = Except.ok mA ∧
    PlacementInv HA mA :=
  ⟨rfl, c4_reachable_placement HA mA
    (Reachable.base 1 1 1 (some chA) (some chB) true 0 mA rfl)⟩

/-- Every row of the faithful expansion allocation is empty. -/
theorem expandAlloc_getD (m : Map) (hq : Nat) :
    (expandAlloc m).getD hq [] = ([] : List (Option (List Nat))) := by
  by_cases h : hq < (expandAlloc m).length
  · unfold expandAlloc at h ⊢
    rw [getD_lt _ _ _ h, List.getElem_replicate]
  · rw [getD_ge _ _ _ (by omega)]

/-- C2: code bug.  `expandBucket` (map.go:763-805) allocates only the
outer doubled array — every row is nil, with no `initBuckets`-style
row-allocation loop — so in the faithful allocation the row of any
relocation target is empty, and the relocation write
`buckets[h][j] = kv` (map.go:795) is out of range for every present
entry: the Go program panics instead of relocating, and no expansion
step ever completes, so the claimed slot-preserving, multiset-preserving
relocation never takes place.  The expansion step is reached, with the
kicked bucket full and hence an entry to relocate, by inserting a
second key into the full expandable map `c2bug`. -/
theorem c2_expansion_code_bug :
    (∀ (m : Map) (hq : Nat),
      (expandAlloc m).getD hq [] = ([] : List (Option (List Nat)))) ∧
    (∀ (H : Hashers) (m : Map) (i j : Nat) (kv : List Nat),
      ((expandAlloc m).getD (Map.expandTarget H m i kv) []).length ≤
        j) ∧
    c2bug.expandable = true ∧
    slotOf c2bug.buckets 0 0 = some ([0] ++ [1]) ∧
    ((expandAlloc c2bug).getD
      (Map.expandTarget HA c2bug 0 ([0] ++ [1])) []).length = 0 ∧
    (Map.Put HA 4 c2bug [1] [9] false).2.expansionCount ≠ 0 :=
  ⟨expandAlloc_getD,
   fun _ m i j kv => by
     rw [expandAlloc_getD]
     exact Nat.zero_le j,
   by decide, by decide, by decide, by decide⟩

end Cuckoo





